import Mathlib

/-!
# Verification of `src/define-view.js`

A shallow embedding of the View Assembler (`defineView`) and of the Tree Hook
Rewriter (`replaceStreamNameWithForwardFunction`).

Modelling decisions.

* JavaScript values are the inductive `Val`.  Objects that carry identity
  (`Rx.Subject` instances) are named by the number of their allocation; the
  allocator is a counter threaded through `defineView`.
* A tree snapshot is the inductive `VTree`: finite and without sharing.  The
  rewriter mutates it in place and may throw part-way, so a call yields the
  tree as the call leaves it together with the exception raised, if any.
* An object is its own fields and the fields it inherits.  The one accessor
  that matters is modelled: a write to `__proto__` that reaches the setter of
  `Object.prototype` replaces the inherited fields (`Obj.set`).  What is read
  through an object of the Rx library is a parameter (`Members`).
* Numbers are left out of `Val`; property keys are strings, and every other
  value is coerced to a key by `toKey` as `view[streamName]` does.  A function
  coerces to its source text, as `Function.prototype.toString` returns it in
  engines that keep the source (V8; required since ES2019).
* A character of a string stands for one UTF-16 code unit: strings are taken
  within the Basic Multilingual Plane.  The order of an association list is
  the order of insertion, which is the enumeration order of the fields whose
  names are not array indices.
* Frozen objects, proxies and accessors other than `__proto__` are not
  modelled.
* Calling a function value is `call`, which threads the log of `onNext`
  calls (`Log`) and fails with `JsError.typeError` where JavaScript throws.
* Where the identity of the objects the rewriter writes matters (a hook
  descriptor may be the view itself), the rewriter is also given on a store
  of objects (`replaceInStore`): the view and each hook descriptor are
  addresses, and the nodes stay a tree.
* `map` and `subscribe` of the Rx library are not among the sources: a
  derived observable calls the function on each value as it arrives, hands
  the result on at once, and ends the subscription with the error when the
  function throws (`subscribeMapped`).
-/

namespace DefineView

/-! ## Values -/

/-- JavaScript values that occur in the program. -/
inductive Val where
  /-- The value `undefined`. -/
  | undefined
  /-- The value `null`. -/
  | null
  /-- A boolean. -/
  | bool (b : Bool)
  /-- A string. -/
  | str (s : String)
  /-- An array of strings, such as the `events` declaration. -/
  | names (xs : List String)
  /-- The function `noop` of line 6. -/
  | noop
  /-- The closure `forwardIntoStream` of line 9, with the `stream` it closes over. -/
  | forwardIntoStream (stream : Val)
  /-- An `Rx.Subject` instance, named by its allocation number. -/
  | subject (id : Nat)
  /-- The observable `source.map(function (vtree) ...)` of lines 45-49. -/
  | mapped (source : Val)
  /-- The closure assigned to `view.clone` on lines 50-52. -/
  | cloneFn
  /-- An observable that is not a Subject, named by a number. -/
  | observable (id : Nat)
  /-- A function from outside the program (a built-in or a library method): its name,
  its number of declared parameters and the text `Function.prototype.toString` gives. -/
  | func (name : String) (arity : Nat) (source : String)
  /-- Any other object (one without an `onNext` or `map` method), named by a number. -/
  | object (id : Nat)
  deriving DecidableEq, Repr

/-- The test `typeof v === 'function'`. -/
def isCallable : Val → Bool
  | .noop => true
  | .forwardIntoStream _ => true
  | .cloneFn => true
  | .func _ _ _ => true
  | _ => false

/-- The test `typeof v === 'string'`. -/
def isString : Val → Bool
  | .str _ => true
  | _ => false

/-- Whether the value is an object (functions and arrays included), as the setter of
`__proto__` tests it. -/
def isObject : Val → Bool
  | .undefined => false
  | .null => false
  | .bool _ => false
  | .str _ => false
  | _ => true

/-- JavaScript's ToBoolean, as applied by `if (view[streamName])` and `if (view.events)`. -/
def truthy : Val → Bool
  | .undefined => false
  | .null => false
  | .bool b => b
  | .str s => s != ""
  | _ => true

/-- The source text of `noop`, which is what the function coerces to as a property key. -/
def noopSource : String := "function noop() \x7b\x7d"

/-- The source text of `forwardIntoStream`. -/
def forwardSource : String := "function forwardIntoStream(ev) \x7b stream.onNext(ev); \x7d"

/-- The source text of the `clone` closure. -/
def cloneSource : String :=
  "function () \x7b\n    return defineView(modelInterface, definitionFn);\n  \x7d"

/-- JavaScript's ToPropertyKey for the values of the model: what `view[v]` uses as the
field name.  A function coerces to its source text, a plain object to `[object Object]`,
an array to its elements joined by commas. -/
def toKey : Val → String
  | .undefined => "undefined"
  | .null => "null"
  | .bool true => "true"
  | .bool false => "false"
  | .str s => s
  | .names xs => ",".intercalate xs
  | .noop => noopSource
  | .forwardIntoStream _ => forwardSource
  | .subject _ => "[object Object]"
  | .mapped _ => "[object Object]"
  | .cloneFn => cloneSource
  | .observable _ => "[object Object]"
  | .func _ _ source => source
  | .object _ => "[object Object]"

/-! ## Objects -/

/-- An object: its own fields, and the fields it inherits through its prototype chain.
An inherited entry named `__proto__` stands for the accessor of `Object.prototype`,
and its value for what the getter returns: the object's prototype. -/
structure Obj where
  /-- Own fields, one entry per name. -/
  own : List (String × Val)
  /-- Inherited fields. -/
  proto : List (String × Val)
  deriving DecidableEq, Repr

/-- What is read through an object value: for each object, the fields a read finds on it,
own or inherited.  The objects of the Rx library are not part of the sources, so their
fields are a parameter of the model. -/
abbrev Members := Val → List (String × Val)

/-- The value stored under `k` in an association list. -/
def lookup (k : String) : List (String × Val) → Option Val
  | [] => none
  | (k', v) :: rest => if k' = k then some v else lookup k rest

/-- Writing `k` in an association list: the entry is replaced where it stands, or appended. -/
def assign (k : String) (v : Val) : List (String × Val) → List (String × Val)
  | [] => [(k, v)]
  | (k', v') :: rest => if k' = k then (k, v) :: rest else (k', v') :: assign k v rest

/-- Removing every entry named `k`. -/
def remove (k : String) : List (String × Val) → List (String × Val)
  | [] => []
  | (k', v') :: rest => if k' = k then remove k rest else (k', v') :: remove k rest

/-- The read `o[k]`: the own field, else the inherited one, else `undefined`. -/
def Obj.get (o : Obj) (k : String) : Val :=
  match lookup k o.own with
  | some v => v
  | none =>
    match lookup k o.proto with
    | some v => v
    | none => .undefined

/-- A write that creates or replaces an own field. -/
def Obj.put (o : Obj) (k : String) (v : Val) : Obj :=
  { o with own := assign k v o.own }

/-- Whether a write to `__proto__` reaches the setter of `Object.prototype`: the object
has no own field of that name and inherits the accessor. -/
def Obj.runsProtoSetter (o : Obj) : Bool :=
  (lookup "__proto__" o.own).isNone && (lookup "__proto__" o.proto).isSome

/-- The fields inherited by an object whose prototype is the object `v`: what is read
through `v`, with the accessor `__proto__` now returning `v` itself. -/
def inheritedThrough (members : Members) (v : Val) : List (String × Val) :=
  (members v).map (fun p => if p.1 = "__proto__" then (p.1, v) else p)

/-- The setter of `__proto__` called with `v`: `null` leaves no prototype, an object
becomes the prototype, any other value is ignored. -/
def Obj.setPrototype (members : Members) (o : Obj) (v : Val) : Obj :=
  match v with
  | .null => { o with proto := [] }
  | _ => if isObject v then { o with proto := inheritedThrough members v } else o

/-- The write `o[k] = v`.  It creates or replaces an own field, except that a write to
`__proto__` which reaches the inherited setter changes the prototype instead. -/
def Obj.set (members : Members) (o : Obj) (k : String) (v : Val) : Obj :=
  if k = "__proto__" ∧ o.runsProtoSetter = true then o.setPrototype members v
  else o.put k v

/-- The statement `delete o[k]`, which removes an own field. -/
def Obj.delete (o : Obj) (k : String) : Obj :=
  { o with own := remove k o.own }

/-- The test `o.hasOwnProperty(k)`. -/
def Obj.hasOwn (o : Obj) (k : String) : Bool :=
  (lookup k o.own).isSome

/-- The fields every ordinary object inherits from `Object.prototype` (V8): the built-in
methods, and the accessor `__proto__`, which reads as `Object.prototype` itself (here
the object 0). -/
def objectPrototype : List (String × Val) :=
  [("constructor", .func "Object" 1 "function Object() \x7b [native code] \x7d"),
   ("__defineGetter__",
     .func "__defineGetter__" 2 "function __defineGetter__() \x7b [native code] \x7d"),
   ("__defineSetter__",
     .func "__defineSetter__" 2 "function __defineSetter__() \x7b [native code] \x7d"),
   ("hasOwnProperty",
     .func "hasOwnProperty" 1 "function hasOwnProperty() \x7b [native code] \x7d"),
   ("__lookupGetter__",
     .func "__lookupGetter__" 1 "function __lookupGetter__() \x7b [native code] \x7d"),
   ("__lookupSetter__",
     .func "__lookupSetter__" 1 "function __lookupSetter__() \x7b [native code] \x7d"),
   ("isPrototypeOf",
     .func "isPrototypeOf" 1 "function isPrototypeOf() \x7b [native code] \x7d"),
   ("propertyIsEnumerable",
     .func "propertyIsEnumerable" 1
       "function propertyIsEnumerable() \x7b [native code] \x7d"),
   ("toString", .func "toString" 0 "function toString() \x7b [native code] \x7d"),
   ("valueOf", .func "valueOf" 0 "function valueOf() \x7b [native code] \x7d"),
   ("__proto__", .object 0),
   ("toLocaleString",
     .func "toLocaleString" 0 "function toLocaleString() \x7b [native code] \x7d")]

/-! ## Tree snapshots -/

/-- A hook descriptor: its `value` field and its other fields. -/
structure Hook where
  /-- The field `value`. -/
  value : Val
  /-- Every other field of the descriptor. -/
  rest : List (String × Val)
  deriving DecidableEq, Repr

/-- The `children` field of a node. -/
inductive Kids (α : Type) where
  /-- An array of nodes: `Array.isArray(children)` holds. -/
  | array (cs : List α)
  /-- A single node stored directly, not in an array: `Array.isArray` fails. -/
  | single (c : α)
  /-- No node at all: absent (`undefined`) or some other value. -/
  | other (v : Val)
  deriving Repr

/-- A node of a tree snapshot: its plain fields, its `hooks` field when it has one
(a plain object: the own enumerable entries, by key, each a descriptor object) and its
`children` field. -/
inductive VTree where
  | node (props : List (String × Val)) (hooks : Option (List (String × Hook)))
      (children : Kids VTree)
  deriving Repr

/-! ## The Tree Hook Rewriter (lines 6-32) -/

/-- The failures JavaScript raises in this program. -/
inductive JsError where
  /-- A `TypeError`: a method is missing on the receiver, or the callee is no function. -/
  | typeError
  deriving DecidableEq, Repr

/-- Line 8: `getFunctionForwardIntoStream(stream)` returns the closure over `stream`. -/
def getFunctionForwardIntoStream (stream : Val) : Val :=
  .forwardIntoStream stream

/-- Lines 18-23: the new `value` of a hook whose current value is `streamName`. -/
def rewriteValue (view : Obj) (streamName : Val) : Val :=
  if truthy (view.get (toKey streamName)) then
    getFunctionForwardIntoStream (view.get (toKey streamName))
  else
    .noop

/-- Whether the hooks object has an own key `hasOwnProperty`; the entries hold the
descriptors, or their addresses. -/
def ownsHasOwnProperty {α : Type} (hooks : List (String × α)) : Bool :=
  hooks.any (fun kh => kh.1 == "hasOwnProperty")

/-- Line 17: the call `vtree.hooks.hasOwnProperty(key)`.  The method is read on the hooks
object itself.  When that object has an own key `hasOwnProperty`, the value read is a
hook descriptor, which is no function, and the call throws; otherwise the method is the
one of `Object.prototype` and tells whether `key` is an own key. -/
def hasOwnPropertyCall {α : Type} (hooks : List (String × α)) (key : String) :
    Except JsError Bool :=
  if ownsHasOwnProperty hooks then .error .typeError
  else .ok (hooks.any (fun kh => kh.1 == key))

/-- Lines 16-25: the iterations of the `for ... in` loop over the entries still to come,
`hooks` being the whole hooks object.  The result is the entries as the loop leaves them
and the exception that ended it, if any. -/
def rewriteHooksFrom (view : Obj) (hooks : List (String × Hook)) :
    List (String × Hook) → List (String × Hook) × Option JsError
  | [] => ([], none)
  | (key, h) :: rest =>
    match hasOwnPropertyCall hooks key with
    | .error e => ((key, h) :: rest, some e)
    | .ok false =>
      ((key, h) :: (rewriteHooksFrom view hooks rest).1, (rewriteHooksFrom view hooks rest).2)
    | .ok true =>
      ((key, { h with value := rewriteValue view h.value })
        :: (rewriteHooksFrom view hooks rest).1, (rewriteHooksFrom view hooks rest).2)

/-- Lines 16-25: the `for ... in` loop over the keys of `vtree.hooks`. -/
def rewriteHooks (view : Obj) (hooks : List (String × Hook)) :
    List (String × Hook) × Option JsError :=
  rewriteHooksFrom view hooks hooks

mutual
/-- Lines 14-32: `replaceStreamNameWithForwardFunction(vtree, view)`.  The result is the
tree as the call leaves it and the exception the call ended with, if any: after an
exception nothing more is written and no further node is entered. -/
def replaceStreamNameWithForwardFunction : VTree → Obj → VTree × Option JsError
  | .node props hooks children, view =>
    match hooks with
    | none =>
      (.node props none (replaceInChildren children view).1,
        (replaceInChildren children view).2)
    | some hs =>
      match (rewriteHooks view hs).2 with
      | some e => (.node props (some (rewriteHooks view hs).1) children, some e)
      | none =>
        (.node props (some (rewriteHooks view hs).1) (replaceInChildren children view).1,
          (replaceInChildren children view).2)
/-- Lines 27-31: the `children` field after the loop; only an array is entered. -/
def replaceInChildren : Kids VTree → Obj → Kids VTree × Option JsError
  | .array cs, view => (.array (replaceEach cs view).1, (replaceEach cs view).2)
  | .single c, _ => (.single c, none)
  | .other v, _ => (.other v, none)
/-- Lines 28-30: the recursive call on each element of the array, in order, up to the
first call that throws. -/
def replaceEach : List VTree → Obj → List VTree × Option JsError
  | [], _ => ([], none)
  | c :: cs, view =>
    match (replaceStreamNameWithForwardFunction c view).2 with
    | some e => ((replaceStreamNameWithForwardFunction c view).1 :: cs, some e)
    | none =>
      ((replaceStreamNameWithForwardFunction c view).1 :: (replaceEach cs view).1,
        (replaceEach cs view).2)
end

/-! ## Observations on trees -/

mutual
/-- The `value` of every hook descriptor of every node of the tree, at every depth,
in document order. -/
def hookValues : VTree → List Val
  | .node _ hooks children =>
    (match hooks with
     | none => []
     | some hs => hs.map (fun kh => kh.2.value)) ++ hookValuesKids children
/-- The hook values beneath a `children` field. -/
def hookValuesKids : Kids VTree → List Val
  | .array cs => hookValuesList cs
  | .single c => hookValues c
  | .other _ => []
/-- The hook values of a list of nodes. -/
def hookValuesList : List VTree → List Val
  | [] => []
  | c :: cs => hookValues c ++ hookValuesList cs
end

mutual
/-- The `value` of every hook descriptor of the nodes reached from the root through
`children` fields that are arrays, in document order. -/
def reachedHookValues : VTree → List Val
  | .node _ hooks children =>
    (match hooks with
     | none => []
     | some hs => hs.map (fun kh => kh.2.value)) ++ reachedHookValuesKids children
/-- The reached hook values beneath a `children` field. -/
def reachedHookValuesKids : Kids VTree → List Val
  | .array cs => reachedHookValuesList cs
  | .single _ => []
  | .other _ => []
/-- The reached hook values of a list of nodes. -/
def reachedHookValuesList : List VTree → List Val
  | [] => []
  | c :: cs => reachedHookValues c ++ reachedHookValuesList cs
end

mutual
/-- A well-formed tree snapshot: the `children` of each node, when present, is an array
of well-formed nodes. -/
def wellFormed : VTree → Bool
  | .node _ _ children => wellFormedKids children
/-- The `children` field of a well-formed node: an array of nodes, or absent. -/
def wellFormedKids : Kids VTree → Bool
  | .array cs => wellFormedList cs
  | .single _ => false
  | .other v => v == .undefined
/-- Every node of the list is well formed. -/
def wellFormedList : List VTree → Bool
  | [] => true
  | c :: cs => wellFormed c && wellFormedList cs
end

mutual
/-- Whether some node reached from the root through `children` fields that are arrays
has a hooks object with an own key `hasOwnProperty`. -/
def shadowsHasOwnProperty : VTree → Bool
  | .node _ hooks children =>
    (match hooks with
     | none => false
     | some hs => ownsHasOwnProperty hs) || shadowsKids children
/-- The same, beneath a `children` field. -/
def shadowsKids : Kids VTree → Bool
  | .array cs => shadowsList cs
  | .single _ => false
  | .other _ => false
/-- The same, in a list of nodes. -/
def shadowsList : List VTree → Bool
  | [] => false
  | c :: cs => shadowsHasOwnProperty c || shadowsList cs
end

/-- The hook entries with every value rewritten: what the loop of lines 16-25 leaves when
it runs to its end. -/
def rewriteAll (view : Obj) (hs : List (String × Hook)) : List (String × Hook) :=
  hs.map (fun kh => (kh.1, { kh.2 with value := rewriteValue view kh.2.value }))

/-! ## Calling hook values (lines 6-10) -/

/-- The log of `onNext` calls made on Subjects: the channel and the event, oldest first. -/
abbrev Log := List (Nat × Val)

/-- The call `stream.onNext(ev)` of line 9.  Only a Subject has the method; on every other
value of the model the property is missing and the call throws. -/
def onNext (stream ev : Val) (log : Log) : Except JsError Log :=
  match stream with
  | .subject id => .ok (log ++ [(id, ev)])
  | _ => .error .typeError

/-- Calling the value `f` with the argument `ev`.  `noop` does nothing, `forwardIntoStream`
runs line 9; a value that is no function throws.  What `clone` does depends on the
arguments of the `defineView` call that made it, which the value does not carry, and the
body of a function from outside the program is not part of the model: for these the
result is `none`. -/
def call (f ev : Val) (log : Log) : Option (Except JsError Log) :=
  match f with
  | .noop => some (.ok log)
  | .forwardIntoStream stream => some (onNext stream ev log)
  | .cloneFn => none
  | .func _ _ _ => none
  | _ => some (.error .typeError)

/-- The events a subscriber of channel `id`, registered beforehand, has received. -/
def observed (id : Nat) (log : Log) : List Val :=
  (log.filter (fun p => p.1 == id)).map (fun p => p.2)

/-! ## The View Assembler (lines 34-54) -/

/-- Modelled from the spec: `BackwardFunction` (`src/backward-function.js` is not among the
sources).  Section 4.1: it invokes `definitionFn` exactly once with the placeholder built
from the interface and returns its result unmodified. -/
def BackwardFunction (modelInterface : Obj) (definitionFn : Obj → Obj) : Obj :=
  definitionFn modelInterface

/-- Modelled from the spec: `errors.customInterfaceErrorMessageInInject` (`src/errors.js` is
not among the sources).  Section 4.2: it changes how a missing capability fails and does
not alter any field of the result object. -/
def customInterfaceErrorMessageInInject (view : Obj) (_message : String) : Obj :=
  view

/-- The property `length` of a value, where it has one: the number of elements of an
array, of characters of a string, of declared parameters of a function. -/
def lengthOf : Val → Option Nat
  | .names xs => some xs.length
  | .str s => some s.length
  | .noop => some 0
  | .forwardIntoStream _ => some 1
  | .cloneFn => some 0
  | .func _ arity _ => some arity
  | _ => none

/-- The read `v[i]`: it throws on `undefined` and `null`; it is an element of an array,
a one-character string of a string, and `undefined` on any other value. -/
def index (v : Val) (i : Nat) : Except JsError Val :=
  match v with
  | .undefined => .error .typeError
  | .null => .error .typeError
  | .names xs =>
    match xs.get? i with
    | some x => .ok (.str x)
    | none => .ok .undefined
  | .str s =>
    match s.toList.get? i with
    | some c => .ok (.str (String.singleton c))
    | none => .ok .undefined
  | _ => .ok .undefined

/-- Lines 40-42: the loop `for (var i = n - 1; i >= 0; i--)`, with `n` the number of
iterations left; the iteration run first has `i = n - 1`.  `view.events` is read afresh
in each iteration and `new Rx.Subject()` takes the next allocation number. -/
def eventsLoop (members : Members) : Nat → Obj → Nat → Except JsError (Obj × Nat)
  | 0, view, next => .ok (view, next)
  | i + 1, view, next =>
    match index (view.get "events") i with
    | .error e => .error e
    | .ok name => eventsLoop members i (view.set members (toKey name) (.subject next)) (next + 1)

/-- Lines 39-44: the channels are created when `view.events` is truthy, and the field
`events` is then deleted.  A value without `length` gives `NaN - 1`, and no iteration. -/
def createChannels (members : Members) (view : Obj) (next : Nat) :
    Except JsError (Obj × Nat) :=
  if truthy (view.get "events") then
    match eventsLoop members ((lengthOf (view.get "events")).getD 0) view next with
    | .error e => .error e
    | .ok r => .ok (r.1.delete "events", r.2)
  else
    .ok (view, next)

/-- The call `source.map(fn)` of line 45 with the function of lines 45-49: an observable
gives the derived observable; an array of strings is mapped by `Array.prototype.map`,
and the function returns each string as it is; any other value has no `map` and the
call throws. -/
def rxMap : Val → Except JsError Val
  | .subject id => .ok (.mapped (.subject id))
  | .mapped s => .ok (.mapped (.mapped s))
  | .observable id => .ok (.mapped (.observable id))
  | .names xs => .ok (.names xs)
  | _ => .error .typeError

/-- Lines 45-53: what `defineView` does after the channels are created, on the view and
allocation number that lines 39-44 leave. -/
def finishView (members : Members) (r : Obj × Nat) : Except JsError (Obj × Nat) :=
  match rxMap (r.1.get "vtree$") with
  | .error e => .error e
  | .ok derived =>
    .ok (((r.1.set members "vtree$" derived).set members "clone" .cloneFn), r.2)

/-- Lines 34-54: `defineView(modelInterface, definitionFn)`, with `next` the next free
allocation number; the result is the view and the allocation number after the call. -/
def defineView (members : Members) (modelInterface : Obj) (definitionFn : Obj → Obj)
    (next : Nat) : Except JsError (Obj × Nat) :=
  let view := BackwardFunction modelInterface definitionFn
  let view := customInterfaceErrorMessageInInject view
    "View expects Model to have the required property "
  match createChannels members view next with
  | .error e => .error e
  | .ok r => finishView members r

/-- Lines 50-52: calling the closure stored in `view.clone`, which closes over the
arguments of the `defineView` call that made it. -/
def callClone (members : Members) (modelInterface : Obj) (definitionFn : Obj → Obj)
    (next : Nat) : Except JsError (Obj × Nat) :=
  defineView members modelInterface definitionFn next

/-- The result object of a definition function: `vtree$` and the declaration `events`,
an ordinary object that inherits from `Object.prototype`. -/
def definitionResult (vtree : Val) (events : List String) : Obj :=
  ⟨[("vtree$", vtree), ("events", .names events)], objectPrototype⟩

/-- The position of the last occurrence of `k` in the list (0 when absent). -/
def lastIndex (k : String) : List String → Nat
  | [] => 0
  | _ :: xs => if k ∈ xs then lastIndex k xs + 1 else 0

/-- The names declared after the last occurrence of `events` (all of them when `events`
is not declared): the names the loop of lines 40-42 reads before a write to
`view.events` replaces the declaration. -/
def afterLastEvents : List String → List String
  | [] => []
  | x :: xs =>
    if "events" ∈ xs then afterLastEvents xs
    else if x = "events" then xs else x :: xs

/-- Writing a fresh Subject under each key of the list, in the order of the list. -/
def writeKeys (members : Members) : List String → Obj → Nat → Obj × Nat
  | [], view, next => (view, next)
  | k :: ks, view, next =>
    writeKeys members ks (view.set members k (.subject next)) (next + 1)

/-! ## The keys the loop writes -/

/-- The keys other than `events` that the loop of lines 40-42 writes: the names declared
after the last `events` entry (all the names when `events` is not declared) and, when an
entry stands before an `events` entry, the key `undefined`, which is what the loop reads
as the name once the write of `events` has replaced the declaration. -/
def writtenNames (E : List String) : List String :=
  afterLastEvents E ++
    (if (afterLastEvents E).length + 2 ≤ E.length then ["undefined"] else [])


/-- The allocation number, counted from the first allocation of the call, of the Subject
that a written name ends with.  The loop of lines 40-42
runs from the last entry to the first, so the last write under a name is the one of its
first occurrence after the last `events` entry; the key `undefined`, when entries stand
before an `events` entry, is written last of all, by the first entry. -/
def channelNumber (E : List String) (k : String) : Nat :=
  if k = "undefined" ∧ (afterLastEvents E).length + 2 ≤ E.length then E.length - 1
  else lastIndex k (afterLastEvents E).reverse

/-! ## Channel creation in declaration order (the order the claim compares with) -/

/-- The loop of lines 40-42 as it would run in declaration order,
`for (var i = 0; i < n; i++)`: `left` iterations remain and the next one has index `i`.
As in the source, the number of iterations is read once, `view.events` is read afresh
in each iteration and `new Rx.Subject()` takes the next allocation number. -/
def eventsLoopDeclarationOrder (members : Members) :
    Nat → Nat → Obj → Nat → Except JsError (Obj × Nat)
  | 0, _, view, next => .ok (view, next)
  | left + 1, i, view, next =>
    match index (view.get "events") i with
    | .error e => .error e
    | .ok name =>
      eventsLoopDeclarationOrder members left (i + 1)
        (view.set members (toKey name) (.subject next)) (next + 1)

/-- Lines 39-44 with the loop run in declaration order. -/
def createChannelsDeclarationOrder (members : Members) (view : Obj) (next : Nat) :
    Except JsError (Obj × Nat) :=
  if truthy (view.get "events") then
    match eventsLoopDeclarationOrder members ((lengthOf (view.get "events")).getD 0) 0
        view next with
    | .error e => .error e
    | .ok r => .ok (r.1.delete "events", r.2)
  else
    .ok (view, next)

/-- The View Assembler with the channels created in declaration order: `defineView` with
lines 39-44 replaced by `createChannelsDeclarationOrder`. -/
def defineViewDeclarationOrder (members : Members) (modelInterface : Obj)
    (definitionFn : Obj → Obj) (next : Nat) : Except JsError (Obj × Nat) :=
  let view := BackwardFunction modelInterface definitionFn
  let view := customInterfaceErrorMessageInInject view
    "View expects Model to have the required property "
  match createChannelsDeclarationOrder members view next with
  | .error e => .error e
  | .ok r => finishView members r

/-! ## Subscriptions to the derived `vtree$` (lines 45-49) -/

/-- The snapshot objects, by address. -/
abbrev Heap := Nat → VTree

/-- Lines 45-49: the function given to `map`, applied to the snapshot object at address
`a`.  The rewriter mutates the object in place; the function returns the same object,
or ends with the exception the rewriter threw. -/
def mapFn (view : Obj) (a : Nat) (h : Heap) : Heap × Except JsError Nat :=
  (fun b => if b = a then (replaceStreamNameWithForwardFunction (h a) view).1 else h b,
    match (replaceStreamNameWithForwardFunction (h a) view).2 with
    | some e => .error e
    | none => .ok a)

/-- What one subscription leaves: the heap, what the subscriber received (each object
with its content when it was handed over), and the error delivered to it, if any. -/
structure Delivery where
  /-- The snapshot objects after the subscription. -/
  heap : Heap
  /-- The values handed to `onNext`, in order. -/
  received : List (Nat × VTree)
  /-- The error handed to `onError`, which ends the subscription. -/
  failed : Option JsError

/-- One subscription to `source.map(fn)`, the source handing the objects `emitted` to it
in order.  This is the `map` of the Rx library, which is not among the sources: the
function is called on each value as it arrives and its result is handed on at once;
when the function throws, the error is handed to the subscriber and the subscription
ends, so the values that follow are not delivered. -/
def subscribeMapped (view : Obj) : List Nat → Heap → Delivery
  | [], h => ⟨h, [], none⟩
  | a :: rest, h =>
    match (mapFn view a h).2 with
    | .error e => ⟨(mapFn view a h).1, [], some e⟩
    | .ok b =>
      ⟨(subscribeMapped view rest (mapFn view a h).1).heap,
        (b, (mapFn view a h).1 b) :: (subscribeMapped view rest (mapFn view a h).1).received,
        (subscribeMapped view rest (mapFn view a h).1).failed⟩

/-- Subscribing to the value stored in `view.vtree$`, where `emits` gives the objects each
source observable hands to a subscriber.  A derived observable subscribes to its source;
a Subject or plain observable emits as it is; other values have no `subscribe`. -/
def subscribeVtree (emits : Val → List Nat) (view : Obj) (h : Heap) :
    Except JsError Delivery :=
  match view.get "vtree$" with
  | .mapped source => .ok (subscribeMapped view (emits source) h)
  | .subject id => .ok ⟨h, (emits (.subject id)).map (fun a => (a, h a)), none⟩
  | .observable id => .ok ⟨h, (emits (.observable id)).map (fun a => (a, h a)), none⟩
  | _ => .error .typeError

/-- The heap after `k` successive subscriptions to `view.vtree$`, the sources being
repeatable: they hand the same objects to every subscriber. -/
def subscribeTimes (emits : Val → List Nat) (view : Obj) : Nat → Heap → Except JsError Heap
  | 0, h => .ok h
  | k + 1, h =>
    match subscribeVtree emits view h with
    | .error e => .error e
    | .ok d => subscribeTimes emits view k d.heap

/-- The values that are Rx observables: they have `map` and `subscribe`. -/
def isObservable : Val → Bool
  | .subject _ => true
  | .mapped _ => true
  | .observable _ => true
  | _ => false

/-! ## The shape of a tree -/

/-- The hook entries with every `value` blanked: the keys, their order and the other
fields of each descriptor. -/
def blankHooks : List (String × Hook) → List (String × Hook)
  | [] => []
  | (key, h) :: rest => (key, { h with value := .undefined }) :: blankHooks rest

mutual
/-- The tree with the `value` of every hook descriptor blanked: everything in a tree
except the hook values. -/
def skeleton : VTree → VTree
  | .node props hooks children =>
    .node props
      (match hooks with
       | none => none
       | some hs => some (blankHooks hs))
      (skeletonKids children)
/-- The skeleton of a `children` field. -/
def skeletonKids : Kids VTree → Kids VTree
  | .array cs => .array (skeletonList cs)
  | .single c => .single (skeleton c)
  | .other v => .other v
/-- The skeleton of each node of a list. -/
def skeletonList : List VTree → List VTree
  | [] => []
  | c :: cs => skeleton c :: skeletonList cs
end

mutual
/-- The number of nodes of a tree. -/
def nodeCount : VTree → Nat
  | .node _ _ children => 1 + nodeCountKids children
/-- The number of nodes beneath a `children` field. -/
def nodeCountKids : Kids VTree → Nat
  | .array cs => nodeCountList cs
  | .single c => nodeCount c
  | .other _ => 0
/-- The number of nodes of a list of trees. -/
def nodeCountList : List VTree → Nat
  | [] => 0
  | c :: cs => nodeCount c + nodeCountList cs
end

/-! ## The calls of the rewriter, in order -/

mutual
/-- Lines 14-32 with a record of the calls: what the call leaves (the tree and the
exception, as `replaceStreamNameWithForwardFunction` gives them) and the position (the
child indices from the root) of every node the function is called on, in the order of
the calls.  `path` is the position of `vtree`. -/
def replaceTraced : VTree → Obj → List Nat → (VTree × Option JsError) × List (List Nat)
  | .node props hooks children, view, path =>
    match hooks with
    | none =>
      ((.node props none (replaceInChildrenTraced children view path).1.1,
        (replaceInChildrenTraced children view path).1.2),
        path :: (replaceInChildrenTraced children view path).2)
    | some hs =>
      match (rewriteHooks view hs).2 with
      | some e => ((.node props (some (rewriteHooks view hs).1) children, some e), [path])
      | none =>
        ((.node props (some (rewriteHooks view hs).1)
            (replaceInChildrenTraced children view path).1.1,
          (replaceInChildrenTraced children view path).1.2),
          path :: (replaceInChildrenTraced children view path).2)
/-- Lines 27-31 with the record of the calls made from the loop. -/
def replaceInChildrenTraced :
    Kids VTree → Obj → List Nat → (Kids VTree × Option JsError) × List (List Nat)
  | .array cs, view, path =>
    ((.array (replaceEachTraced cs view path 0).1.1, (replaceEachTraced cs view path 0).1.2),
      (replaceEachTraced cs view path 0).2)
  | .single c, _, _ => ((.single c, none), [])
  | .other v, _, _ => ((.other v, none), [])
/-- Lines 28-30 with the record of the calls: the elements from index `i` on. -/
def replaceEachTraced :
    List VTree → Obj → List Nat → Nat → (List VTree × Option JsError) × List (List Nat)
  | [], _, _, _ => (([], none), [])
  | c :: cs, view, path, i =>
    match (replaceTraced c view (path ++ [i])).1.2 with
    | some e =>
      (((replaceTraced c view (path ++ [i])).1.1 :: cs, some e),
        (replaceTraced c view (path ++ [i])).2)
    | none =>
      (((replaceTraced c view (path ++ [i])).1.1 :: (replaceEachTraced cs view path (i + 1)).1.1,
        (replaceEachTraced cs view path (i + 1)).1.2),
        (replaceTraced c view (path ++ [i])).2 ++ (replaceEachTraced cs view path (i + 1)).2)
end

/-- The element `i` of a `children` field that is an array. -/
def childAt : Kids VTree → Nat → Option VTree
  | .array cs, i => cs[i]?
  | .single _, _ => none
  | .other _, _ => none

/-- The node at a position: the node reached from `t` by following the child indices
through `children` fields that are arrays. -/
def nodeAt : VTree → List Nat → Option VTree
  | t, [] => some t
  | .node _ _ children, i :: rest =>
    match childAt children i with
    | some c => nodeAt c rest
    | none => none

/-! ## The rewriter on a store of objects

The hook descriptors and the view are objects with an identity: here each is an address
in a store, so that a descriptor may be the very object that is the view.  The nodes
and the hooks objects are never written by lines 14-32 and stay a tree. -/

/-- The objects, by address. -/
abbrev Store := Nat → Obj

/-- A tree snapshot whose hook entries hold the addresses of their descriptors. -/
inductive RefTree where
  | node (hooks : Option (List (String × Nat))) (children : Kids RefTree)

/-- The store with the object at address `a` replaced. -/
def storeWrite (st : Store) (a : Nat) (o : Obj) : Store :=
  fun b => if b = a then o else st b

/-- Lines 18-23 on a store: the descriptor at address `d` after the assignment to its
`value`, the view being read at address `va`. -/
def writtenDescriptor (st : Store) (va d : Nat) : Obj :=
  (st d).put "value" (rewriteValue (st va) ((st d).get "value"))

/-- Lines 16-25 on a store: the iterations over the entries still to come. -/
def rewriteHooksInStore (va : Nat) (hooks : List (String × Nat)) :
    List (String × Nat) → Store → Store × Option JsError
  | [], st => (st, none)
  | (key, d) :: rest, st =>
    match hasOwnPropertyCall hooks key with
    | .error e => (st, some e)
    | .ok false => rewriteHooksInStore va hooks rest st
    | .ok true =>
      rewriteHooksInStore va hooks rest (storeWrite st d (writtenDescriptor st va d))

mutual
/-- Lines 14-32 on a store: the store as the call leaves it, and the exception. -/
def replaceInStore : RefTree → Nat → Store → Store × Option JsError
  | .node hooks children, va, st =>
    match hooks with
    | none => replaceKidsInStore children va st
    | some hs =>
      match (rewriteHooksInStore va hs hs st).2 with
      | some e => ((rewriteHooksInStore va hs hs st).1, some e)
      | none => replaceKidsInStore children va (rewriteHooksInStore va hs hs st).1
/-- Lines 27-31 on a store. -/
def replaceKidsInStore : Kids RefTree → Nat → Store → Store × Option JsError
  | .array cs, va, st => replaceEachInStore cs va st
  | .single _, _, st => (st, none)
  | .other _, _, st => (st, none)
/-- Lines 28-30 on a store. -/
def replaceEachInStore : List RefTree → Nat → Store → Store × Option JsError
  | [], _, st => (st, none)
  | c :: cs, va, st =>
    match (replaceInStore c va st).2 with
    | some e => ((replaceInStore c va st).1, some e)
    | none => replaceEachInStore cs va (replaceInStore c va st).1
end

mutual
/-- The addresses of the hook descriptors of the nodes reached through `children` fields
that are arrays, in document order. -/
def descriptorsOf : RefTree → List Nat
  | .node hooks children =>
    (match hooks with
     | none => []
     | some hs => hs.map (fun kd => kd.2)) ++ descriptorsOfKids children
/-- The descriptors beneath a `children` field. -/
def descriptorsOfKids : Kids RefTree → List Nat
  | .array cs => descriptorsOfList cs
  | .single _ => []
  | .other _ => []
/-- The descriptors of a list of nodes. -/
def descriptorsOfList : List RefTree → List Nat
  | [] => []
  | c :: cs => descriptorsOf c ++ descriptorsOfList cs
end

/-- The store with the descriptors at the addresses `ds` rewritten, each from its own
former `value` and the view `view`. -/
def rewriteAt (view : Obj) (ds : List Nat) (st : Store) : Store :=
  fun a => if a ∈ ds then (st a).put "value" (rewriteValue view ((st a).get "value")) else st a

/-- What a run of lines 14-32 over the descriptors `ds` may do to a store: `r` is the
store it leaves and the exception.  Every object outside `ds` is as it was; and when no
descriptor occurs twice and the view is none of them, each descriptor is as it was or
has had the assignment of lines 18-23, all of them when the run has not thrown. -/
def StoreEffect (va : Nat) (ds : List Nat) (st : Store) (r : Store × Option JsError) : Prop :=
  (∀ a, a ∉ ds → r.1 a = st a) ∧
  (ds.Nodup → va ∉ ds →
    (∀ d ∈ ds, r.1 d = st d ∨ r.1 d = writtenDescriptor st va d) ∧
    (r.2 = none → ∀ d ∈ ds, r.1 d = writtenDescriptor st va d))

/-- The hook entries a store holds under the entries of addresses: each descriptor with
the `value` read on it and its other own fields. -/
def materialiseHooks (st : Store) (hs : List (String × Nat)) : List (String × Hook) :=
  hs.map (fun kd => (kd.1, ⟨(st kd.2).get "value", remove "value" (st kd.2).own⟩))

mutual
/-- The tree of values a store holds under a tree of addresses. -/
def materialise (st : Store) : RefTree → VTree
  | .node hooks children =>
    .node []
      (match hooks with
       | none => none
       | some hs => some (materialiseHooks st hs))
      (materialiseKids st children)
/-- The same, on a `children` field. -/
def materialiseKids (st : Store) : Kids RefTree → Kids VTree
  | .array cs => .array (materialiseList st cs)
  | .single c => .single (materialise st c)
  | .other v => .other v
/-- The same, on a list of nodes. -/
def materialiseList (st : Store) : List RefTree → List VTree
  | [] => []
  | c :: cs => materialise st c :: materialiseList st cs
end

mutual
/-- The addresses of the hook descriptors of every node of the tree, reached or not. -/
def allDescriptorsOf : RefTree → List Nat
  | .node hooks children =>
    (match hooks with
     | none => []
     | some hs => hs.map (fun kd => kd.2)) ++ allDescriptorsOfKids children
/-- The descriptors of every node beneath a `children` field. -/
def allDescriptorsOfKids : Kids RefTree → List Nat
  | .array cs => allDescriptorsOfList cs
  | .single c => allDescriptorsOf c
  | .other _ => []
/-- The descriptors of every node of a list. -/
def allDescriptorsOfList : List RefTree → List Nat
  | [] => []
  | c :: cs => allDescriptorsOf c ++ allDescriptorsOfList cs
end
/-! ## Sample data -/

/-- A members table for the samples: a Subject is read as having the methods `onNext`,
`onError`, `onCompleted`, `subscribe` and `map` (the text of each stands for the source
of the library) besides what every object inherits; any other object is read as an
ordinary object. -/
def sampleMembers : Members :=
  fun v =>
    match v with
    | .subject _ =>
      [("onNext", .func "onNext" 1 "function (value) \x7b /* rx */ \x7d"),
       ("onError", .func "onError" 1 "function (error) \x7b /* rx */ \x7d"),
       ("onCompleted", .func "onCompleted" 0 "function () \x7b /* rx */ \x7d"),
       ("subscribe", .func "subscribe" 3 "function (o, e, c) \x7b /* rx */ \x7d"),
       ("map", .func "map" 2 "function (selector, thisArg) \x7b /* rx */ \x7d")]
        ++ objectPrototype
    | _ => objectPrototype

/-- A tree with one node and one hook `key` naming `name`. -/
def treeWithOneHook (key name : String) : VTree :=
  .node [("tagName", .str "button")] (some [(key, ⟨.str name, []⟩)]) (.array [])

/-- A two-level tree: a hook on the root and one on its only child. -/
def nestedTree : VTree :=
  .node [] (some [("ev-click", ⟨.str "submit$", []⟩)])
    (.array [.node [] (some [("ev-input", ⟨.str "typo$", []⟩)]) (.other .undefined)])

/-- The tree `{hooks: {hasOwnProperty: {value: 'submit$'}}}`: one node, no children, one
hook whose key is `hasOwnProperty`. -/
def shadowingTree : VTree :=
  .node [] (some [("hasOwnProperty", ⟨.str "submit$", []⟩)]) (.other .undefined)

/-- A root with two children: the first has a hook keyed `hasOwnProperty`, the second a
hook `ev-click` naming `submit$`. -/
def shadowingFirstChild : VTree :=
  .node [] none (.array [
    .node [] (some [("hasOwnProperty", ⟨.str "submit$", []⟩)]) (.other .undefined),
    .node [] (some [("ev-click", ⟨.str "submit$", []⟩)]) (.other .undefined)])

/-- The model interface `{}`. -/
def emptyInterface : Obj :=
  ⟨[], objectPrototype⟩

/-- The payload `{type: 'click'}`, a plain object. -/
def clickEvent : Val :=
  .object 1

/-- A definition function whose result is `{vtree$: <observable 0>, events: E}`. -/
def declaring (E : List String) : Obj → Obj :=
  fun _ => definitionResult (.observable 0) E

/-- The view `defineView` returns for `declaring ["submit$"]` at allocation number 0. -/
def submitView : Obj :=
  ⟨[("vtree$", .mapped (.observable 0)), ("submit$", .subject 0), ("clone", .cloneFn)],
    objectPrototype⟩

/-- The view `defineView` returns for `declaring ["clone"]`, for `declaring []` and for
`declaring ["events"]`: no channel at all. -/
def bareView : Obj :=
  ⟨[("vtree$", .mapped (.observable 0)), ("clone", .cloneFn)], objectPrototype⟩

/-- The view `defineView` returns for `declaring ["a", "events"]` at allocation number 0. -/
def shadowedView : Obj :=
  ⟨[("vtree$", .mapped (.observable 0)), ("undefined", .subject 1), ("clone", .cloneFn)],
    objectPrototype⟩

/-- The view `defineView` returns for `declaring ["events", "submit$"]` at allocation
number 0. -/
def lateSubmitView : Obj :=
  ⟨[("vtree$", .mapped (.observable 0)), ("submit$", .subject 0), ("clone", .cloneFn)],
    objectPrototype⟩

/-- The view `defineView` returns for `declaring ["vtree$"]` at allocation number 0. -/
def vtreeNamedView : Obj :=
  ⟨[("vtree$", .mapped (.subject 0)), ("clone", .cloneFn)], objectPrototype⟩

/-- The view `defineView` returns for `declaring ["__proto__"]` at allocation number 0,
with `sampleMembers`: no own field is created and the Subject is the prototype. -/
def protoNamedView : Obj :=
  ⟨[("vtree$", .mapped (.observable 0)), ("clone", .cloneFn)],
    inheritedThrough sampleMembers (.subject 0)⟩

/-- The clone of `submitView`: `defineView` run again for `declaring ["submit$"]`, at
allocation number 1. -/
def submitClone : Obj :=
  ⟨[("vtree$", .mapped (.observable 0)), ("submit$", .subject 1), ("clone", .cloneFn)],
    objectPrototype⟩

/-- The view `defineView` returns for `declaring ["a", "b"]` at allocation number 0. -/
def reverseOrderView : Obj :=
  ⟨[("vtree$", .mapped (.observable 0)), ("b", .subject 0), ("a", .subject 1),
    ("clone", .cloneFn)], objectPrototype⟩

/-- The view `defineViewDeclarationOrder` returns for `declaring ["a", "b"]` at
allocation number 0. -/
def declarationOrderView : Obj :=
  ⟨[("vtree$", .mapped (.observable 0)), ("a", .subject 0), ("b", .subject 1),
    ("clone", .cloneFn)], objectPrototype⟩

/-- The view `defineViewDeclarationOrder` returns for `declaring ["a", "events"]` at
allocation number 0. -/
def declarationOrderShadowed : Obj :=
  ⟨[("vtree$", .mapped (.observable 0)), ("a", .subject 0), ("clone", .cloneFn)],
    objectPrototype⟩

/-- A view with a channel stored under the source text of `noop`, and one under the
source text of `forwardIntoStream`. -/
def sourceKeyView : Obj :=
  ⟨[("submit$", .subject 0), (noopSource, .subject 1), (forwardSource, .subject 2)],
    objectPrototype⟩

/-- A view with a field `flag` whose value is `false`. -/
def flagView : Obj :=
  ⟨[("flag", .bool false)], objectPrototype⟩

/-- A heap where every address holds a one-hook tree naming `submit$`, not yet rewritten. -/
def freshHeap : Heap :=
  fun _ => treeWithOneHook "ev-click" "submit$"

/-- A heap where address 0 holds the tree with a hook keyed `hasOwnProperty` and every
other address a one-hook tree naming `submit$`. -/
def shadowingHeap : Heap :=
  fun a => if a = 0 then shadowingTree else treeWithOneHook "ev-click" "submit$"

/-- A source environment: the observable 0 hands the object at address 0 to each
subscriber, and every other source emits nothing. -/
def singleSource : Val → List Nat :=
  fun s => if s = .observable 0 then [0] else []

/-- A source environment: the observable 0 hands the objects at addresses 0 and 1. -/
def doubleSource : Val → List Nat :=
  fun s => if s = .observable 0 then [0, 1] else []


/-- A store for the samples: the view for `events = ['submit$']` at address 0 and, at
every other address, a hook descriptor `{value: 'submit$'}`. -/
def sampleStore : Store :=
  fun a => if a = 0 then submitView else ⟨[("value", .str "submit$")], objectPrototype⟩

/-- A store where the object at address 0 is a view with the channel `submit$` that also
has a field `value` holding the name `submit$`. -/
def aliasStore : Store :=
  fun a =>
    if a = 0 then ⟨[("submit$", .subject 0), ("value", .str "submit$")], objectPrototype⟩
    else ⟨[("value", .str "submit$")], objectPrototype⟩

/-- A tree whose only hook descriptor is the object at address `d`. -/
def oneDescriptorTree (d : Nat) : RefTree :=
  .node (some [("ev-click", d)]) (.other .undefined)

/-- A tree whose two hooks hold the same descriptor object, the one at address 1. -/
def sharedDescriptorTree : RefTree :=
  .node (some [("ev-click", 1), ("ev-input", 1)]) (.other .undefined)

/-- A two-level tree with the descriptors at addresses 1 and 2. -/
def twoDescriptorTree : RefTree :=
  .node (some [("ev-click", 1)]) (.array [.node (some [("ev-input", 2)]) (.other .undefined)])

/-- A definition function whose result declares `events = ['submit$']` as an own field
and inherits another `events` from its prototype. -/
def inheritingEvents : Obj → Obj :=
  fun _ =>
    ⟨[("vtree$", .observable 0), ("events", .names ["submit$"])],
      ("events", .names ["old$"]) :: objectPrototype⟩
/-! ## Lemmas on the rewriter -/

theorem rewriteValue_callable (view : Obj) (s : Val) :
    isCallable (rewriteValue view s) = true := by
  unfold rewriteValue getFunctionForwardIntoStream
  split <;> rfl

theorem rewriteValue_not_string (view : Obj) (s : Val) :
    isString (rewriteValue view s) = false := by
  unfold rewriteValue getFunctionForwardIntoStream
  split <;> rfl

theorem rewriteValue_cases (view : Obj) (s : Val) :
    rewriteValue view s = .noop ∨ ∃ stream, rewriteValue view s = .forwardIntoStream stream := by
  unfold rewriteValue getFunctionForwardIntoStream
  split
  · exact Or.inr ⟨_, rfl⟩
  · exact Or.inl rfl

theorem rewriteAll_values (view : Obj) (hs : List (String × Hook)) :
    (rewriteAll view hs).map (fun kh => kh.2.value)
      = (hs.map (fun kh => kh.2.value)).map (rewriteValue view) := by
  simp [rewriteAll, List.map_map, Function.comp]

theorem hasOwnPropertyCall_of_owns {α : Type} (hooks : List (String × α)) (key : String)
    (h : ownsHasOwnProperty hooks = true) :
    hasOwnPropertyCall hooks key = .error .typeError := by
  simp [hasOwnPropertyCall, h]

theorem hasOwnPropertyCall_of_mem {α : Type} (hooks : List (String × α)) (key : String)
    (x : α) (h : ownsHasOwnProperty hooks = false) (hm : (key, x) ∈ hooks) :
    hasOwnPropertyCall hooks key = .ok true := by
  have : hooks.any (fun kh => kh.1 == key) = true :=
    List.any_eq_true.mpr ⟨(key, x), hm, by simp⟩
  simp [hasOwnPropertyCall, h, this]

theorem rewriteHooksFrom_of_not_owns (view : Obj) (hooks : List (String × Hook))
    (h : ownsHasOwnProperty hooks = false) :
    ∀ rest : List (String × Hook), (∀ kh ∈ rest, kh ∈ hooks) →
      rewriteHooksFrom view hooks rest = (rewriteAll view rest, none)
  | [], _ => rfl
  | (key, x) :: rest, hsub => by
    have hk := hasOwnPropertyCall_of_mem hooks key x h (hsub _ (List.mem_cons_self _ _))
    have ih := rewriteHooksFrom_of_not_owns view hooks h rest
      (fun kh hm => hsub kh (List.mem_cons_of_mem _ hm))
    simp [rewriteHooksFrom, hk, ih, rewriteAll]

theorem rewriteHooks_of_not_owns (view : Obj) (hs : List (String × Hook))
    (h : ownsHasOwnProperty hs = false) :
    rewriteHooks view hs = (rewriteAll view hs, none) :=
  rewriteHooksFrom_of_not_owns view hs h hs (fun _ hm => hm)

theorem rewriteHooks_of_owns (view : Obj) (hs : List (String × Hook))
    (h : ownsHasOwnProperty hs = true) :
    rewriteHooks view hs = (hs, some .typeError) := by
  cases hs with
  | nil => simp [ownsHasOwnProperty] at h
  | cons kh rest =>
    obtain ⟨key, x⟩ := kh
    simp [rewriteHooks, rewriteHooksFrom, hasOwnPropertyCall_of_owns _ key h]

theorem blankHooks_rewriteAll (view : Obj) (hs : List (String × Hook)) :
    blankHooks (rewriteAll view hs) = blankHooks hs := by
  induction hs with
  | nil => rfl
  | cons kh rest ih =>
    obtain ⟨k, h⟩ := kh
    simp only [rewriteAll, List.map_cons] at ih ⊢
    simp [blankHooks, ih]

theorem blankHooks_rewriteHooks (view : Obj) (hs : List (String × Hook)) :
    blankHooks (rewriteHooks view hs).1 = blankHooks hs := by
  cases h : ownsHasOwnProperty hs with
  | true => rw [rewriteHooks_of_owns view hs h]
  | false => rw [rewriteHooks_of_not_owns view hs h]; exact blankHooks_rewriteAll view hs

theorem rewriteHooks_error (view : Obj) (hs : List (String × Hook)) :
    (rewriteHooks view hs).2 = if ownsHasOwnProperty hs then some .typeError else none := by
  cases h : ownsHasOwnProperty hs with
  | true => rw [rewriteHooks_of_owns view hs h]; rfl
  | false => rw [rewriteHooks_of_not_owns view hs h]; rfl

theorem ownsHasOwnProperty_blankHooks (hs : List (String × Hook)) :
    ownsHasOwnProperty (blankHooks hs) = ownsHasOwnProperty hs := by
  induction hs with
  | nil => rfl
  | cons kh rest ih =>
    obtain ⟨k, h⟩ := kh
    simp only [ownsHasOwnProperty, blankHooks, List.any_cons] at ih ⊢
    rw [ih]

mutual
/-- The exception a call ends with is decided by the keys of the hooks reached. -/
theorem replace_error (view : Obj) :
    ∀ t : VTree, (replaceStreamNameWithForwardFunction t view).2
      = if shadowsHasOwnProperty t then some .typeError else none
  | .node props hooks children => by
    have hk := replaceInChildren_error view children
    cases hooks with
    | none => simp [replaceStreamNameWithForwardFunction, shadowsHasOwnProperty, hk]
    | some hs =>
      cases ho : ownsHasOwnProperty hs with
      | true =>
        simp [replaceStreamNameWithForwardFunction, shadowsHasOwnProperty, ho,
          rewriteHooks_of_owns view hs ho]
      | false =>
        simp [replaceStreamNameWithForwardFunction, shadowsHasOwnProperty, ho,
          rewriteHooks_of_not_owns view hs ho, hk]
theorem replaceInChildren_error (view : Obj) :
    ∀ k : Kids VTree, (replaceInChildren k view).2
      = if shadowsKids k then some .typeError else none
  | .array cs => by
    simpa [replaceInChildren, shadowsKids] using replaceEach_error view cs
  | .single c => by simp [replaceInChildren, shadowsKids]
  | .other v => by simp [replaceInChildren, shadowsKids]
theorem replaceEach_error (view : Obj) :
    ∀ cs : List VTree, (replaceEach cs view).2
      = if shadowsList cs then some .typeError else none
  | [] => by simp [replaceEach, shadowsList]
  | c :: cs => by
    have h1 := replace_error view c
    have h2 := replaceEach_error view cs
    cases hc : shadowsHasOwnProperty c with
    | true =>
      simp only [hc, if_true] at h1
      simp [replaceEach, shadowsList, hc, h1]
    | false =>
      simp only [hc] at h1
      simp [replaceEach, shadowsList, hc, h1, h2]
end

theorem replace_returns (view : Obj) (t : VTree) (h : shadowsHasOwnProperty t = false) :
    (replaceStreamNameWithForwardFunction t view).2 = none := by
  rw [replace_error, h]; rfl

mutual
theorem skeleton_replace (view : Obj) :
    ∀ t : VTree, skeleton (replaceStreamNameWithForwardFunction t view).1 = skeleton t
  | .node props hooks children => by
    have hk := skeletonKids_replace view children
    cases hooks with
    | none => simp [replaceStreamNameWithForwardFunction, skeleton, hk]
    | some hs =>
      cases he : (rewriteHooks view hs).2 with
      | some e =>
        simp [replaceStreamNameWithForwardFunction, skeleton, he, blankHooks_rewriteHooks]
      | none =>
        simp [replaceStreamNameWithForwardFunction, skeleton, he, hk, blankHooks_rewriteHooks]
theorem skeletonKids_replace (view : Obj) :
    ∀ k : Kids VTree, skeletonKids (replaceInChildren k view).1 = skeletonKids k
  | .array cs => by
    simpa [replaceInChildren, skeletonKids] using skeletonList_replace view cs
  | .single c => by simp [replaceInChildren]
  | .other v => by simp [replaceInChildren]
theorem skeletonList_replace (view : Obj) :
    ∀ cs : List VTree, skeletonList (replaceEach cs view).1 = skeletonList cs
  | [] => by simp [replaceEach]
  | c :: cs => by
    have h1 := skeleton_replace view c
    have h2 := skeletonList_replace view cs
    cases he : (replaceStreamNameWithForwardFunction c view).2 with
    | some e => simp [replaceEach, he, skeletonList, h1]
    | none => simp [replaceEach, he, skeletonList, h1, h2]
end

mutual
theorem nodeCount_skeleton : ∀ t : VTree, nodeCount (skeleton t) = nodeCount t
  | .node props hooks children => by
    simp [skeleton, nodeCount, nodeCountKids_skeleton children]
theorem nodeCountKids_skeleton : ∀ k : Kids VTree, nodeCountKids (skeletonKids k) = nodeCountKids k
  | .array cs => by simpa [skeletonKids, nodeCountKids] using nodeCountList_skeleton cs
  | .single c => by simpa [skeletonKids, nodeCountKids] using nodeCount_skeleton c
  | .other v => by simp [skeletonKids, nodeCountKids]
theorem nodeCountList_skeleton : ∀ cs : List VTree, nodeCountList (skeletonList cs) = nodeCountList cs
  | [] => by simp [skeletonList, nodeCountList]
  | c :: cs => by
    simp [skeletonList, nodeCountList, nodeCount_skeleton c, nodeCountList_skeleton cs]
end

mutual
theorem wellFormed_skeleton : ∀ t : VTree, wellFormed (skeleton t) = wellFormed t
  | .node props hooks children => by
    simp [skeleton, wellFormed, wellFormedKids_skeleton children]
theorem wellFormedKids_skeleton : ∀ k : Kids VTree, wellFormedKids (skeletonKids k) = wellFormedKids k
  | .array cs => by simpa [skeletonKids, wellFormedKids] using wellFormedList_skeleton cs
  | .single c => by simp [skeletonKids, wellFormedKids]
  | .other v => by simp [skeletonKids, wellFormedKids]
theorem wellFormedList_skeleton : ∀ cs : List VTree, wellFormedList (skeletonList cs) = wellFormedList cs
  | [] => by simp [skeletonList, wellFormedList]
  | c :: cs => by
    simp [skeletonList, wellFormedList, wellFormed_skeleton c, wellFormedList_skeleton cs]
end

mutual
theorem shadows_skeleton :
    ∀ t : VTree, shadowsHasOwnProperty (skeleton t) = shadowsHasOwnProperty t
  | .node props hooks children => by
    cases hooks with
    | none => simp [skeleton, shadowsHasOwnProperty, shadowsKids_skeleton children]
    | some hs =>
      simp [skeleton, shadowsHasOwnProperty, shadowsKids_skeleton children,
        ownsHasOwnProperty_blankHooks]
theorem shadowsKids_skeleton : ∀ k : Kids VTree, shadowsKids (skeletonKids k) = shadowsKids k
  | .array cs => by simpa [skeletonKids, shadowsKids] using shadowsList_skeleton cs
  | .single c => by simp [skeletonKids, shadowsKids]
  | .other v => by simp [skeletonKids, shadowsKids]
theorem shadowsList_skeleton : ∀ cs : List VTree, shadowsList (skeletonList cs) = shadowsList cs
  | [] => by simp [skeletonList, shadowsList]
  | c :: cs => by
    simp [skeletonList, shadowsList, shadows_skeleton c, shadowsList_skeleton cs]
end

theorem wellFormed_replace (view : Obj) (t : VTree) :
    wellFormed (replaceStreamNameWithForwardFunction t view).1 = wellFormed t := by
  rw [← wellFormed_skeleton, skeleton_replace, wellFormed_skeleton]

theorem shadows_replace (view : Obj) (t : VTree) :
    shadowsHasOwnProperty (replaceStreamNameWithForwardFunction t view).1
      = shadowsHasOwnProperty t := by
  rw [← shadows_skeleton, skeleton_replace, shadows_skeleton]

mutual
/-- When the call returns, every hook of every node reached has been rewritten. -/
theorem reachedHookValues_replace (view : Obj) :
    ∀ t : VTree, shadowsHasOwnProperty t = false →
      reachedHookValues (replaceStreamNameWithForwardFunction t view).1
        = (reachedHookValues t).map (rewriteValue view)
  | .node props hooks children, h => by
    cases hooks with
    | none =>
      have hk := reachedHookValuesKids_replace view children
        (by simpa [shadowsHasOwnProperty] using h)
      simp [replaceStreamNameWithForwardFunction, reachedHookValues, hk]
    | some hs =>
      have h2 : ownsHasOwnProperty hs = false ∧ shadowsKids children = false := by
        simpa [shadowsHasOwnProperty] using h
      have hk := reachedHookValuesKids_replace view children h2.2
      simp [replaceStreamNameWithForwardFunction, reachedHookValues, hk,
        rewriteHooks_of_not_owns view hs h2.1, rewriteAll_values]
theorem reachedHookValuesKids_replace (view : Obj) :
    ∀ k : Kids VTree, shadowsKids k = false →
      reachedHookValuesKids (replaceInChildren k view).1
        = (reachedHookValuesKids k).map (rewriteValue view)
  | .array cs, h => by
    simpa [replaceInChildren, reachedHookValuesKids] using
      reachedHookValuesList_replace view cs (by simpa [shadowsKids] using h)
  | .single c, _ => by simp [replaceInChildren, reachedHookValuesKids]
  | .other v, _ => by simp [replaceInChildren, reachedHookValuesKids]
theorem reachedHookValuesList_replace (view : Obj) :
    ∀ cs : List VTree, shadowsList cs = false →
      reachedHookValuesList (replaceEach cs view).1
        = (reachedHookValuesList cs).map (rewriteValue view)
  | [], _ => by simp [replaceEach, reachedHookValuesList]
  | c :: cs, h => by
    have h2 : shadowsHasOwnProperty c = false ∧ shadowsList cs = false := by
      simpa [shadowsList] using h
    simp [replaceEach, reachedHookValuesList, replace_returns view c h2.1,
      reachedHookValues_replace view c h2.1, reachedHookValuesList_replace view cs h2.2]
end

mutual
/-- In a well-formed tree every node is reached, so every hook is a reached hook. -/
theorem hookValues_eq_reached :
    ∀ t : VTree, wellFormed t = true → hookValues t = reachedHookValues t
  | .node props hooks children, h => by
    simp [hookValues, reachedHookValues,
      hookValuesKids_eq_reached children (by simpa [wellFormed] using h)]
theorem hookValuesKids_eq_reached :
    ∀ k : Kids VTree, wellFormedKids k = true → hookValuesKids k = reachedHookValuesKids k
  | .array cs, h => by
    simpa [hookValuesKids, reachedHookValuesKids] using
      hookValuesList_eq_reached cs (by simpa [wellFormedKids] using h)
  | .single c, h => by simp [wellFormedKids] at h
  | .other v, _ => by simp [hookValuesKids, reachedHookValuesKids]
theorem hookValuesList_eq_reached :
    ∀ cs : List VTree, wellFormedList cs = true → hookValuesList cs = reachedHookValuesList cs
  | [], _ => by simp [hookValuesList, reachedHookValuesList]
  | c :: cs, h => by
    have h2 : wellFormed c = true ∧ wellFormedList cs = true := by
      simpa [wellFormedList] using h
    simp [hookValuesList, reachedHookValuesList, hookValues_eq_reached c h2.1,
      hookValuesList_eq_reached cs h2.2]
end

theorem hookValues_replace (view : Obj) (t : VTree) (hwf : wellFormed t = true)
    (hs : shadowsHasOwnProperty t = false) :
    hookValues (replaceStreamNameWithForwardFunction t view).1
      = (hookValues t).map (rewriteValue view) := by
  rw [hookValues_eq_reached _ (by rw [wellFormed_replace, hwf]),
    hookValues_eq_reached t hwf, reachedHookValues_replace view t hs]

/-- Where the call returns on a well-formed tree, every hook value is callable. -/
theorem hooks_callable_of_returns (view : Obj) (t : VTree) (hwf : wellFormed t = true)
    (hs : shadowsHasOwnProperty t = false) :
    (replaceStreamNameWithForwardFunction t view).2 = none ∧
    ∀ v ∈ hookValues (replaceStreamNameWithForwardFunction t view).1,
      isCallable v = true ∧ isString v = false := by
  refine ⟨replace_returns view t hs, ?_⟩
  intro v hv
  rw [hookValues_replace view t hwf hs] at hv
  obtain ⟨s, -, rfl⟩ := List.mem_map.mp hv
  exact ⟨rewriteValue_callable view s, rewriteValue_not_string view s⟩

theorem rewriteValue_twice (view : Obj)
    (h1 : truthy (view.get noopSource) = false)
    (h2 : truthy (view.get forwardSource) = false) (s : Val) :
    rewriteValue view (rewriteValue view s) = .noop := by
  rcases rewriteValue_cases view s with h | ⟨stream, h⟩
  · rw [h]
    simp [rewriteValue, toKey, h1]
  · rw [h]
    simp [rewriteValue, toKey, h2]

theorem rewriteValue_str (view : Obj) (s : String) :
    (rewriteValue view (.str s) = .forwardIntoStream (view.get s)
      ↔ truthy (view.get s) = true) ∧
    (rewriteValue view (.str s) = .noop ↔ truthy (view.get s) = false) := by
  by_cases ht : truthy (view.get s) = true <;>
    simp [rewriteValue, toKey, ht, getFunctionForwardIntoStream]

mutual
theorem replaceTraced_run (view : Obj) :
    ∀ (t : VTree) (path : List Nat),
      (replaceTraced t view path).1 = replaceStreamNameWithForwardFunction t view
  | .node props hooks children, path => by
    have hk := replaceInChildrenTraced_run view children path
    cases hooks with
    | none => simp [replaceTraced, replaceStreamNameWithForwardFunction, hk]
    | some hs =>
      cases he : (rewriteHooks view hs).2 with
      | some e => simp [replaceTraced, replaceStreamNameWithForwardFunction, he]
      | none => simp [replaceTraced, replaceStreamNameWithForwardFunction, he, hk]
theorem replaceInChildrenTraced_run (view : Obj) :
    ∀ (k : Kids VTree) (path : List Nat),
      (replaceInChildrenTraced k view path).1 = replaceInChildren k view
  | .array cs, path => by
    simp [replaceInChildrenTraced, replaceInChildren, replaceEachTraced_run view cs path 0]
  | .single c, path => by simp [replaceInChildrenTraced, replaceInChildren]
  | .other v, path => by simp [replaceInChildrenTraced, replaceInChildren]
theorem replaceEachTraced_run (view : Obj) :
    ∀ (cs : List VTree) (path : List Nat) (i : Nat),
      (replaceEachTraced cs view path i).1 = replaceEach cs view
  | [], path, i => by simp [replaceEachTraced, replaceEach]
  | c :: cs, path, i => by
    have h1 := replaceTraced_run view c (path ++ [i])
    have h2 := replaceEachTraced_run view cs path (i + 1)
    cases he : (replaceStreamNameWithForwardFunction c view).2 with
    | some e => simp [replaceEachTraced, replaceEach, h1, he]
    | none => simp [replaceEachTraced, replaceEach, h1, h2, he]
end

/-! ## Lemmas on objects -/

theorem lookup_assign (k k' : String) (v : Val) (l : List (String × Val)) :
    lookup k (assign k' v l) = if k' = k then some v else lookup k l := by
  induction l with
  | nil =>
    by_cases h : k' = k <;> simp [assign, lookup, h]
  | cons p rest ih =>
    obtain ⟨k1, v1⟩ := p
    by_cases h1 : k1 = k' <;> by_cases h : k' = k <;> by_cases h2 : k1 = k <;>
      simp_all [assign, lookup]

theorem lookup_remove (k k' : String) (l : List (String × Val)) :
    lookup k (remove k' l) = if k' = k then none else lookup k l := by
  induction l with
  | nil => simp [remove, lookup]
  | cons p rest ih =>
    obtain ⟨k1, v1⟩ := p
    by_cases h1 : k1 = k' <;> by_cases h : k' = k <;> by_cases h2 : k1 = k <;>
      simp_all [remove, lookup]

theorem get_of_own (o : Obj) (k : String) (v : Val) (h : lookup k o.own = some v) :
    o.get k = v := by
  simp [Obj.get, h]

theorem get_congr (o o2 : Obj) (k : String) (h1 : lookup k o.own = lookup k o2.own)
    (h2 : o.proto = o2.proto) : o.get k = o2.get k := by
  simp [Obj.get, h1, h2]

theorem setPrototype_own (m : Members) (o : Obj) (v : Val) :
    (o.setPrototype m v).own = o.own := by
  unfold Obj.setPrototype
  cases v <;> simp <;> split <;> rfl

theorem set_of_ne (m : Members) (o : Obj) (k : String) (v : Val) (h : k ≠ "__proto__") :
    o.set m k v = o.put k v := by
  simp [Obj.set, h]

theorem set_of_not_runs (m : Members) (o : Obj) (k : String) (v : Val)
    (h : o.runsProtoSetter = false) : o.set m k v = o.put k v := by
  simp [Obj.set, h]

theorem set_own_cases (m : Members) (o : Obj) (k : String) (v : Val) :
    (o.set m k v).own = o.own ∨ (o.set m k v).own = assign k v o.own := by
  unfold Obj.set
  split
  · exact Or.inl (setPrototype_own m o v)
  · exact Or.inr rfl

theorem set_own_of_ne (m : Members) (o : Obj) (k k' : String) (v : Val) (h : k ≠ k') :
    lookup k' (o.set m k v).own = lookup k' o.own := by
  rcases set_own_cases m o k v with e | e
  · rw [e]
  · rw [e, lookup_assign]; simp [h]

theorem set_proto_of_ne (m : Members) (o : Obj) (k : String) (v : Val)
    (h : k ≠ "__proto__") : (o.set m k v).proto = o.proto := by
  rw [set_of_ne m o k v h]; rfl

theorem set_proto_of_not_runs (m : Members) (o : Obj) (k : String) (v : Val)
    (h : o.runsProtoSetter = false) : (o.set m k v).proto = o.proto := by
  rw [set_of_not_runs m o k v h]; rfl

theorem lookup_inherited_proto (v : Val) :
    ∀ l : List (String × Val), (lookup "__proto__" l).isSome = true →
      lookup "__proto__" (l.map (fun p => if p.1 = "__proto__" then (p.1, v) else p))
        = some v
  | [], h => by simp [lookup] at h
  | (k, x) :: rest, h => by
    by_cases hk : k = "__proto__"
    · show lookup "__proto__" ((if k = "__proto__" then (k, v) else (k, x)) :: _) = _
      rw [if_pos hk]
      simp [lookup, hk]
    · have h2 : (lookup "__proto__" rest).isSome = true := by
        simpa [lookup, hk] using h
      show lookup "__proto__" ((if k = "__proto__" then (k, v) else (k, x)) :: _) = _
      rw [if_neg hk]
      simpa [lookup, hk] using lookup_inherited_proto v rest h2

/-- A Subject written under any key is read back under that key: as an own field, or,
through the setter of `__proto__`, as the prototype. -/
theorem get_set_subject (m : Members)
    (hmem : ∀ id, (lookup "__proto__" (m (.subject id))).isSome = true)
    (o : Obj) (k : String) (a : Nat) :
    (o.set m k (.subject a)).get k = .subject a := by
  unfold Obj.set
  split
  · rename_i h
    obtain ⟨hk, hr⟩ := h
    subst hk
    have hown : lookup "__proto__" o.own = none := by
      simp only [Obj.runsProtoSetter, Bool.and_eq_true, Option.isNone_iff_eq_none] at hr
      exact hr.1
    simp [Obj.setPrototype, isObject, Obj.get, hown, inheritedThrough,
      lookup_inherited_proto (.subject a) (m (.subject a)) (hmem a)]
  · simp [Obj.put, Obj.get, lookup_assign]

theorem runs_set_subject (m : Members)
    (hmem : ∀ id, (lookup "__proto__" (m (.subject id))).isSome = true)
    (o : Obj) (k : String) (a : Nat) :
    (o.set m k (.subject a)).runsProtoSetter = o.runsProtoSetter := by
  unfold Obj.set
  split
  · rename_i h
    obtain ⟨hk, hr⟩ := h
    have hown : lookup "__proto__" o.own = none := by
      simp only [Obj.runsProtoSetter, Bool.and_eq_true, Option.isNone_iff_eq_none] at hr
      exact hr.1
    rw [hr]
    simp [Obj.setPrototype, isObject, Obj.runsProtoSetter, hown, inheritedThrough,
      lookup_inherited_proto (.subject a) (m (.subject a)) (hmem a)]
  · rename_i h
    by_cases hk : k = "__proto__"
    · have hr : o.runsProtoSetter = false := by
        cases hb : o.runsProtoSetter with
        | true => exact absurd ⟨hk, hb⟩ h
        | false => rfl
      rw [hr]
      simp [Obj.put, Obj.runsProtoSetter, lookup_assign, hk]
    · simp [Obj.put, Obj.runsProtoSetter, lookup_assign, hk]

theorem not_runs_set (m : Members) (o : Obj) (k : String) (v : Val)
    (h : o.runsProtoSetter = false) : (o.set m k v).runsProtoSetter = false := by
  rw [set_of_not_runs m o k v h]
  by_cases hk : k = "__proto__"
  · simp [Obj.put, Obj.runsProtoSetter, lookup_assign, hk]
  · simpa [Obj.put, Obj.runsProtoSetter, lookup_assign, hk] using h

theorem observed_append_same (id : Nat) (e : Val) (log : Log) :
    observed id (log ++ [(id, e)]) = observed id log ++ [e] := by
  simp [observed, List.filter_append]

theorem observed_append_other (id c : Nat) (e : Val) (log : Log) (h : c ≠ id) :
    observed c (log ++ [(id, e)]) = observed c log := by
  have : (id == c) = false := by simpa using (Ne.symm h)
  simp [observed, List.filter_append, List.filter_cons, this]

theorem rxMap_not_subject (x d : Val) (h : rxMap x = .ok d) (id : Nat) :
    d ≠ .subject id := by
  cases x <;> simp [rxMap] at h <;> subst h <;> simp

theorem rxMap_observable (x : Val) (h : isObservable x = true) : rxMap x = .ok (.mapped x) := by
  cases x <;> simp [isObservable] at h <;> rfl

/-! ## Lemmas on `defineView`, for any view -/

/-- The loop on any view: when it returns, every own field is either as it was or holds
a Subject allocated by the loop. -/
theorem eventsLoop_fields (m : Members) :
    ∀ (j : Nat) (view : Obj) (next : Nat) (res : Obj) (n1 : Nat),
      eventsLoop m j view next = .ok (res, n1) →
      n1 = next + j ∧
      ∀ k, lookup k res.own = lookup k view.own ∨
        ∃ a, next ≤ a ∧ a < next + j ∧ lookup k res.own = some (.subject a)
  | 0, view, next, res, n1, h => by
    simp only [eventsLoop, Except.ok.injEq, Prod.mk.injEq] at h
    obtain ⟨rfl, rfl⟩ := h
    simp
  | j + 1, view, next, res, n1, h => by
    simp only [eventsLoop] at h
    cases hi : index (view.get "events") j with
    | error e => simp [hi] at h
    | ok name =>
      simp only [hi] at h
      obtain ⟨h1, h3⟩ := eventsLoop_fields m j _ _ res n1 h
      refine ⟨by omega, ?_⟩
      intro k
      rcases h3 k with hk | ⟨a, ha1, ha2, ha3⟩
      · rcases set_own_cases m view (toKey name) (.subject next) with e | e
        · exact Or.inl (by rw [hk, e])
        · by_cases hkey : toKey name = k
          · exact Or.inr ⟨next, Nat.le_refl _, by omega, by
              rw [hk, e, lookup_assign]; simp [hkey]⟩
          · exact Or.inl (by rw [hk, e, lookup_assign]; simp [hkey])
      · exact Or.inr ⟨a, by omega, by omega, ha3⟩

/-- Lines 39-44 on any view: when they return, the allocation number does not decrease,
every own field other than `events` is as it was or holds a Subject allocated by the
loop, and `events` is as it was or gone. -/
theorem createChannels_fields (m : Members) (r cc : Obj) (n0 n1 : Nat)
    (h : createChannels m r n0 = .ok (cc, n1)) :
    n0 ≤ n1 ∧
    (∀ k, k ≠ "events" →
      lookup k cc.own = lookup k r.own ∨
        ∃ a, n0 ≤ a ∧ a < n1 ∧ lookup k cc.own = some (.subject a)) ∧
    (lookup "events" cc.own = none ∨ lookup "events" cc.own = lookup "events" r.own) := by
  unfold createChannels at h
  by_cases ht : truthy (r.get "events") = true
  · simp only [ht, if_true] at h
    cases hl : eventsLoop m ((lengthOf (r.get "events")).getD 0) r n0 with
    | error e => simp [hl] at h
    | ok res =>
      obtain ⟨res1, res2⟩ := res
      simp only [hl, Except.ok.injEq, Prod.mk.injEq] at h
      obtain ⟨rfl, rfl⟩ := h
      obtain ⟨h1, h3⟩ := eventsLoop_fields m _ r n0 res1 res2 hl
      refine ⟨by omega, ?_, Or.inl (by simp [Obj.delete, lookup_remove])⟩
      intro k hk
      have hk2 : "events" ≠ k := fun h => hk h.symm
      rcases h3 k with h | ⟨a, ha1, ha2, ha3⟩
      · exact Or.inl (by simp [Obj.delete, lookup_remove, hk2, h])
      · exact Or.inr ⟨a, ha1, by omega, by simp [Obj.delete, lookup_remove, hk2, ha3]⟩
  · simp only [ht] at h
    simp only [Bool.false_eq_true, if_false, Except.ok.injEq, Prod.mk.injEq] at h
    obtain ⟨rfl, rfl⟩ := h
    exact ⟨Nat.le_refl _, fun k _ => Or.inl rfl, Or.inr rfl⟩

/-- What lines 45-53 return, read from the view they are given. -/
theorem finishView_fields (m : Members) (r : Obj × Nat) (v : Obj) (n1 : Nat)
    (h : finishView m r = .ok (v, n1)) :
    n1 = r.2 ∧ v.proto = r.1.proto ∧ lookup "clone" v.own = some .cloneFn ∧
    (∃ d, rxMap (r.1.get "vtree$") = .ok d ∧ lookup "vtree$" v.own = some d) ∧
    ∀ k, k ≠ "vtree$" → k ≠ "clone" → lookup k v.own = lookup k r.1.own := by
  unfold finishView at h
  cases hm : rxMap (r.1.get "vtree$") with
  | error e => simp [hm] at h
  | ok d =>
    simp only [hm, Except.ok.injEq, Prod.mk.injEq] at h
    obtain ⟨hv, hn⟩ := h
    subst hv
    rw [set_of_ne m _ "vtree$" d (by decide), set_of_ne m _ "clone" .cloneFn (by decide)]
    refine ⟨hn.symm, rfl, ?_, ⟨d, rfl, ?_⟩, ?_⟩
    · simp [Obj.put, lookup_assign]
    · simp [Obj.put, lookup_assign]
    · intro k hk1 hk2
      simp [Obj.put, lookup_assign, Ne.symm hk1, Ne.symm hk2]

theorem finishView_returns (m : Members) (r : Obj × Nat) (d : Val)
    (h : rxMap (r.1.get "vtree$") = .ok d) :
    ∃ v, finishView m r = .ok (v, r.2) := by
  unfold finishView
  rw [h]
  exact ⟨_, rfl⟩

theorem defineView_steps (m : Members) (mi : Obj) (f : Obj → Obj) (n0 n1 : Nat) (v : Obj)
    (h : defineView m mi f n0 = .ok (v, n1)) :
    ∃ cc n, createChannels m (f mi) n0 = .ok (cc, n) ∧ finishView m (cc, n) = .ok (v, n1) := by
  unfold defineView BackwardFunction customInterfaceErrorMessageInInject at h
  cases hc : createChannels m (f mi) n0 with
  | error e => simp [hc] at h
  | ok r =>
    obtain ⟨cc, n⟩ := r
    simp only [hc] at h
    exact ⟨cc, n, rfl, h⟩

theorem defineView_of_steps (m : Members) (mi : Obj) (f : Obj → Obj) (n0 : Nat)
    (cc : Obj) (n : Nat) (hc : createChannels m (f mi) n0 = .ok (cc, n)) :
    defineView m mi f n0 = finishView m (cc, n) := by
  unfold defineView BackwardFunction customInterfaceErrorMessageInInject
  simp [hc]

/-- Where a Subject held by the returned view comes from: the definition's result held
it under the same name, or this call of `defineView` allocated it. -/
theorem defineView_subject_origin (m : Members) (mi : Obj) (f : Obj → Obj) (n0 n1 : Nat)
    (v : Obj) (h : defineView m mi f n0 = .ok (v, n1)) (k : String) (a : Nat)
    (hk : lookup k v.own = some (.subject a)) :
    lookup k (f mi).own = some (.subject a) ∨ (n0 ≤ a ∧ a < n1) := by
  obtain ⟨cc, n, hc, hf⟩ := defineView_steps m mi f n0 n1 v h
  obtain ⟨h1, -, h3, ⟨d, hd1, hd2⟩, h5⟩ := finishView_fields m (cc, n) v n1 hf
  obtain ⟨c1, c2, c3⟩ := createChannels_fields m (f mi) cc n0 n hc
  simp only at h1 hd1 h5
  subst h1
  by_cases hk1 : k = "vtree$"
  · subst hk1
    rw [hd2] at hk
    exact absurd (Option.some.inj hk) (rxMap_not_subject _ d hd1 a)
  · by_cases hk2 : k = "clone"
    · subst hk2
      rw [h3] at hk
      simp at hk
    · rw [h5 k hk1 hk2] at hk
      by_cases hk3 : k = "events"
      · subst hk3
        rcases c3 with he | he
        · rw [he] at hk; simp at hk
        · rw [he] at hk; exact Or.inl hk
      · rcases c2 k hk3 with hc | ⟨b, hb1, hb2, hb3⟩
        · rw [hc] at hk; exact Or.inl hk
        · rw [hb3] at hk
          have : b = a := by simpa using hk
          subst this
          exact Or.inr ⟨hb1, hb2⟩

/-! ## Lemmas on the order of the writes -/

theorem lastIndex_get (k : String) :
    ∀ ks : List String, k ∈ ks → ks[lastIndex k ks]? = some k
  | [], h => by simp at h
  | x :: xs, h => by
    by_cases hx : k ∈ xs
    · simp [lastIndex, hx, lastIndex_get k xs hx]
    · have : k = x := by
        rcases List.mem_cons.1 h with e | e
        · exact e
        · exact absurd e hx
      subst this
      simp [lastIndex, hx]

theorem lastIndex_lt (k : String) (ks : List String) (h : k ∈ ks) :
    lastIndex k ks < ks.length := by
  have := lastIndex_get k ks h
  by_contra hlt
  rw [List.getElem?_eq_none (by omega)] at this
  simp at this

theorem lastIndex_inj (a b : String) (ks : List String) (ha : a ∈ ks) (hb : b ∈ ks)
    (h : lastIndex a ks = lastIndex b ks) : a = b := by
  have h1 := lastIndex_get a ks ha
  have h2 := lastIndex_get b ks hb
  rw [h, h2] at h1
  exact (Option.some.inj h1).symm

theorem afterLastEvents_not_mem : ∀ E : List String, "events" ∉ afterLastEvents E
  | [] => by simp [afterLastEvents]
  | x :: xs => by
    unfold afterLastEvents
    by_cases h : "events" ∈ xs
    · rw [if_pos h]
      exact afterLastEvents_not_mem xs
    · by_cases hx : x = "events"
      · rw [if_neg h, if_pos hx]
        exact h
      · rw [if_neg h, if_neg hx]
        intro hm
        rcases List.mem_cons.1 hm with e | e
        · exact hx e.symm
        · exact h e

theorem afterLastEvents_of_not_mem :
    ∀ E : List String, "events" ∉ E → afterLastEvents E = E
  | [], _ => rfl
  | x :: xs, h => by
    have h1 : "events" ∉ xs := fun hm => h (List.mem_cons_of_mem _ hm)
    have h2 : x ≠ "events" := fun e => h (by simp [e])
    simp [afterLastEvents, h1, h2]

theorem afterLastEvents_split :
    ∀ E : List String, "events" ∈ E → ∃ p, E = p ++ "events" :: afterLastEvents E
  | [], h => by simp at h
  | x :: xs, h => by
    by_cases h1 : "events" ∈ xs
    · obtain ⟨p, hp⟩ := afterLastEvents_split xs h1
      refine ⟨x :: p, ?_⟩
      simp only [afterLastEvents, h1, if_true, List.cons_append]
      rw [← hp]
    · have hx : x = "events" := by
        rcases List.mem_cons.1 h with e | e
        · exact e.symm
        · exact absurd e h1
      exact ⟨[], by simp [afterLastEvents, h1, hx]⟩

theorem afterLastEvents_length (E : List String) : (afterLastEvents E).length ≤ E.length := by
  by_cases h : "events" ∈ E
  · obtain ⟨p, hp⟩ := afterLastEvents_split E h
    have := congrArg List.length hp
    simp at this
    omega
  · rw [afterLastEvents_of_not_mem E h]

theorem afterLastEvents_subset (E : List String) (k : String) (h : k ∈ afterLastEvents E) :
    k ∈ E := by
  by_cases he : "events" ∈ E
  · obtain ⟨p, hp⟩ := afterLastEvents_split E he
    rw [hp]
    simp [h]
  · rwa [afterLastEvents_of_not_mem E he] at h

/-! ## Lemmas on `writeKeys` -/

theorem writeKeys_next (m : Members) :
    ∀ (ks : List String) (view : Obj) (next : Nat),
      (writeKeys m ks view next).2 = next + ks.length
  | [], _, _ => rfl
  | k :: ks, view, next => by
    simp only [writeKeys, List.length_cons]
    rw [writeKeys_next m ks]
    omega

theorem writeKeys_own_frame (m : Members) (k : String) :
    ∀ (ks : List String) (view : Obj) (next : Nat), k ∉ ks →
      lookup k (writeKeys m ks view next).1.own = lookup k view.own
  | [], _, _, _ => rfl
  | x :: xs, view, next, h => by
    have h1 : k ∉ xs := fun hm => h (List.mem_cons_of_mem _ hm)
    have h2 : x ≠ k := fun e => h (by simp [e])
    simp only [writeKeys]
    rw [writeKeys_own_frame m k xs _ _ h1, set_own_of_ne m view x k _ h2]

theorem writeKeys_proto_frame (m : Members) :
    ∀ (ks : List String) (view : Obj) (next : Nat), "__proto__" ∉ ks →
      (writeKeys m ks view next).1.proto = view.proto
  | [], _, _, _ => rfl
  | x :: xs, view, next, h => by
    have h1 : "__proto__" ∉ xs := fun hm => h (List.mem_cons_of_mem _ hm)
    have h2 : x ≠ "__proto__" := fun e => h (by simp [e])
    simp only [writeKeys]
    rw [writeKeys_proto_frame m xs _ _ h1, set_proto_of_ne m view x _ h2]

theorem writeKeys_proto_of_not_runs (m : Members) :
    ∀ (ks : List String) (view : Obj) (next : Nat), view.runsProtoSetter = false →
      (writeKeys m ks view next).1.proto = view.proto
  | [], _, _, _ => rfl
  | x :: xs, view, next, h => by
    simp only [writeKeys]
    rw [writeKeys_proto_of_not_runs m xs _ _ (not_runs_set m view x _ h),
      set_proto_of_not_runs m view x _ h]

theorem writeKeys_runs (m : Members)
    (hmem : ∀ id, (lookup "__proto__" (m (.subject id))).isSome = true) :
    ∀ (ks : List String) (view : Obj) (next : Nat),
      (writeKeys m ks view next).1.runsProtoSetter = view.runsProtoSetter
  | [], _, _ => rfl
  | x :: xs, view, next => by
    simp only [writeKeys]
    rw [writeKeys_runs m hmem xs, runs_set_subject m hmem]

/-- The own field a key of the list ends with: the Subject of its last write. -/
theorem writeKeys_own_of_mem (m : Members) (k : String) :
    ∀ (ks : List String) (view : Obj) (next : Nat), k ∈ ks →
      (k ≠ "__proto__" ∨ view.runsProtoSetter = false) →
      lookup k (writeKeys m ks view next).1.own = some (.subject (next + lastIndex k ks))
  | [], _, _, h, _ => by simp at h
  | x :: xs, view, next, h, hc => by
    simp only [writeKeys]
    by_cases hx : k ∈ xs
    · have hc2 : k ≠ "__proto__" ∨ (view.set m x (.subject next)).runsProtoSetter = false := by
        rcases hc with e | e
        · exact Or.inl e
        · exact Or.inr (not_runs_set m view x _ e)
      rw [writeKeys_own_of_mem m k xs _ _ hx hc2]
      simp only [lastIndex, hx, if_true]
      congr 2
      omega
    · have hk : k = x := by
        rcases List.mem_cons.1 h with e | e
        · exact e
        · exact absurd e hx
      subst hk
      rw [writeKeys_own_frame m k xs _ _ hx]
      have hput : view.set m k (.subject next) = view.put k (.subject next) := by
        rcases hc with e | e
        · exact set_of_ne m view k _ e
        · exact set_of_not_runs m view k _ e
      rw [hput]
      simp [Obj.put, lookup_assign, lastIndex, hx]

/-- What a key of the list reads after the writes: the Subject of its last write, as an
own field or, for `__proto__` on an object that runs the setter, as the prototype. -/
theorem writeKeys_get_of_mem (m : Members)
    (hmem : ∀ id, (lookup "__proto__" (m (.subject id))).isSome = true) (k : String) :
    ∀ (ks : List String) (view : Obj) (next : Nat), k ∈ ks →
      (writeKeys m ks view next).1.get k = .subject (next + lastIndex k ks)
  | [], _, _, h => by simp at h
  | x :: xs, view, next, h => by
    simp only [writeKeys]
    by_cases hx : k ∈ xs
    · rw [writeKeys_get_of_mem m hmem k xs _ _ hx]
      simp only [lastIndex, hx, if_true]
      congr 1
      omega
    · have hk : k = x := by
        rcases List.mem_cons.1 h with e | e
        · exact e
        · exact absurd e hx
      subst hk
      have hlast : lastIndex k (k :: xs) = 0 := by simp [lastIndex, hx]
      rw [hlast, Nat.add_zero]
      refine Eq.trans ?_ (get_set_subject m hmem view k next)
      by_cases hp : k = "__proto__"
      · subst hp
        exact get_congr _ _ _ (writeKeys_own_frame m _ xs _ _ hx)
          (writeKeys_proto_frame m xs _ _ hx)
      · have hown : lookup k (view.set m k (.subject next)).own = some (.subject next) := by
          rw [set_of_ne m view k _ hp]
          simp [Obj.put, lookup_assign]
        rw [get_of_own (view.set m k (.subject next)) k _ hown]
        exact get_of_own _ k _ (by rw [writeKeys_own_frame m k xs _ _ hx]; exact hown)

/-- No own field `__proto__` appears on an object that runs the setter. -/
theorem writeKeys_no_own_proto (m : Members)
    (hmem : ∀ id, (lookup "__proto__" (m (.subject id))).isSome = true)
    (ks : List String) (view : Obj) (next : Nat) (h : view.runsProtoSetter = true) :
    lookup "__proto__" (writeKeys m ks view next).1.own = none := by
  have := writeKeys_runs m hmem ks view next
  rw [h] at this
  simp only [Obj.runsProtoSetter, Bool.and_eq_true, Option.isNone_iff_eq_none] at this
  exact this.1

/-! ## The loop on a declaration -/

theorem get_middle (a b : List String) (x : String) (n : Nat) (hn : n = a.length) :
    (a ++ x :: b).get? n = some x := by
  subst hn
  rw [List.get?_eq_getElem?, List.getElem?_append_right (Nat.le_refl _)]
  simp

/-- The first iterations of the loop, over names that hold no `events`: they are the
writes of these names, last name first. -/
theorem eventsLoop_suffix (m : Members) :
    ∀ (rs pre tail : List String) (view : Obj) (next : Nat),
      lookup "events" view.own = some (.names (pre ++ rs.reverse ++ tail)) →
      "events" ∉ rs →
      eventsLoop m (pre.length + rs.length) view next =
        eventsLoop m pre.length (writeKeys m rs view next).1 (writeKeys m rs view next).2
  | [], _, _, _, _, _, _ => rfl
  | x :: rs, pre, tail, view, next, hev, hne => by
    have h1 : "events" ∉ rs := fun hm => hne (List.mem_cons_of_mem _ hm)
    have h2 : x ≠ "events" := fun e => hne (by simp [e])
    have hlist : pre ++ (x :: rs).reverse ++ tail = (pre ++ rs.reverse) ++ x :: tail := by
      simp
    have hidx : index (view.get "events") (pre.length + rs.length) = .ok (.str x) := by
      rw [get_of_own view "events" _ hev, hlist]
      simp only [index]
      rw [get_middle (pre ++ rs.reverse) tail x _ (by simp)]
    show eventsLoop m (pre.length + rs.length + 1) view next = _
    simp only [eventsLoop, hidx, toKey, writeKeys]
    apply eventsLoop_suffix m rs pre (x :: tail)
    · rw [set_own_of_ne m view x "events" _ h2, hev, hlist]
    · exact h1

/-- The iterations after `view.events` has become a Subject: each reads `undefined` as
the name and writes the key `undefined`. -/
theorem eventsLoop_overwritten (m : Members) :
    ∀ (j : Nat) (view : Obj) (next a : Nat),
      lookup "events" view.own = some (.subject a) →
      ∃ res, eventsLoop m j view next = .ok (res, next + j) ∧ res.proto = view.proto ∧
        (∀ k, k ≠ "undefined" → lookup k res.own = lookup k view.own) ∧
        lookup "undefined" res.own =
          (if j = 0 then lookup "undefined" view.own else some (.subject (next + j - 1)))
  | 0, view, next, a, _ => ⟨view, rfl, rfl, fun _ _ => rfl, by simp⟩
  | j + 1, view, next, a, hev => by
    have hidx : index (view.get "events") j = .ok .undefined := by
      rw [get_of_own view "events" _ hev]
      rfl
    have hset : view.set m "undefined" (.subject next) = view.put "undefined" (.subject next) :=
      set_of_ne m view _ _ (by decide)
    have hev2 : lookup "events" (view.put "undefined" (.subject next)).own
        = some (.subject a) := by
      simp only [Obj.put, lookup_assign]
      rw [if_neg (by decide)]
      exact hev
    obtain ⟨res, h1, h2, h3, h4⟩ :=
      eventsLoop_overwritten m j (view.put "undefined" (.subject next)) (next + 1) a hev2
    refine ⟨res, ?_, ?_, ?_, ?_⟩
    · simp only [eventsLoop, hidx, toKey, hset]
      rw [h1]
      congr 2
      omega
    · rw [h2]; rfl
    · intro k hk
      rw [h3 k hk]
      simp [Obj.put, lookup_assign, Ne.symm hk]
    · rw [h4]
      by_cases hj : j = 0
      · subst hj
        simp [Obj.put, lookup_assign]
      · simp only [hj, if_false, Nat.succ_ne_zero]
        congr 2
        omega

/-- The loop on a declaration `E`: it returns, having made one allocation per entry.
The names after the last `events` entry are written, last name first; when `events` is
an entry, its write replaces the declaration, and each entry before it writes the key
`undefined`. -/
theorem eventsLoop_declared (m : Members) (r : Obj) (n0 : Nat) (E : List String)
    (hev : lookup "events" r.own = some (.names E)) :
    ∃ res, eventsLoop m E.length r n0 = .ok (res, n0 + E.length) ∧
      res.proto = (writeKeys m (afterLastEvents E).reverse r n0).1.proto ∧
      (∀ k, k ≠ "events" →
        ¬ (k = "undefined" ∧ (afterLastEvents E).length + 2 ≤ E.length) →
        lookup k res.own = lookup k (writeKeys m (afterLastEvents E).reverse r n0).1.own) ∧
      ((afterLastEvents E).length + 2 ≤ E.length →
        lookup "undefined" res.own = some (.subject (n0 + E.length - 1))) := by
  by_cases he : "events" ∈ E
  · obtain ⟨p, hp⟩ := afterLastEvents_split E he
    have hnm := afterLastEvents_not_mem E
    generalize afterLastEvents E = suf at hp hnm
    have hlen : E.length = (p ++ ["events"]).length + suf.reverse.length := by
      rw [hp]; simp; omega
    have hsuffix := eventsLoop_suffix m suf.reverse (p ++ ["events"]) [] r n0
      (by rw [hev, hp]; simp) (by simpa using hnm)
    rw [← hlen] at hsuffix
    have hW2 := writeKeys_next m suf.reverse r n0
    have hWev : lookup "events" (writeKeys m suf.reverse r n0).1.own = some (.names E) := by
      rw [writeKeys_own_frame m "events" suf.reverse r n0 (by simpa using hnm), hev]
    generalize writeKeys m suf.reverse r n0 = W at hsuffix hW2 hWev
    obtain ⟨W1, W2⟩ := W
    simp only at hsuffix hW2 hWev
    have hidx : index (W1.get "events") p.length = .ok (.str "events") := by
      rw [get_of_own W1 "events" _ hWev, hp]
      simp only [index]
      rw [get_middle p suf "events" _ rfl]
    have hstep : eventsLoop m (p ++ ["events"]).length W1 W2
        = eventsLoop m p.length (W1.put "events" (.subject W2)) (W2 + 1) := by
      have : (p ++ ["events"]).length = p.length + 1 := by simp
      rw [this]
      simp only [eventsLoop, hidx, toKey]
      rw [set_of_ne m W1 "events" _ (by decide)]
    obtain ⟨res, h1, h2, h3, h4⟩ := eventsLoop_overwritten m p.length
      (W1.put "events" (.subject W2)) (W2 + 1) W2 (by simp [Obj.put, lookup_assign])
    have hElen : E.length = p.length + 1 + suf.length := by
      rw [hp]; simp; omega
    simp only [List.length_reverse] at hW2
    refine ⟨res, ?_, ?_, ?_, ?_⟩
    · rw [hsuffix, hstep, h1]
      congr 2
      omega
    · rw [h2]; rfl
    · intro k hk hph
      by_cases hu : k = "undefined"
      · have hp0 : p.length = 0 := by
          by_contra hne
          exact hph ⟨hu, by omega⟩
        subst hu
        rw [h4]
        simp [hp0, Obj.put, lookup_assign]
      · rw [h3 k hu]
        simp [Obj.put, lookup_assign, Ne.symm hk]
    · intro hph
      rw [h4]
      have hp0 : p.length ≠ 0 := by omega
      simp only [hp0, if_false]
      congr 2
      omega
  · rw [afterLastEvents_of_not_mem E he]
    have hsuffix := eventsLoop_suffix m E.reverse [] [] r n0
      (by rw [hev]; simp) (by simpa using he)
    simp only [List.length_nil, Nat.zero_add, List.length_reverse, eventsLoop] at hsuffix
    refine ⟨(writeKeys m E.reverse r n0).1, ?_, rfl, fun _ _ _ => rfl, ?_⟩
    · rw [hsuffix, writeKeys_next]
      simp
    · intro h
      omega

/-- Lines 39-44 on a declaration `E`. -/
theorem createChannels_declared (m : Members) (r : Obj) (n0 : Nat) (E : List String)
    (hev : lookup "events" r.own = some (.names E)) :
    ∃ cc, createChannels m r n0 = .ok (cc, n0 + E.length) ∧
      cc.proto = (writeKeys m (afterLastEvents E).reverse r n0).1.proto ∧
      lookup "events" cc.own = none ∧
      (∀ k, k ≠ "events" →
        ¬ (k = "undefined" ∧ (afterLastEvents E).length + 2 ≤ E.length) →
        lookup k cc.own = lookup k (writeKeys m (afterLastEvents E).reverse r n0).1.own) ∧
      ((afterLastEvents E).length + 2 ≤ E.length →
        lookup "undefined" cc.own = some (.subject (n0 + E.length - 1))) := by
  obtain ⟨res, h1, h2, h3, h4⟩ := eventsLoop_declared m r n0 E hev
  refine ⟨res.delete "events", ?_, h2, ?_, ?_, ?_⟩
  · unfold createChannels
    rw [get_of_own r "events" _ hev]
    simp only [truthy, if_true, lengthOf, Option.getD_some, h1]
  · simp [Obj.delete, lookup_remove]
  · intro k hk hph
    rw [← h3 k hk hph]
    simp [Obj.delete, lookup_remove, Ne.symm hk]
  · intro hph
    rw [← h4 hph]
    simp [Obj.delete, lookup_remove]

/-! ## The returned view on a declaration -/

/-- The view `defineView` returns on a definition whose result declares `E`, read from
the writes of the names after the last `events` entry. -/
theorem defineView_declared (m : Members) (mi : Obj) (f : Obj → Obj) (n0 : Nat)
    (E : List String) (hev : lookup "events" (f mi).own = some (.names E))
    (v : Obj) (n1 : Nat) (h : defineView m mi f n0 = .ok (v, n1)) :
    n1 = n0 + E.length ∧
    v.proto = (writeKeys m (afterLastEvents E).reverse (f mi) n0).1.proto ∧
    lookup "events" v.own = none ∧
    lookup "clone" v.own = some .cloneFn ∧
    (∃ d, rxMap ((writeKeys m (afterLastEvents E).reverse (f mi) n0).1.get "vtree$") = .ok d ∧
      lookup "vtree$" v.own = some d) ∧
    (∀ k, k ≠ "events" → k ≠ "vtree$" → k ≠ "clone" →
      ¬ (k = "undefined" ∧ (afterLastEvents E).length + 2 ≤ E.length) →
      lookup k v.own = lookup k (writeKeys m (afterLastEvents E).reverse (f mi) n0).1.own) ∧
    ((afterLastEvents E).length + 2 ≤ E.length →
      lookup "undefined" v.own = some (.subject (n0 + E.length - 1))) := by
  obtain ⟨cc, c1, c2, c3, c4, c5⟩ := createChannels_declared m (f mi) n0 E hev
  rw [defineView_of_steps m mi f n0 cc _ c1] at h
  obtain ⟨h1, h2, h3, ⟨d, hd1, hd2⟩, h5⟩ := finishView_fields m _ v n1 h
  simp only at h1 h2 hd1 h5
  have hvt : cc.get "vtree$" = (writeKeys m (afterLastEvents E).reverse (f mi) n0).1.get "vtree$" :=
    get_congr _ _ _ (c4 "vtree$" (by decide) (fun hc => absurd hc.1 (by decide))) c2
  refine ⟨h1, h2.trans c2, ?_, h3, ⟨d, hvt ▸ hd1, hd2⟩, ?_, ?_⟩
  · rw [h5 "events" (by decide) (by decide)]
    exact c3
  · intro k hk1 hk2 hk3 hph
    rw [h5 k hk2 hk3]
    exact c4 k hk1 hph
  · intro hph
    rw [h5 "undefined" (by decide) (by decide)]
    exact c5 hph

/-- On a declaration `defineView` returns as soon as the `vtree$` left by the loop can be
mapped. -/
theorem defineView_declared_returns (m : Members) (mi : Obj) (f : Obj → Obj) (n0 : Nat)
    (E : List String) (hev : lookup "events" (f mi).own = some (.names E)) (d : Val)
    (hd : rxMap ((writeKeys m (afterLastEvents E).reverse (f mi) n0).1.get "vtree$") = .ok d) :
    ∃ v, defineView m mi f n0 = .ok (v, n0 + E.length) := by
  obtain ⟨cc, c1, c2, c3, c4, c5⟩ := createChannels_declared m (f mi) n0 E hev
  rw [defineView_of_steps m mi f n0 cc _ c1]
  have hvt : cc.get "vtree$" = (writeKeys m (afterLastEvents E).reverse (f mi) n0).1.get "vtree$" :=
    get_congr _ _ _ (c4 "vtree$" (by decide) (fun hc => absurd hc.1 (by decide))) c2
  exact finishView_returns m (cc, n0 + E.length) d (by rw [hvt]; exact hd)

/-- With an own `vtree$` that can be mapped, the `vtree$` left by the loop can be mapped
too: it is the original one, or a Subject. -/
theorem written_vtree_maps (m : Members) (r : Obj) (n0 : Nat) (ks : List String)
    (src d : Val) (hvt : lookup "vtree$" r.own = some src) (hsrc : rxMap src = .ok d) :
    ∃ d2, rxMap ((writeKeys m ks r n0).1.get "vtree$") = .ok d2 := by
  by_cases hk : "vtree$" ∈ ks
  · have := writeKeys_own_of_mem m "vtree$" ks r n0 hk (Or.inl (by decide))
    rw [get_of_own _ _ _ this]
    exact ⟨_, rfl⟩
  · have := writeKeys_own_frame m "vtree$" ks r n0 hk
    rw [hvt] at this
    rw [get_of_own _ _ _ this]
    exact ⟨d, hsrc⟩

theorem mem_writtenNames (E : List String) (k : String) :
    k ∈ writtenNames E ↔
      (k ∈ afterLastEvents E ∨
        (k = "undefined" ∧ (afterLastEvents E).length + 2 ≤ E.length)) := by
  unfold writtenNames
  by_cases h : (afterLastEvents E).length + 2 ≤ E.length
  · simp [h]
  · simp [h]

theorem writtenNames_of_not_mem (E : List String) (h : "events" ∉ E) :
    writtenNames E = E := by
  unfold writtenNames
  rw [afterLastEvents_of_not_mem E h]
  simp

theorem events_not_written (E : List String) : "events" ∉ writtenNames E := by
  rw [mem_writtenNames]
  intro h
  rcases h with h | h
  · exact afterLastEvents_not_mem E h
  · exact absurd h.1 (by decide)

theorem channelNumber_lt (E : List String) (k : String) (hk : k ∈ writtenNames E) :
    channelNumber E k < E.length := by
  have hl := afterLastEvents_length E
  unfold channelNumber
  by_cases hph : k = "undefined" ∧ (afterLastEvents E).length + 2 ≤ E.length
  · rw [if_pos hph]
    omega
  · rw [if_neg hph]
    have hk2 : k ∈ afterLastEvents E := by
      rcases (mem_writtenNames E k).1 hk with e | e
      · exact e
      · exact absurd e hph
    have := lastIndex_lt k (afterLastEvents E).reverse (by simpa using hk2)
    simp only [List.length_reverse] at this
    omega

theorem channelNumber_inj (E : List String) (a b : String) (ha : a ∈ writtenNames E)
    (hb : b ∈ writtenNames E) (h : channelNumber E a = channelNumber E b) : a = b := by
  unfold channelNumber at h
  by_cases ca : a = "undefined" ∧ (afterLastEvents E).length + 2 ≤ E.length
  · by_cases cb : b = "undefined" ∧ (afterLastEvents E).length + 2 ≤ E.length
    · rw [ca.1, cb.1]
    · have hb2 : b ∈ afterLastEvents E := by
        rcases (mem_writtenNames E b).1 hb with e | e
        · exact e
        · exact absurd e cb
      have h2 := lastIndex_lt b (afterLastEvents E).reverse (by simpa using hb2)
      simp only [List.length_reverse] at h2
      rw [if_pos ca, if_neg cb] at h
      omega
  · have ha2 : a ∈ afterLastEvents E := by
      rcases (mem_writtenNames E a).1 ha with e | e
      · exact e
      · exact absurd e ca
    have h1 := lastIndex_lt a (afterLastEvents E).reverse (by simpa using ha2)
    simp only [List.length_reverse] at h1
    by_cases cb : b = "undefined" ∧ (afterLastEvents E).length + 2 ≤ E.length
    · rw [if_neg ca, if_pos cb] at h
      omega
    · have hb2 : b ∈ afterLastEvents E := by
        rcases (mem_writtenNames E b).1 hb with e | e
        · exact e
        · exact absurd e cb
      rw [if_neg ca, if_neg cb] at h
      exact lastIndex_inj a b _ (by simpa using ha2) (by simpa using hb2) h

/-- The channel of a written name. -/
theorem defineView_channel (m : Members)
    (hmem : ∀ id, (lookup "__proto__" (m (.subject id))).isSome = true)
    (mi : Obj) (f : Obj → Obj) (n0 : Nat)
    (E : List String) (hev : lookup "events" (f mi).own = some (.names E))
    (v : Obj) (n1 : Nat) (h : defineView m mi f n0 = .ok (v, n1))
    (k : String) (hk : k ∈ writtenNames E) (hk1 : k ≠ "vtree$") (hk2 : k ≠ "clone") :
    v.get k = .subject (n0 + channelNumber E k) ∧
    ((k ≠ "__proto__" ∨ (f mi).runsProtoSetter = false) →
      lookup k v.own = some (.subject (n0 + channelNumber E k))) := by
  obtain ⟨h1, h2, h3, h4, -, h6, h7⟩ := defineView_declared m mi f n0 E hev v n1 h
  have hke : k ≠ "events" := fun e => events_not_written E (e ▸ hk)
  have hl := afterLastEvents_length E
  by_cases hph : k = "undefined" ∧ (afterLastEvents E).length + 2 ≤ E.length
  · have hown : lookup k v.own = some (.subject (n0 + channelNumber E k)) := by
      rw [hph.1, h7 hph.2]
      simp only [channelNumber, hph.2, and_self, if_true]
      congr 2
      omega
    exact ⟨get_of_own v k _ hown, fun _ => hown⟩
  · have hk3 : k ∈ afterLastEvents E := by
      rcases (mem_writtenNames E k).1 hk with e | e
      · exact e
      · exact absurd e hph
    have hnum : channelNumber E k = lastIndex k (afterLastEvents E).reverse := by
      simp only [channelNumber, hph, if_false]
    rw [hnum]
    constructor
    · rw [get_congr v _ k (h6 k hke hk1 hk2 hph) h2]
      exact writeKeys_get_of_mem m hmem k _ (f mi) n0 (by simpa using hk3)
    · intro hc
      rw [h6 k hke hk1 hk2 hph]
      exact writeKeys_own_of_mem m k _ (f mi) n0 (by simpa using hk3) hc

/-- No other written name reads the channel of a written name. -/
theorem defineView_channel_distinct (m : Members)
    (hmem : ∀ id, (lookup "__proto__" (m (.subject id))).isSome = true)
    (mi : Obj) (f : Obj → Obj) (n0 : Nat)
    (E : List String) (hev : lookup "events" (f mi).own = some (.names E))
    (v : Obj) (n1 : Nat) (h : defineView m mi f n0 = .ok (v, n1))
    (k : String) (hk : k ∈ writtenNames E)
    (k2 : String) (hk2 : k2 ∈ writtenNames E) (hne : k2 ≠ k) :
    v.get k2 ≠ .subject (n0 + channelNumber E k) := by
  obtain ⟨-, -, -, h4, ⟨d, hd1, hd2⟩, -, -⟩ := defineView_declared m mi f n0 E hev v n1 h
  by_cases c1 : k2 = "vtree$"
  · subst c1
    rw [get_of_own v _ _ hd2]
    exact rxMap_not_subject _ d hd1 _
  · by_cases c2 : k2 = "clone"
    · subst c2
      rw [get_of_own v _ _ h4]
      simp
    · rw [(defineView_channel m hmem mi f n0 E hev v n1 h k2 hk2 c1 c2).1]
      intro e
      have e2 : channelNumber E k2 = channelNumber E k := by
        have := Val.subject.inj e
        omega
      exact hne (channelNumber_inj E k2 k hk2 hk e2)

/-- A name that is not written has, on the returned view, the own field it has on the
definition's result without `events`. -/
theorem defineView_undeclared (m : Members) (mi : Obj) (f : Obj → Obj) (n0 : Nat)
    (E : List String) (hev : lookup "events" (f mi).own = some (.names E))
    (v : Obj) (n1 : Nat) (h : defineView m mi f n0 = .ok (v, n1))
    (s : String) (hs : s ∉ writtenNames E) (hs1 : s ≠ "vtree$") (hs2 : s ≠ "clone") :
    lookup s v.own = lookup s ((f mi).delete "events").own := by
  obtain ⟨h1, h2, h3, h4, -, h6, h7⟩ := defineView_declared m mi f n0 E hev v n1 h
  have hs3 : s ∉ afterLastEvents E := fun e => hs ((mem_writtenNames E s).2 (Or.inl e))
  have hph : ¬ (s = "undefined" ∧ (afterLastEvents E).length + 2 ≤ E.length) :=
    fun e => hs ((mem_writtenNames E s).2 (Or.inr e))
  by_cases hse : s = "events"
  · subst hse
    rw [h3]
    simp [Obj.delete, lookup_remove]
  · rw [h6 s hse hs1 hs2 hph, writeKeys_own_frame m s _ _ _ (by simpa using hs3)]
    simp [Obj.delete, lookup_remove, Ne.symm hse]

theorem writeKeys_proto_cases (m : Members) :
    ∀ (ks : List String) (view : Obj) (next : Nat),
      (writeKeys m ks view next).1.proto = view.proto ∨
        ∃ id, next ≤ id ∧ id < next + ks.length ∧
          (writeKeys m ks view next).1.proto = inheritedThrough m (.subject id)
  | [], _, _ => Or.inl rfl
  | x :: xs, view, next => by
    simp only [writeKeys, List.length_cons]
    rcases writeKeys_proto_cases m xs (view.set m x (.subject next)) (next + 1) with e | e
    · rw [e]
      unfold Obj.set
      split
      · exact Or.inr ⟨next, Nat.le_refl _, by omega, by simp [Obj.setPrototype, isObject]⟩
      · exact Or.inl rfl
    · obtain ⟨id, i1, i2, i3⟩ := e
      exact Or.inr ⟨id, by omega, by omega, i3⟩

/-- The prototype of the returned view: the one of the definition's result, unless the
write of a declared `__proto__` ran the setter; then it is a Subject of this call. -/
theorem defineView_proto (m : Members) (mi : Obj) (f : Obj → Obj) (n0 : Nat)
    (E : List String) (hev : lookup "events" (f mi).own = some (.names E))
    (v : Obj) (n1 : Nat) (h : defineView m mi f n0 = .ok (v, n1)) :
    (("__proto__" ∈ afterLastEvents E → (f mi).runsProtoSetter = false) →
      v.proto = (f mi).proto) ∧
    (v.proto = (f mi).proto ∨
      ∃ id, n0 ≤ id ∧ id < n1 ∧ v.proto = inheritedThrough m (.subject id)) := by
  obtain ⟨h1, h2, -, -, -, -, -⟩ := defineView_declared m mi f n0 E hev v n1 h
  have hl := afterLastEvents_length E
  constructor
  · intro hproto
    rw [h2]
    by_cases hm : "__proto__" ∈ afterLastEvents E
    · exact writeKeys_proto_of_not_runs m _ _ _ (hproto hm)
    · exact writeKeys_proto_frame m _ _ _ (by simpa using hm)
  · rw [h2]
    rcases writeKeys_proto_cases m (afterLastEvents E).reverse (f mi) n0 with e | ⟨id, i1, i2, i3⟩
    · exact Or.inl e
    · simp only [List.length_reverse] at i2
      exact Or.inr ⟨id, i1, by omega, i3⟩

/-! ## The loop in declaration order -/

theorem eventsLoopDeclarationOrder_run (m : Members) :
    ∀ (seg pre : List String) (view : Obj) (next : Nat),
      lookup "events" view.own = some (.names (pre ++ seg)) → "events" ∉ seg →
      eventsLoopDeclarationOrder m seg.length pre.length view next
        = .ok (writeKeys m seg view next)
  | [], _, _, _, _, _ => rfl
  | x :: xs, pre, view, next, hev, hne => by
    have h1 : "events" ∉ xs := fun hm => hne (List.mem_cons_of_mem _ hm)
    have h2 : x ≠ "events" := fun e => hne (by simp [e])
    have hidx : index (view.get "events") pre.length = .ok (.str x) := by
      rw [get_of_own view "events" _ hev]
      simp only [index]
      rw [get_middle pre xs x _ rfl]
    simp only [List.length_cons, eventsLoopDeclarationOrder, hidx, toKey, writeKeys]
    have hlen : pre.length + 1 = (pre ++ [x]).length := by simp
    rw [hlen]
    apply eventsLoopDeclarationOrder_run m xs (pre ++ [x])
    · rw [set_own_of_ne m view x "events" _ h2, hev]
      simp
    · exact h1

/-- The view returned in declaration order on a declaration without `events`. -/
theorem defineViewDeclarationOrder_declared (m : Members) (mi : Obj) (f : Obj → Obj)
    (n0 : Nat) (E : List String) (hev : lookup "events" (f mi).own = some (.names E))
    (hne : "events" ∉ E)
    (w : Obj) (n2 : Nat) (h : defineViewDeclarationOrder m mi f n0 = .ok (w, n2)) :
    n2 = n0 + E.length ∧
    w.proto = (writeKeys m E (f mi) n0).1.proto ∧
    lookup "events" w.own = none ∧
    lookup "clone" w.own = some .cloneFn ∧
    (∃ d, rxMap ((writeKeys m E (f mi) n0).1.get "vtree$") = .ok d ∧
      lookup "vtree$" w.own = some d) ∧
    (∀ k, k ≠ "events" → k ≠ "vtree$" → k ≠ "clone" →
      lookup k w.own = lookup k (writeKeys m E (f mi) n0).1.own) := by
  have hrun := eventsLoopDeclarationOrder_run m E [] (f mi) n0 (by simpa using hev) hne
  simp only [List.length_nil] at hrun
  unfold defineViewDeclarationOrder BackwardFunction customInterfaceErrorMessageInInject
    createChannelsDeclarationOrder at h
  simp only [get_of_own (f mi) "events" _ hev, truthy, if_true, lengthOf, Option.getD_some,
    hrun] at h
  obtain ⟨h1, h2, h3, ⟨d, hd1, hd2⟩, h5⟩ := finishView_fields m _ w n2 h
  simp only at h1 h2 hd1 h5
  have hvt : ((writeKeys m E (f mi) n0).1.delete "events").get "vtree$"
      = (writeKeys m E (f mi) n0).1.get "vtree$" :=
    get_congr _ _ _ (by simp [Obj.delete, lookup_remove]) rfl
  refine ⟨?_, h2, ?_, h3, ⟨d, hvt ▸ hd1, hd2⟩, ?_⟩
  · rw [h1, writeKeys_next]
  · rw [h5 "events" (by decide) (by decide)]
    simp [Obj.delete, lookup_remove]
  · intro k hk1 hk2 hk3
    rw [h5 k hk2 hk3]
    simp [Obj.delete, lookup_remove, Ne.symm hk1]

/-- Whether a key is an own field after the writes: it was one, or it is written as one. -/
theorem writeKeys_isSome (m : Members)
    (hmem : ∀ id, (lookup "__proto__" (m (.subject id))).isSome = true)
    (k : String) (ks : List String) (view : Obj) (next : Nat) :
    (lookup k (writeKeys m ks view next).1.own).isSome =
      ((lookup k view.own).isSome ||
        (decide (k ∈ ks) && !(decide (k = "__proto__") && view.runsProtoSetter))) := by
  by_cases hk : k ∈ ks
  · by_cases hc : k ≠ "__proto__" ∨ view.runsProtoSetter = false
    · rw [writeKeys_own_of_mem m k ks view next hk hc]
      rcases hc with e | e
      · simp [hk, e]
      · simp [hk, e]
    · have hc2 : k = "__proto__" ∧ view.runsProtoSetter = true := by
        constructor
        · by_contra e; exact hc (Or.inl e)
        · cases hb : view.runsProtoSetter with
          | true => rfl
          | false => exact absurd (Or.inr hb) hc
      obtain ⟨e1, e2⟩ := hc2
      subst e1
      rw [writeKeys_no_own_proto m hmem ks view next e2]
      have hown : lookup "__proto__" view.own = none := by
        simp only [Obj.runsProtoSetter, Bool.and_eq_true, Option.isNone_iff_eq_none] at e2
        exact e2.1
      simp [hown, e2]
  · rw [writeKeys_own_frame m k ks view next hk]
    simp [hk]

/-! ## Lemmas on the derived `vtree$` and its subscriptions -/

/-- The derived `vtree$` is derived from the original one whenever the loop has not
written `vtree$`. -/
theorem defineView_keeps_vtree (m : Members) (mi : Obj) (f : Obj → Obj) (n0 n1 : Nat)
    (v : Obj) (h : defineView m mi f n0 = .ok (v, n1))
    (src : Val) (hvt : lookup "vtree$" (f mi).own = some src)
    (hobs : isObservable src = true)
    (hdecl : truthy ((f mi).get "events") = false ∨
      ∃ E, lookup "events" (f mi).own = some (.names E) ∧ "vtree$" ∉ writtenNames E) :
    v.get "vtree$" = .mapped src := by
  rcases hdecl with hf | ⟨E, hev, hnw⟩
  · have hc : createChannels m (f mi) n0 = .ok (f mi, n0) := by
      simp [createChannels, hf]
    rw [defineView_of_steps m mi f n0 _ _ hc] at h
    obtain ⟨-, -, -, ⟨d, hd1, hd2⟩, -⟩ := finishView_fields m _ v n1 h
    simp only at hd1
    rw [get_of_own (f mi) _ _ hvt, rxMap_observable src hobs] at hd1
    rw [get_of_own v _ _ hd2, ← Except.ok.inj hd1]
  · obtain ⟨-, -, -, -, ⟨d, hd1, hd2⟩, -, -⟩ := defineView_declared m mi f n0 E hev v n1 h
    have hns : "vtree$" ∉ (afterLastEvents E).reverse := by
      intro hm
      exact hnw ((mem_writtenNames E _).2 (Or.inl (by simpa using hm)))
    have hown := writeKeys_own_frame m "vtree$" _ (f mi) n0 hns
    rw [hvt] at hown
    rw [get_of_own _ _ _ hown, rxMap_observable src hobs] at hd1
    rw [get_of_own v _ _ hd2, ← Except.ok.inj hd1]

theorem shadows_of_returns (view : Obj) (t : VTree)
    (h : (replaceStreamNameWithForwardFunction t view).2 = none) :
    shadowsHasOwnProperty t = false := by
  rw [replace_error] at h
  cases hs : shadowsHasOwnProperty t with
  | true => simp [hs] at h
  | false => rfl

/-- One step of a subscription on an object on which the rewriter returns. -/
theorem subscribeMapped_cons (view : Obj) (a : Nat) (rest : List Nat) (h : Heap)
    (hs : shadowsHasOwnProperty (h a) = false) :
    subscribeMapped view (a :: rest) h =
      ⟨(subscribeMapped view rest (mapFn view a h).1).heap,
        (a, (mapFn view a h).1 a) :: (subscribeMapped view rest (mapFn view a h).1).received,
        (subscribeMapped view rest (mapFn view a h).1).failed⟩ := by
  have h2 : (mapFn view a h).2 = .ok a := by
    simp [mapFn, replace_returns view (h a) hs]
  simp only [subscribeMapped, h2]

theorem mapFn_shadows (view : Obj) (a : Nat) (h : Heap) (b : Nat) :
    shadowsHasOwnProperty ((mapFn view a h).1 b) = shadowsHasOwnProperty (h b) := by
  simp only [mapFn]
  by_cases hb : b = a
  · subst hb
    simp [shadows_replace]
  · simp [hb]

theorem mapFn_heap (view : Obj) (a : Nat) (h : Heap) (b : Nat) :
    (mapFn view a h).1 b =
      if b = a then (replaceStreamNameWithForwardFunction (h a) view).1 else h b := rfl

/-- A subscription on objects on which the rewriter returns: no error is delivered, the
objects handed over are the emitted ones in order, every object keeps returning, and
each object has gone through the rewriter once per emission. -/
theorem subscribeMapped_run (view : Obj) :
    ∀ (l : List Nat) (h : Heap), (∀ a ∈ l, shadowsHasOwnProperty (h a) = false) →
      (subscribeMapped view l h).failed = none ∧
      (subscribeMapped view l h).received.map Prod.fst = l ∧
      (∀ b, shadowsHasOwnProperty ((subscribeMapped view l h).heap b)
        = shadowsHasOwnProperty (h b)) ∧
      ∀ b, (subscribeMapped view l h).heap b =
        Nat.iterate (fun t => (replaceStreamNameWithForwardFunction t view).1)
          (l.count b) (h b)
  | [], h, _ => ⟨rfl, rfl, fun _ => rfl, fun _ => rfl⟩
  | a :: rest, h, hs => by
    have hsa := hs a (List.mem_cons_self _ _)
    have hs2 : ∀ b ∈ rest, shadowsHasOwnProperty ((mapFn view a h).1 b) = false := by
      intro b hb
      rw [mapFn_shadows]
      exact hs b (List.mem_cons_of_mem _ hb)
    obtain ⟨i1, i2, i3, i4⟩ := subscribeMapped_run view rest (mapFn view a h).1 hs2
    rw [subscribeMapped_cons view a rest h hsa]
    refine ⟨i1, by simp [i2], ?_, ?_⟩
    · intro b
      show shadowsHasOwnProperty ((subscribeMapped view rest (mapFn view a h).1).heap b) = _
      rw [i3 b, mapFn_shadows]
    · intro b
      show (subscribeMapped view rest (mapFn view a h).1).heap b = _
      rw [i4 b, mapFn_heap]
      by_cases hb : b = a
      · subst hb
        simp only [if_true, List.count_cons_self]
        rw [Function.iterate_succ_apply]
      · have hab : (a == b) = false := by simpa using (Ne.symm hb)
        simp [hb, List.count_cons, hab]

/-- What is handed over at each position: the emitted object, with the content the
rewriter gives it on the content left by the emissions before. -/
theorem subscribeMapped_received (view : Obj) :
    ∀ (l : List Nat) (h : Heap), (∀ a ∈ l, shadowsHasOwnProperty (h a) = false) →
      ∀ (i : Nat) (a : Nat), l[i]? = some a →
        (subscribeMapped view l h).received[i]? =
          some (a, (replaceStreamNameWithForwardFunction
            ((subscribeMapped view (l.take i) h).heap a) view).1)
  | [], _, _, i, a, hi => by simp at hi
  | x :: rest, h, hs, 0, a, hi => by
    have hsa := hs x (List.mem_cons_self _ _)
    have hx : x = a := by simpa using hi
    subst hx
    rw [subscribeMapped_cons view x rest h hsa]
    simp [subscribeMapped, mapFn_heap]
  | x :: rest, h, hs, i + 1, a, hi => by
    have hsa := hs x (List.mem_cons_self _ _)
    have hs2 : ∀ b ∈ rest, shadowsHasOwnProperty ((mapFn view x h).1 b) = false := by
      intro b hb
      rw [mapFn_shadows]
      exact hs b (List.mem_cons_of_mem _ hb)
    have hi2 : rest[i]? = some a := by simpa using hi
    have ih := subscribeMapped_received view rest (mapFn view x h).1 hs2 i a hi2
    rw [subscribeMapped_cons view x rest h hsa]
    simp only [List.take_succ_cons, List.getElem?_cons_succ]
    rw [subscribeMapped_cons view x (rest.take i) h hsa]
    exact ih

/-- Successive subscriptions to a `vtree$` derived from `src`, on objects on which the
rewriter returns: every subscription runs the rewriter again on each emitted object. -/
theorem subscribeTimes_run (emits : Val → List Nat) (view : Obj) (src : Val)
    (hv : view.get "vtree$" = .mapped src) :
    ∀ (k : Nat) (h : Heap), (∀ a ∈ emits src, shadowsHasOwnProperty (h a) = false) →
      ∃ hk, subscribeTimes emits view k h = .ok hk ∧
        ∀ b, hk b = Nat.iterate (fun t => (replaceStreamNameWithForwardFunction t view).1)
          (k * (emits src).count b) (h b)
  | 0, h, _ => ⟨h, rfl, fun b => by simp⟩
  | k + 1, h, hs => by
    obtain ⟨-, -, i3, i4⟩ := subscribeMapped_run view (emits src) h hs
    have hs2 : ∀ a ∈ emits src,
        shadowsHasOwnProperty ((subscribeMapped view (emits src) h).heap a) = false := by
      intro a ha
      rw [i3 a]
      exact hs a ha
    obtain ⟨hk, e1, e2⟩ := subscribeTimes_run emits view src hv k _ hs2
    refine ⟨hk, ?_, ?_⟩
    · simp only [subscribeTimes, subscribeVtree, hv]
      exact e1
    · intro b
      rw [e2 b, i4 b, ← Function.iterate_add_apply]
      congr 1
      rw [Nat.succ_mul]

/-! ## Evaluations on the samples -/

/-- A name declared after an `events` entry has its channel: with
`events = ['events', 'submit$']` the loop writes `submit$` first, then `events`. -/
theorem late_name_has_channel :
    defineView sampleMembers emptyInterface (declaring ["events", "submit$"]) 0
      = .ok (lateSubmitView, 2) ∧
    writtenNames ["events", "submit$"] = ["submit$"] ∧
    lateSubmitView.get "submit$" = .subject 0 ∧
    lateSubmitView.hasOwn "events" = false :=
  ⟨rfl, by decide, by decide, by decide⟩

/-- A snapshot on which line 17 throws ends the subscription: the error is handed to the
subscriber, nothing is handed over, and the snapshot emitted after it is never passed
to the rewriter. -/
theorem shadowing_snapshot_ends_subscription :
    (subscribeMapped submitView (doubleSource (.observable 0)) shadowingHeap).failed
      = some .typeError ∧
    (subscribeMapped submitView (doubleSource (.observable 0)) shadowingHeap).received = [] ∧
    (subscribeMapped submitView (doubleSource (.observable 0)) shadowingHeap).heap 1
      = shadowingHeap 1 :=
  ⟨rfl, rfl, rfl⟩
/-! ## Lemmas on the rewriter on a store -/

theorem writtenDescriptor_congr (st st2 : Store) (va d : Nat) (h1 : st2 d = st d)
    (h2 : st2 va = st va) : writtenDescriptor st2 va d = writtenDescriptor st va d := by
  simp [writtenDescriptor, h1, h2]

theorem storeEffect_throw (va : Nat) (ds : List Nat) (st : Store) (e : JsError) :
    StoreEffect va ds st (st, some e) :=
  ⟨fun _ _ => rfl, fun _ _ => ⟨fun _ _ => Or.inl rfl, fun h => by simp at h⟩⟩

theorem storeEffect_nil (va : Nat) (st : Store) (r : Option JsError) :
    StoreEffect va [] st (st, r) :=
  ⟨fun _ _ => rfl, fun _ _ => ⟨fun _ hd => by simp at hd, fun _ _ hd => by simp at hd⟩⟩

theorem storeEffect_write (va d : Nat) (st : Store) :
    StoreEffect va [d] st (storeWrite st d (writtenDescriptor st va d), none) := by
  refine ⟨?_, fun _ _ => ⟨?_, fun _ => ?_⟩⟩
  · intro a ha
    have : a ≠ d := by simpa using ha
    simp [storeWrite, this]
  · intro x hx
    have : x = d := by simpa using hx
    subst this
    exact Or.inr (by simp [storeWrite])
  · intro x hx
    have : x = d := by simpa using hx
    subst this
    simp [storeWrite]

/-- Two runs in sequence, the second starting only when the first has not thrown. -/
theorem storeEffect_seq (va : Nat) (ds1 ds2 : List Nat) (st : Store)
    (r1 r2 r : Store × Option JsError)
    (h1 : StoreEffect va ds1 st r1)
    (h2 : r1.2 = none → StoreEffect va ds2 r1.1 r2)
    (hsome : ∀ e, r1.2 = some e → r = (r1.1, some e))
    (hnone : r1.2 = none → r = r2) :
    StoreEffect va (ds1 ++ ds2) st r := by
  obtain ⟨f1, g1⟩ := h1
  cases hr : r1.2 with
  | some e =>
    rw [hsome e hr]
    refine ⟨fun a ha => f1 a (fun hm => ha (List.mem_append_left _ hm)), ?_⟩
    intro hnd hva
    have hnd1 : ds1.Nodup := (List.nodup_append.1 hnd).1
    have hva1 : va ∉ ds1 := fun hm => hva (List.mem_append_left _ hm)
    refine ⟨?_, fun h => by simp at h⟩
    intro d hd
    by_cases hd1 : d ∈ ds1
    · exact (g1 hnd1 hva1).1 d hd1
    · exact Or.inl (f1 d hd1)
  | none =>
    rw [hnone hr]
    obtain ⟨f2, g2⟩ := h2 hr
    refine ⟨?_, ?_⟩
    · intro a ha
      rw [f2 a (fun hm => ha (List.mem_append_right _ hm)),
        f1 a (fun hm => ha (List.mem_append_left _ hm))]
    · intro hnd hva
      obtain ⟨hnd1, hnd2, hdis⟩ := List.nodup_append.1 hnd
      have hva1 : va ∉ ds1 := fun hm => hva (List.mem_append_left _ hm)
      have hva2 : va ∉ ds2 := fun hm => hva (List.mem_append_right _ hm)
      have hview : r1.1 va = st va := f1 va hva1
      have key : ∀ d ∈ ds1 ++ ds2,
          (r2.1 d = st d ∨ r2.1 d = writtenDescriptor st va d) ∧
          (r2.2 = none → r2.1 d = writtenDescriptor st va d) := by
        intro d hd
        by_cases hd1 : d ∈ ds1
        · have hd2 : d ∉ ds2 := fun hm => hdis hd1 hm
          rw [f2 d hd2]
          exact ⟨(g1 hnd1 hva1).1 d hd1, fun _ => (g1 hnd1 hva1).2 hr d hd1⟩
        · have hd2 : d ∈ ds2 := by
            rcases List.mem_append.1 hd with e | e
            · exact absurd e hd1
            · exact e
          have hsame := writtenDescriptor_congr st r1.1 va d (f1 d hd1) hview
          constructor
          · rcases (g2 hnd2 hva2).1 d hd2 with e | e
            · exact Or.inl (e.trans (f1 d hd1))
            · exact Or.inr (e.trans hsame)
          · intro hn
            exact ((g2 hnd2 hva2).2 hn d hd2).trans hsame
      exact ⟨fun d hd => (key d hd).1, fun hn d hd => (key d hd).2 hn⟩

theorem rewriteHooksInStore_effect (va : Nat) (hooks : List (String × Nat)) :
    ∀ (rest : List (String × Nat)) (st : Store), (∀ kd ∈ rest, kd ∈ hooks) →
      StoreEffect va (rest.map (fun kd => kd.2)) st (rewriteHooksInStore va hooks rest st)
  | [], st, _ => storeEffect_nil va st none
  | (key, d) :: rest, st, hsub => by
    have hsub2 : ∀ kd ∈ rest, kd ∈ hooks := fun kd hm => hsub kd (List.mem_cons_of_mem _ hm)
    cases ho : ownsHasOwnProperty hooks with
    | true =>
      have hk := hasOwnPropertyCall_of_owns hooks key ho
      simp only [rewriteHooksInStore, hk]
      exact storeEffect_throw va _ st _
    | false =>
      have hk := hasOwnPropertyCall_of_mem hooks key d ho (hsub _ (List.mem_cons_self _ _))
      simp only [rewriteHooksInStore, hk, List.map_cons]
      exact storeEffect_seq va [d] (rest.map (fun kd => kd.2)) st
        (storeWrite st d (writtenDescriptor st va d), none) _ _
        (storeEffect_write va d st)
        (fun _ => rewriteHooksInStore_effect va hooks rest _ hsub2)
        (fun e he => by simp at he) (fun _ => rfl)

mutual
/-- The effect of the rewriter on a store, by induction on the tree. -/
theorem replaceInStore_effect (va : Nat) :
    ∀ (t : RefTree) (st : Store), StoreEffect va (descriptorsOf t) st (replaceInStore t va st)
  | .node none children, st => by
    simp only [replaceInStore, descriptorsOf, List.nil_append]
    exact replaceKidsInStore_effect va children st
  | .node (some hs) children, st => by
    simp only [descriptorsOf]
    refine storeEffect_seq va _ _ st (rewriteHooksInStore va hs hs st)
      (replaceKidsInStore children va (rewriteHooksInStore va hs hs st).1) _
      (rewriteHooksInStore_effect va hs hs st (fun _ hm => hm))
      (fun _ => replaceKidsInStore_effect va children _) ?_ ?_
    · intro e he
      simp only [replaceInStore, he]
    · intro he
      simp only [replaceInStore, he]
theorem replaceKidsInStore_effect (va : Nat) :
    ∀ (k : Kids RefTree) (st : Store),
      StoreEffect va (descriptorsOfKids k) st (replaceKidsInStore k va st)
  | .array cs, st => by
    simp only [replaceKidsInStore, descriptorsOfKids]
    exact replaceEachInStore_effect va cs st
  | .single _, st => storeEffect_nil va st none
  | .other _, st => storeEffect_nil va st none
theorem replaceEachInStore_effect (va : Nat) :
    ∀ (cs : List RefTree) (st : Store),
      StoreEffect va (descriptorsOfList cs) st (replaceEachInStore cs va st)
  | [], st => storeEffect_nil va st none
  | c :: cs, st => by
    simp only [descriptorsOfList]
    refine storeEffect_seq va _ _ st (replaceInStore c va st)
      (replaceEachInStore cs va (replaceInStore c va st).1) _
      (replaceInStore_effect va c st)
      (fun _ => replaceEachInStore_effect va cs _) ?_ ?_
    · intro e he
      simp only [replaceEachInStore, he]
    · intro he
      simp only [replaceEachInStore, he]
end
/-! ## The rewriter on a store and the rewriter on a tree of values -/

theorem remove_assign_same (k : String) (v : Val) :
    ∀ l : List (String × Val), remove k (assign k v l) = remove k l
  | [] => by simp [assign, remove]
  | (k1, v1) :: rest => by
    by_cases h : k1 = k
    · simp [assign, remove, h]
    · simp [assign, remove, h, remove_assign_same k v rest]

mutual
theorem descriptorsOf_subset :
    ∀ (t : RefTree) (a : Nat), a ∈ descriptorsOf t → a ∈ allDescriptorsOf t
  | .node hooks children, a, h => by
    simp only [descriptorsOf, allDescriptorsOf, List.mem_append] at h ⊢
    rcases h with h | h
    · exact Or.inl h
    · exact Or.inr (descriptorsOfKids_subset children a h)
theorem descriptorsOfKids_subset :
    ∀ (k : Kids RefTree) (a : Nat), a ∈ descriptorsOfKids k → a ∈ allDescriptorsOfKids k
  | .array cs, a, h => by
    simp only [descriptorsOfKids, allDescriptorsOfKids] at h ⊢
    exact descriptorsOfList_subset cs a h
  | .single _, a, h => by simp [descriptorsOfKids] at h
  | .other _, a, h => by simp [descriptorsOfKids] at h
theorem descriptorsOfList_subset :
    ∀ (cs : List RefTree) (a : Nat), a ∈ descriptorsOfList cs → a ∈ allDescriptorsOfList cs
  | [], a, h => by simp [descriptorsOfList] at h
  | c :: cs, a, h => by
    simp only [descriptorsOfList, allDescriptorsOfList, List.mem_append] at h ⊢
    rcases h with h | h
    · exact Or.inl (descriptorsOf_subset c a h)
    · exact Or.inr (descriptorsOfList_subset cs a h)
end

theorem materialiseHooks_congr (st st2 : Store) (hs : List (String × Nat))
    (h : ∀ a ∈ hs.map (fun kd => kd.2), st2 a = st a) :
    materialiseHooks st2 hs = materialiseHooks st hs := by
  unfold materialiseHooks
  apply List.map_congr_left
  intro kd hkd
  rw [h kd.2 (List.mem_map.2 ⟨kd, hkd, rfl⟩)]

mutual
/-- The tree of values depends on the store through the descriptors of the tree only. -/
theorem materialise_congr (st st2 : Store) :
    ∀ t : RefTree, (∀ a ∈ allDescriptorsOf t, st2 a = st a) →
      materialise st2 t = materialise st t
  | .node none children, h => by
    simp only [materialise]
    rw [materialiseKids_congr st st2 children
      (fun a ha => h a (by simp [allDescriptorsOf, ha]))]
  | .node (some hs) children, h => by
    simp only [materialise]
    rw [materialiseKids_congr st st2 children
        (fun a ha => h a (by simp [allDescriptorsOf, ha])),
      materialiseHooks_congr st st2 hs
        (fun a ha => h a (by
          simp only [allDescriptorsOf, List.mem_append]
          exact Or.inl ha))]
theorem materialiseKids_congr (st st2 : Store) :
    ∀ k : Kids RefTree, (∀ a ∈ allDescriptorsOfKids k, st2 a = st a) →
      materialiseKids st2 k = materialiseKids st k
  | .array cs, h => by
    simp only [materialiseKids]
    rw [materialiseList_congr st st2 cs (fun a ha => h a (by simpa [allDescriptorsOfKids] using ha))]
  | .single c, h => by
    simp only [materialiseKids]
    rw [materialise_congr st st2 c (fun a ha => h a (by simpa [allDescriptorsOfKids] using ha))]
  | .other _, _ => rfl
theorem materialiseList_congr (st st2 : Store) :
    ∀ cs : List RefTree, (∀ a ∈ allDescriptorsOfList cs, st2 a = st a) →
      materialiseList st2 cs = materialiseList st cs
  | [], _ => rfl
  | c :: cs, h => by
    simp only [materialiseList]
    rw [materialise_congr st st2 c (fun a ha => h a (by simp [allDescriptorsOfList, ha])),
      materialiseList_congr st st2 cs (fun a ha => h a (by simp [allDescriptorsOfList, ha]))]
end

theorem ownsHasOwnProperty_materialise (st : Store) (hs : List (String × Nat)) :
    ownsHasOwnProperty (materialiseHooks st hs) = ownsHasOwnProperty hs := by
  unfold ownsHasOwnProperty materialiseHooks
  induction hs with
  | nil => rfl
  | cons kd rest ih => simp only [List.map_cons, List.any_cons, ih]

theorem rewriteHooksInStore_of_owns (va : Nat) (hs : List (String × Nat)) (st : Store)
    (h : ownsHasOwnProperty hs = true) :
    rewriteHooksInStore va hs hs st = (st, some .typeError) := by
  cases hs with
  | nil => simp [ownsHasOwnProperty] at h
  | cons kd rest =>
    obtain ⟨key, d⟩ := kd
    simp [rewriteHooksInStore, hasOwnPropertyCall_of_owns _ key h]

theorem rewriteHooksInStore_returns (va : Nat) (hooks : List (String × Nat))
    (h : ownsHasOwnProperty hooks = false) :
    ∀ (rest : List (String × Nat)) (st : Store), (∀ kd ∈ rest, kd ∈ hooks) →
      (rewriteHooksInStore va hooks rest st).2 = none
  | [], _, _ => rfl
  | (key, d) :: rest, st, hsub => by
    have hk := hasOwnPropertyCall_of_mem hooks key d h (hsub _ (List.mem_cons_self _ _))
    simp only [rewriteHooksInStore, hk]
    exact rewriteHooksInStore_returns va hooks h rest _
      (fun kd hm => hsub kd (List.mem_cons_of_mem _ hm))

/-- Lines 16-25 on a store and on the entries the store holds: the same entries after,
and the same exception. -/
theorem rewriteHooks_materialise (va : Nat) (st : Store) (hs : List (String × Nat))
    (hnd : (hs.map (fun kd => kd.2)).Nodup) (hva : va ∉ hs.map (fun kd => kd.2)) :
    rewriteHooks (st va) (materialiseHooks st hs) =
      (materialiseHooks (rewriteHooksInStore va hs hs st).1 hs,
        (rewriteHooksInStore va hs hs st).2) := by
  cases ho : ownsHasOwnProperty hs with
  | true =>
    rw [rewriteHooksInStore_of_owns va hs st ho,
      rewriteHooks_of_owns _ _ (by rw [ownsHasOwnProperty_materialise, ho])]
  | false =>
    have hret := rewriteHooksInStore_returns va hs ho hs st (fun _ hm => hm)
    obtain ⟨-, g⟩ := rewriteHooksInStore_effect va hs hs st (fun _ hm => hm)
    have hw := (g hnd hva).2 hret
    rw [rewriteHooks_of_not_owns _ _ (by rw [ownsHasOwnProperty_materialise, ho]), hret]
    congr 1
    unfold rewriteAll materialiseHooks
    rw [List.map_map]
    apply List.map_congr_left
    intro kd hkd
    rw [hw kd.2 (List.mem_map.2 ⟨kd, hkd, rfl⟩)]
    simp [writtenDescriptor, Obj.put, Obj.get, lookup_assign, remove_assign_same]

mutual
/-- The rewriter on a store leaves the store that holds the tree the rewriter on values
leaves, and ends with the same exception, when no descriptor object occurs twice in the
tree and the view is none of them. -/
theorem replaceInStore_materialise (va : Nat) :
    ∀ (t : RefTree) (st : Store), (allDescriptorsOf t).Nodup → va ∉ allDescriptorsOf t →
      replaceStreamNameWithForwardFunction (materialise st t) (st va) =
        (materialise (replaceInStore t va st).1 t, (replaceInStore t va st).2)
  | .node none children, st, hnd, hva => by
    simp only [allDescriptorsOf, List.nil_append] at hnd hva
    simp only [materialise, replaceStreamNameWithForwardFunction, replaceInStore]
    rw [replaceKidsInStore_materialise va children st hnd hva]
  | .node (some hs) children, st, hnd, hva => by
    simp only [allDescriptorsOf] at hnd hva
    obtain ⟨hnd1, hnd2, hdis⟩ := List.nodup_append.1 hnd
    have hva1 : va ∉ hs.map (fun kd => kd.2) := fun hm => hva (List.mem_append_left _ hm)
    have hva2 : va ∉ allDescriptorsOfKids children :=
      fun hm => hva (List.mem_append_right _ hm)
    have hh := rewriteHooks_materialise va st hs hnd1 hva1
    obtain ⟨f1, -⟩ := rewriteHooksInStore_effect va hs hs st (fun _ hm => hm)
    have hk1 : materialiseKids (rewriteHooksInStore va hs hs st).1 children
        = materialiseKids st children :=
      materialiseKids_congr st _ children (fun a ha => f1 a (fun hm => hdis hm ha))
    cases he : (rewriteHooksInStore va hs hs st).2 with
    | some e =>
      simp only [materialise, replaceStreamNameWithForwardFunction, replaceInStore, hh, he, hk1]
    | none =>
      have ih := replaceKidsInStore_materialise va children
        (rewriteHooksInStore va hs hs st).1 hnd2 hva2
      rw [hk1, f1 va hva1] at ih
      obtain ⟨f2, -⟩ := replaceKidsInStore_effect va children (rewriteHooksInStore va hs hs st).1
      have hh2 : materialiseHooks
          (replaceKidsInStore children va (rewriteHooksInStore va hs hs st).1).1 hs
          = materialiseHooks (rewriteHooksInStore va hs hs st).1 hs :=
        materialiseHooks_congr _ _ hs (fun a ha => f2 a
          (fun hm => hdis ha (descriptorsOfKids_subset children a hm)))
      simp only [materialise, replaceStreamNameWithForwardFunction, replaceInStore, hh, he, ih,
        hh2]
theorem replaceKidsInStore_materialise (va : Nat) :
    ∀ (k : Kids RefTree) (st : Store), (allDescriptorsOfKids k).Nodup →
      va ∉ allDescriptorsOfKids k →
      replaceInChildren (materialiseKids st k) (st va) =
        (materialiseKids (replaceKidsInStore k va st).1 k, (replaceKidsInStore k va st).2)
  | .array cs, st, hnd, hva => by
    simp only [allDescriptorsOfKids] at hnd hva
    simp only [materialiseKids, replaceInChildren, replaceKidsInStore]
    rw [replaceEachInStore_materialise va cs st hnd hva]
  | .single _, _, _, _ => rfl
  | .other _, _, _, _ => rfl
theorem replaceEachInStore_materialise (va : Nat) :
    ∀ (cs : List RefTree) (st : Store), (allDescriptorsOfList cs).Nodup →
      va ∉ allDescriptorsOfList cs →
      replaceEach (materialiseList st cs) (st va) =
        (materialiseList (replaceEachInStore cs va st).1 cs, (replaceEachInStore cs va st).2)
  | [], _, _, _ => rfl
  | c :: cs, st, hnd, hva => by
    simp only [allDescriptorsOfList] at hnd hva
    obtain ⟨hnd1, hnd2, hdis⟩ := List.nodup_append.1 hnd
    have hva1 : va ∉ allDescriptorsOf c := fun hm => hva (List.mem_append_left _ hm)
    have hva2 : va ∉ allDescriptorsOfList cs := fun hm => hva (List.mem_append_right _ hm)
    have hc := replaceInStore_materialise va c st hnd1 hva1
    obtain ⟨f1, -⟩ := replaceInStore_effect va c st
    have hk1 : materialiseList (replaceInStore c va st).1 cs = materialiseList st cs :=
      materialiseList_congr st _ cs
        (fun a ha => f1 a (fun hm => hdis (descriptorsOf_subset c a hm) ha))
    cases he : (replaceInStore c va st).2 with
    | some e =>
      simp only [materialiseList, replaceEach, replaceEachInStore, hc, he, hk1]
    | none =>
      have ih := replaceEachInStore_materialise va cs (replaceInStore c va st).1 hnd2 hva2
      rw [hk1, f1 va (fun hm => hva1 (descriptorsOf_subset c va hm))] at ih
      obtain ⟨f2, -⟩ := replaceEachInStore_effect va cs (replaceInStore c va st).1
      have hc2 : materialise (replaceEachInStore cs va (replaceInStore c va st).1).1 c
          = materialise (replaceInStore c va st).1 c :=
        materialise_congr _ _ c (fun a ha => f2 a
          (fun hm => hdis ha (descriptorsOfList_subset cs a hm)))
      simp only [materialiseList, replaceEach, replaceEachInStore, hc, he, ih, hc2]
end
/-! ## Claims -/

/-- C1, at the failing input: the tree `{hooks: {hasOwnProperty: {value: 'submit$'}}}` is
well formed, and on it line 17 reads the hook descriptor as `vtree.hooks.hasOwnProperty`
and calls it: the rewriter throws a `TypeError` before any write, and the hook's value
is left the string `submit$`, which is not callable. -/
theorem shadowing_hook_stays_string :
    wellFormed shadowingTree = true ∧
    replaceStreamNameWithForwardFunction shadowingTree submitView
      = (shadowingTree, some .typeError) ∧
    hookValues (replaceStreamNameWithForwardFunction shadowingTree submitView).1
      = [.str "submit$"] ∧
    isCallable (.str "submit$") = false ∧ isString (.str "submit$") = true :=
  ⟨by decide, rfl, by decide, by decide, by decide⟩

/-- C6: for every tree and view, the rewriter changes nothing but the `value` of hook
descriptors, whether it returns or throws: the tree with its hook values blanked (nodes,
order of children, hook keys at each node, every other field) is the same before and
after, and so is the number of nodes; a node with no `hooks` field whose `children` is
not an array is returned as it is, with whatever lies beneath it. -/
theorem rewriter_frame (t : VTree) (view : Obj) :
    skeleton (replaceStreamNameWithForwardFunction t view).1 = skeleton t ∧
    nodeCount (replaceStreamNameWithForwardFunction t view).1 = nodeCount t ∧
    (∀ props c, replaceStreamNameWithForwardFunction (.node props none (.single c)) view
      = (.node props none (.single c), none)) ∧
    (∀ props x, replaceStreamNameWithForwardFunction (.node props none (.other x)) view
      = (.node props none (.other x), none)) := by
  refine ⟨skeleton_replace view t, ?_, fun _ _ => rfl, fun _ _ => rfl⟩
  rw [← nodeCount_skeleton (replaceStreamNameWithForwardFunction t view).1,
    skeleton_replace view t, nodeCount_skeleton t]

/-- C7, as stated, fails: a function value is read as a field name through its source
text, so on a view that holds a channel under the source text of `noop` the second pass
turns a no-op hook into a forwarding function, and on one that holds a channel under the
source text of `forwardIntoStream` a forwarding hook still forwards after the second
pass. -/
theorem second_pass_counterexample :
    hookValues (replaceStreamNameWithForwardFunction
      (treeWithOneHook "ev-click" "typo$") sourceKeyView).1 = [.noop] ∧
    hookValues (replaceStreamNameWithForwardFunction (replaceStreamNameWithForwardFunction
      (treeWithOneHook "ev-click" "typo$") sourceKeyView).1 sourceKeyView).1
        = [.forwardIntoStream (.subject 1)] ∧
    hookValues (replaceStreamNameWithForwardFunction
      (treeWithOneHook "ev-click" "submit$") sourceKeyView).1
        = [.forwardIntoStream (.subject 0)] ∧
    hookValues (replaceStreamNameWithForwardFunction (replaceStreamNameWithForwardFunction
      (treeWithOneHook "ev-click" "submit$") sourceKeyView).1 sourceKeyView).1
        = [.forwardIntoStream (.subject 2)] :=
  ⟨by decide, by decide, by decide, by decide⟩

/-- C7, amended: for every well-formed tree on which the rewriter returns and every view
with no truthy field named by the source text of `noop` or of `forwardIntoStream`, a
second run of the rewriter on the rewritten tree returns too, and after it every hook
value is the no-op, so invoking it publishes nothing; the hooks are as many as before. -/
theorem second_pass_noop (view : Obj)
    (h1 : truthy (view.get noopSource) = false)
    (h2 : truthy (view.get forwardSource) = false)
    (t : VTree) (hwf : wellFormed t = true)
    (hret : (replaceStreamNameWithForwardFunction t view).2 = none) :
    (replaceStreamNameWithForwardFunction
      (replaceStreamNameWithForwardFunction t view).1 view).2 = none ∧
    (hookValues (replaceStreamNameWithForwardFunction
      (replaceStreamNameWithForwardFunction t view).1 view).1).length
        = (hookValues t).length ∧
    ∀ v ∈ hookValues (replaceStreamNameWithForwardFunction
        (replaceStreamNameWithForwardFunction t view).1 view).1,
      v = .noop ∧ ∀ e log, call v e log = some (.ok log) := by
  have hs : shadowsHasOwnProperty t = false := by
    rw [replace_error] at hret
    cases h : shadowsHasOwnProperty t with
    | true => simp [h] at hret
    | false => rfl
  have hs2 : shadowsHasOwnProperty (replaceStreamNameWithForwardFunction t view).1 = false := by
    rw [shadows_replace, hs]
  have hwf2 : wellFormed (replaceStreamNameWithForwardFunction t view).1 = true := by
    rw [wellFormed_replace, hwf]
  rw [hookValues_replace view _ hwf2 hs2, hookValues_replace view t hwf hs]
  refine ⟨replace_returns view _ hs2, by simp, ?_⟩
  intro v hv
  simp only [List.map_map, List.mem_map, Function.comp] at hv
  obtain ⟨s, -, rfl⟩ := hv
  rw [rewriteValue_twice view h1 h2 s]
  exact ⟨rfl, fun _ _ => rfl⟩

/-- Witness of C7: the two-level tree and the view with the channel `submit$`. -/
theorem second_pass_noop_witness :
    (replaceStreamNameWithForwardFunction
      (replaceStreamNameWithForwardFunction nestedTree submitView).1 submitView).2 = none ∧
    (hookValues (replaceStreamNameWithForwardFunction
      (replaceStreamNameWithForwardFunction nestedTree submitView).1 submitView).1).length
        = (hookValues nestedTree).length ∧
    ∀ v ∈ hookValues (replaceStreamNameWithForwardFunction
        (replaceStreamNameWithForwardFunction nestedTree submitView).1 submitView).1,
      v = .noop ∧ ∀ e log, call v e log = some (.ok log) :=
  second_pass_noop submitView (by decide) (by decide) nestedTree (by decide) rfl

/-- C10, as stated, fails: the view has a field named `flag`, whose value is `false`,
and the hook naming `flag` is given the no-op, not a forwarding function. -/
theorem field_presence_counterexample :
    flagView.hasOwn "flag" = true ∧
    replaceStreamNameWithForwardFunction (treeWithOneHook "ev-click" "flag") flagView
      = (.node [("tagName", .str "button")] (some [("ev-click", ⟨.noop, []⟩)]) (.array []),
          none) ∧
    hookValues (replaceStreamNameWithForwardFunction
      (treeWithOneHook "ev-click" "flag") flagView).1 = [.noop] :=
  ⟨by decide, rfl, by decide⟩

/-- C10, amended: for every tree on which the rewriter returns, every view and every hook
descriptor, at whatever node the rewriter reaches, that holds the symbolic name `s`: the
rewriter sets the hook's value to a forwarding function into `view[s]` if and only if
the value read as `view[s]` is truthy, and to the no-op otherwise; a name under which
the view has no field, own or inherited, gives the no-op. -/
theorem forwards_iff_truthy (t : VTree) (view : Obj)
    (hret : (replaceStreamNameWithForwardFunction t view).2 = none)
    (i : Nat) (s : String) (hi : (reachedHookValues t)[i]? = some (.str s)) :
    ((reachedHookValues (replaceStreamNameWithForwardFunction t view).1)[i]?
        = some (.forwardIntoStream (view.get s)) ↔ truthy (view.get s) = true) ∧
    ((reachedHookValues (replaceStreamNameWithForwardFunction t view).1)[i]?
        = some .noop ↔ truthy (view.get s) = false) ∧
    (view.hasOwn s = false → lookup s view.proto = none →
      (reachedHookValues (replaceStreamNameWithForwardFunction t view).1)[i]?
        = some .noop) := by
  have hs : shadowsHasOwnProperty t = false := by
    rw [replace_error] at hret
    cases h : shadowsHasOwnProperty t with
    | true => simp [h] at hret
    | false => rfl
  have hval : (reachedHookValues (replaceStreamNameWithForwardFunction t view).1)[i]?
      = some (rewriteValue view (.str s)) := by
    rw [reachedHookValues_replace view t hs]
    simp [List.getElem?_map, hi]
  rw [hval]
  obtain ⟨e1, e2⟩ := rewriteValue_str view s
  refine ⟨by simpa using e1, by simpa using e2, ?_⟩
  intro ho hpr
  have ho2 : lookup s view.own = none := by
    simpa [Obj.hasOwn] using ho
  have : truthy (view.get s) = false := by
    simp [Obj.get, ho2, hpr, truthy]
  simpa using e2.mpr this

/-- Witness of C10: the root hook of the two-level tree names the channel `submit$`. -/
theorem forwards_iff_truthy_witness :
    ((reachedHookValues (replaceStreamNameWithForwardFunction nestedTree submitView).1)[0]?
        = some (.forwardIntoStream (submitView.get "submit$"))
          ↔ truthy (submitView.get "submit$") = true) ∧
    ((reachedHookValues (replaceStreamNameWithForwardFunction nestedTree submitView).1)[0]?
        = some .noop ↔ truthy (submitView.get "submit$") = false) ∧
    (submitView.hasOwn "submit$" = false → lookup "submit$" submitView.proto = none →
      (reachedHookValues (replaceStreamNameWithForwardFunction nestedTree submitView).1)[0]?
        = some .noop) :=
  forwards_iff_truthy nestedTree submitView rfl 0 "submit$" rfl

/-- C12, at the failing input: a root whose first child has a hook keyed `hasOwnProperty`
and whose second child has a hook naming `submit$`.  The rewriter is called on the root
and on the first child, where line 17 throws; the second child, which is reachable
through the array, is never called on, and its hook is left a string. -/
theorem shadowing_child_stops_traversal :
    (replaceTraced shadowingFirstChild submitView []).1
      = replaceStreamNameWithForwardFunction shadowingFirstChild submitView ∧
    (replaceStreamNameWithForwardFunction shadowingFirstChild submitView).2
      = some .typeError ∧
    (replaceTraced shadowingFirstChild submitView []).2 = [[], [0]] ∧
    (nodeAt shadowingFirstChild [1]).isSome = true ∧
    [1] ∉ (replaceTraced shadowingFirstChild submitView []).2 ∧
    hookValues (replaceStreamNameWithForwardFunction shadowingFirstChild submitView).1
      = [.str "submit$", .str "submit$"] :=
  ⟨rfl, rfl, by decide, by decide, by decide, by decide⟩


/-- C2, as stated, fails.  With `events = ['clone']` line 50 replaces the channel by the
clone closure, and with `events = ['vtree$']` line 45 replaces it by the derived
observable: the hook forwards into a value without `onNext` and invoking it throws.
With `events = ['a', 'events']` the write of `events` replaces the declaration before
`a` is read, and with `events = ['events']` the channel is deleted on line 43: the view
has no channel under the declared name and the hook is the no-op, which publishes
nothing. -/
theorem forward_declared_counterexample :
    defineView sampleMembers emptyInterface (declaring ["clone"]) 0 = .ok (bareView, 1) ∧
    reachedHookValues (replaceStreamNameWithForwardFunction
      (treeWithOneHook "ev-click" "clone") bareView).1 = [.forwardIntoStream .cloneFn] ∧
    call (.forwardIntoStream .cloneFn) clickEvent [] = some (.error .typeError) ∧
    defineView sampleMembers emptyInterface (declaring ["vtree$"]) 0
      = .ok (vtreeNamedView, 1) ∧
    reachedHookValues (replaceStreamNameWithForwardFunction
      (treeWithOneHook "ev-click" "vtree$") vtreeNamedView).1
        = [.forwardIntoStream (.mapped (.subject 0))] ∧
    call (.forwardIntoStream (.mapped (.subject 0))) clickEvent []
      = some (.error .typeError) ∧
    defineView sampleMembers emptyInterface (declaring ["a", "events"]) 0
      = .ok (shadowedView, 2) ∧
    reachedHookValues (replaceStreamNameWithForwardFunction
      (treeWithOneHook "ev-click" "a") shadowedView).1 = [.noop] ∧
    defineView sampleMembers emptyInterface (declaring ["events"]) 0 = .ok (bareView, 1) ∧
    reachedHookValues (replaceStreamNameWithForwardFunction
      (treeWithOneHook "ev-click" "events") bareView).1 = [.noop] ∧
    call .noop clickEvent [] = some (.ok []) :=
  ⟨rfl, by decide, rfl, rfl, by decide, rfl, rfl, by decide, rfl, by decide, rfl⟩

/-- C2, amended: let `defineView` return the view `v` on a definition whose result
declares the names `E`, a Subject being an object that inherits the accessor `__proto__`.
For every name `n` that the loop writes (the names declared after the last `events`
entry, all of `E` when `events` is not declared) other than `vtree$` and `clone`, and
every hook naming `n` in a tree on which the rewriter returns: `v[n]` is a Subject
created by this call, the rewritten hook value is the forwarding function into it, and
invoking that with an event `e` returns, with exactly one publish of `e` on `v[n]`, seen
by a subscriber registered beforehand, and no publish on any other channel. -/
theorem forward_declared (m : Members)
    (hmem : ∀ id, (lookup "__proto__" (m (.subject id))).isSome = true)
    (mi : Obj) (f : Obj → Obj) (n0 : Nat) (E : List String)
    (hev : lookup "events" (f mi).own = some (.names E))
    (v : Obj) (n1 : Nat) (h : defineView m mi f n0 = .ok (v, n1))
    (n : String) (hn : n ∈ writtenNames E) (hn1 : n ≠ "vtree$") (hn2 : n ≠ "clone")
    (t : VTree) (hret : (replaceStreamNameWithForwardFunction t v).2 = none)
    (i : Nat) (hi : (reachedHookValues t)[i]? = some (.str n)) (e : Val) (log : Log) :
    ∃ id, n0 ≤ id ∧ id < n1 ∧ v.get n = .subject id ∧
      (reachedHookValues (replaceStreamNameWithForwardFunction t v).1)[i]?
        = some (.forwardIntoStream (.subject id)) ∧
      call (.forwardIntoStream (.subject id)) e log = some (.ok (log ++ [(id, e)])) ∧
      observed id (log ++ [(id, e)]) = observed id log ++ [e] ∧
      ∀ c, c ≠ id → observed c (log ++ [(id, e)]) = observed c log := by
  have hs : shadowsHasOwnProperty t = false := by
    rw [replace_error] at hret
    cases hsh : shadowsHasOwnProperty t with
    | true => simp [hsh] at hret
    | false => rfl
  obtain ⟨hn0, -, -, -, -, -, -⟩ := defineView_declared m mi f n0 E hev v n1 h
  have hget := (defineView_channel m hmem mi f n0 E hev v n1 h n hn hn1 hn2).1
  have hlt := channelNumber_lt E n hn
  refine ⟨n0 + channelNumber E n, by omega, by omega, hget, ?_, rfl,
    observed_append_same _ e log, fun c hc => observed_append_other _ c e log hc⟩
  have hval : rewriteValue v (.str n) = .forwardIntoStream (.subject (n0 + channelNumber E n)) := by
    rw [← hget]
    exact (rewriteValue_str v n).1.mpr (by rw [hget]; rfl)
  rw [reachedHookValues_replace v t hs]
  simp [List.getElem?_map, hi, hval]

/-- Witness of C2, the scenario of the specification: `modelInterface = {}`, one hook
`ev-click` naming `submit$`, `events = ['submit$']`, and the payload `{type: 'click'}`. -/
theorem forward_declared_witness :
    ∃ id, 0 ≤ id ∧ id < 1 ∧ submitView.get "submit$" = .subject id ∧
      (reachedHookValues (replaceStreamNameWithForwardFunction
        (treeWithOneHook "ev-click" "submit$") submitView).1)[0]?
          = some (.forwardIntoStream (.subject id)) ∧
      call (.forwardIntoStream (.subject id)) clickEvent []
        = some (.ok ([] ++ [(id, clickEvent)])) ∧
      observed id ([] ++ [(id, clickEvent)]) = observed id [] ++ [clickEvent] ∧
      ∀ c, c ≠ id → observed c ([] ++ [(id, clickEvent)]) = observed c [] :=
  forward_declared sampleMembers (fun _ => rfl) emptyInterface (declaring ["submit$"]) 0
    ["submit$"] rfl submitView 1 rfl "submit$" (by decide) (by decide) (by decide)
    (treeWithOneHook "ev-click" "submit$") rfl 0 rfl clickEvent []

/-- C3, as stated, fails.  A hook naming `clone` or `vtree$` forwards into the clone
closure or the derived observable; one naming `toString`, which every object inherits,
forwards into that function; with `events = ['__proto__']` the Subject becomes the
prototype of the view and a hook naming `onNext` forwards into the inherited method:
invoking any of these throws.  With `events = ['a', 'events']` the view holds a channel
under `undefined`, and a hook naming `undefined` publishes on it. -/
theorem undeclared_noop_counterexample :
    defineView sampleMembers emptyInterface (declaring []) 0 = .ok (bareView, 0) ∧
    reachedHookValues (replaceStreamNameWithForwardFunction
      (treeWithOneHook "ev-click" "clone") bareView).1 = [.forwardIntoStream .cloneFn] ∧
    call (.forwardIntoStream .cloneFn) clickEvent [] = some (.error .typeError) ∧
    reachedHookValues (replaceStreamNameWithForwardFunction
      (treeWithOneHook "ev-click" "vtree$") bareView).1
        = [.forwardIntoStream (.mapped (.observable 0))] ∧
    call (.forwardIntoStream (.mapped (.observable 0))) clickEvent []
      = some (.error .typeError) ∧
    reachedHookValues (replaceStreamNameWithForwardFunction
      (treeWithOneHook "ev-click" "toString") bareView).1
        = [.forwardIntoStream (bareView.get "toString")] ∧
    isCallable (bareView.get "toString") = true ∧
    call (.forwardIntoStream (bareView.get "toString")) clickEvent []
      = some (.error .typeError) ∧
    defineView sampleMembers emptyInterface (declaring ["__proto__"]) 0
      = .ok (protoNamedView, 1) ∧
    reachedHookValues (replaceStreamNameWithForwardFunction
      (treeWithOneHook "ev-click" "onNext") protoNamedView).1
        = [.forwardIntoStream (protoNamedView.get "onNext")] ∧
    isCallable (protoNamedView.get "onNext") = true ∧
    call (.forwardIntoStream (protoNamedView.get "onNext")) clickEvent []
      = some (.error .typeError) ∧
    defineView sampleMembers emptyInterface (declaring ["a", "events"]) 0
      = .ok (shadowedView, 2) ∧
    reachedHookValues (replaceStreamNameWithForwardFunction
      (treeWithOneHook "ev-click" "undefined") shadowedView).1
        = [.forwardIntoStream (.subject 1)] ∧
    call (.forwardIntoStream (.subject 1)) clickEvent []
      = some (.ok [(1, clickEvent)]) :=
  ⟨rfl, by decide, rfl, by decide, rfl, by decide, by decide, rfl, rfl, by decide,
    by decide, rfl, rfl, by decide, rfl⟩

/-- C3, amended: let `defineView` return the view `v` on a definition whose result
declares the names `E`.  For every name `s` that the loop does not write, other than
`vtree$` and `clone`, that names no truthy field among the own fields of the
definition's result without `events` and the fields `v` inherits, and every hook naming
`s` in a tree on which the rewriter returns: the rewritten hook value is the no-op, and
invoking it with any event returns and publishes nothing.  What `v` inherits is what the
definition's result inherits, unless `__proto__` is declared after the last `events`
entry and the result runs its setter: then it is a Subject of this call. -/
theorem undeclared_noop (m : Members) (mi : Obj) (f : Obj → Obj) (n0 : Nat)
    (E : List String) (hev : lookup "events" (f mi).own = some (.names E))
    (v : Obj) (n1 : Nat) (h : defineView m mi f n0 = .ok (v, n1))
    (s : String) (hs : s ∉ writtenNames E) (hs1 : s ≠ "vtree$") (hs2 : s ≠ "clone")
    (hfalsy : truthy ((Obj.mk ((f mi).delete "events").own v.proto).get s) = false)
    (t : VTree) (hret : (replaceStreamNameWithForwardFunction t v).2 = none)
    (i : Nat) (hi : (reachedHookValues t)[i]? = some (.str s)) (e : Val) (log : Log) :
    (reachedHookValues (replaceStreamNameWithForwardFunction t v).1)[i]? = some .noop ∧
    call .noop e log = some (.ok log) ∧
    (("__proto__" ∈ afterLastEvents E → (f mi).runsProtoSetter = false) →
      v.proto = (f mi).proto) ∧
    (v.proto = (f mi).proto ∨
      ∃ id, n0 ≤ id ∧ id < n1 ∧ v.proto = inheritedThrough m (.subject id)) := by
  have hsh : shadowsHasOwnProperty t = false := by
    rw [replace_error] at hret
    cases hsh : shadowsHasOwnProperty t with
    | true => simp [hsh] at hret
    | false => rfl
  have hown := defineView_undeclared m mi f n0 E hev v n1 h s hs hs1 hs2
  have hget : v.get s = (Obj.mk ((f mi).delete "events").own v.proto).get s :=
    get_congr _ _ _ hown rfl
  obtain ⟨p1, p2⟩ := defineView_proto m mi f n0 E hev v n1 h
  refine ⟨?_, rfl, p1, p2⟩
  have hval : rewriteValue v (.str s) = .noop :=
    (rewriteValue_str v s).2.mpr (by rw [hget]; exact hfalsy)
  rw [reachedHookValues_replace v t hsh]
  simp [List.getElem?_map, hi, hval]

/-- Witness of C3: `events = ['submit$']` and a hook naming `typo$`. -/
theorem undeclared_noop_witness :
    (reachedHookValues (replaceStreamNameWithForwardFunction
      (treeWithOneHook "ev-click" "typo$") submitView).1)[0]? = some .noop ∧
    call .noop clickEvent [] = some (.ok []) ∧
    (("__proto__" ∈ afterLastEvents ["submit$"] →
        (declaring ["submit$"] emptyInterface).runsProtoSetter = false) →
      submitView.proto = (declaring ["submit$"] emptyInterface).proto) ∧
    (submitView.proto = (declaring ["submit$"] emptyInterface).proto ∨
      ∃ id, 0 ≤ id ∧ id < 1 ∧ submitView.proto = inheritedThrough sampleMembers (.subject id)) :=
  undeclared_noop sampleMembers emptyInterface (declaring ["submit$"]) 0 ["submit$"] rfl
    submitView 1 rfl "typo$" (by decide) (by decide) (by decide) (by decide)
    (treeWithOneHook "ev-click" "typo$") rfl 0 rfl clickEvent []

/-- C4, as stated, fails.  With `events = ['events']` the channel is deleted on line 43,
and with `events = ['a', 'events']` the write of `events` replaces the declaration
before `a` is read: the view has no channel under the declared name.  With
`events = ['clone']` and `events = ['vtree$']` lines 50 and 45 replace the channel.
With `events = ['__proto__']` no field is stored under the name: the Subject becomes
the prototype of the view.  And on a result that inherits an `events`, line 43 deletes
the own field only: the view still reads `events`. -/
theorem channels_created_counterexample :
    defineView sampleMembers emptyInterface (declaring ["events"]) 0 = .ok (bareView, 1) ∧
    bareView.get "events" = .undefined ∧
    defineView sampleMembers emptyInterface (declaring ["a", "events"]) 0
      = .ok (shadowedView, 2) ∧
    shadowedView.get "a" = .undefined ∧
    defineView sampleMembers emptyInterface (declaring ["clone"]) 0 = .ok (bareView, 1) ∧
    bareView.get "clone" = .cloneFn ∧
    defineView sampleMembers emptyInterface (declaring ["vtree$"]) 0
      = .ok (vtreeNamedView, 1) ∧
    vtreeNamedView.get "vtree$" = .mapped (.subject 0) ∧
    defineView sampleMembers emptyInterface (declaring ["__proto__"]) 0
      = .ok (protoNamedView, 1) ∧
    protoNamedView.hasOwn "__proto__" = false ∧
    protoNamedView.proto = inheritedThrough sampleMembers (.subject 0) ∧
    (defineView sampleMembers emptyInterface inheritingEvents 0).map
      (fun r => (r.1.hasOwn "events", r.1.get "events"))
        = .ok (false, .names ["old$"]) :=
  ⟨rfl, by decide, rfl, by decide, rfl, by decide, rfl, by decide, rfl, by decide, rfl,
    rfl⟩

/-- C4, amended: for every modelInterface and every definition function whose result
has an own `vtree$` with a `map` method and declares the names `E`, a Subject being an
object that inherits the accessor `__proto__`: `defineView` returns a view, having
created one Subject per entry of `E`; the view has no own field `events`, and no field
`events` at all when it inherits none; and each name that the loop writes (the names declared after the last `events` entry, all of `E` when
`events` is not declared) other than `vtree$` and `clone` reads as exactly one Subject
created by this call, which no other written name reads.  The Subject is stored as an
own field under the name, except under `__proto__` on a result that runs the setter. -/
theorem channels_created (m : Members)
    (hmem : ∀ id, (lookup "__proto__" (m (.subject id))).isSome = true)
    (mi : Obj) (f : Obj → Obj) (n0 : Nat) (E : List String)
    (hev : lookup "events" (f mi).own = some (.names E))
    (src d : Val) (hvt : lookup "vtree$" (f mi).own = some src) (hsrc : rxMap src = .ok d) :
    ∃ v, defineView m mi f n0 = .ok (v, n0 + E.length) ∧
      v.hasOwn "events" = false ∧
      (lookup "events" v.proto = none → v.get "events" = .undefined) ∧
      ∀ n ∈ writtenNames E, n ≠ "vtree$" → n ≠ "clone" →
        ∃ id, n0 ≤ id ∧ id < n0 + E.length ∧ v.get n = .subject id ∧
          ((n ≠ "__proto__" ∨ (f mi).runsProtoSetter = false) →
            lookup n v.own = some (.subject id)) ∧
          ∀ n2 ∈ writtenNames E, n2 ≠ n → v.get n2 ≠ .subject id := by
  obtain ⟨d2, hd2⟩ := written_vtree_maps m (f mi) n0 (afterLastEvents E).reverse src d hvt hsrc
  obtain ⟨v, hv⟩ := defineView_declared_returns m mi f n0 E hev d2 hd2
  obtain ⟨-, -, h3, -, -, -, -⟩ := defineView_declared m mi f n0 E hev v _ hv
  refine ⟨v, hv, by simp [Obj.hasOwn, h3], fun hp => by simp [Obj.get, h3, hp], ?_⟩
  intro n hn hn1 hn2
  obtain ⟨c1, c2⟩ := defineView_channel m hmem mi f n0 E hev v _ hv n hn hn1 hn2
  have hlt := channelNumber_lt E n hn
  exact ⟨n0 + channelNumber E n, by omega, by omega, c1, c2,
    fun n2 hn3 hne => defineView_channel_distinct m hmem mi f n0 E hev v _ hv n hn n2 hn3 hne⟩

/-- Witness of C4: `events = ['submit$']` on the model interface `{}`. -/
theorem channels_created_witness :
    ∃ v, defineView sampleMembers emptyInterface (declaring ["submit$"]) 0
        = .ok (v, 0 + ["submit$"].length) ∧
      v.hasOwn "events" = false ∧
      (lookup "events" v.proto = none → v.get "events" = .undefined) ∧
      ∀ n ∈ writtenNames ["submit$"], n ≠ "vtree$" → n ≠ "clone" →
        ∃ id, 0 ≤ id ∧ id < 0 + ["submit$"].length ∧ v.get n = .subject id ∧
          ((n ≠ "__proto__" ∨
              (declaring ["submit$"] emptyInterface).runsProtoSetter = false) →
            lookup n v.own = some (.subject id)) ∧
          ∀ n2 ∈ writtenNames ["submit$"], n2 ≠ n → v.get n2 ≠ .subject id :=
  channels_created sampleMembers (fun _ => rfl) emptyInterface (declaring ["submit$"]) 0
    ["submit$"] rfl (.observable 0) (.mapped (.observable 0)) rfl rfl

/-- C5: for every view returned by `defineView(modelInterface, definitionFn)`, calling
`view.clone()` is a fresh run of `defineView` with the same arguments, and every channel
the original holds that the definition's result did not itself supply is a different
Subject from the one the clone holds under the same name: an event published on either
is not observed on the other. -/
theorem clone_channels_distinct (m : Members) (mi : Obj) (f : Obj → Obj) (n0 n1 n2 : Nat)
    (v c : Obj) (h : defineView m mi f n0 = .ok (v, n1))
    (hc : callClone m mi f n1 = .ok (c, n2)) :
    lookup "clone" v.own = some .cloneFn ∧
    callClone m mi f n1 = defineView m mi f n1 ∧
    ∀ name a b, lookup name v.own = some (.subject a) →
      lookup name (f mi).own ≠ some (.subject a) →
      lookup name c.own = some (.subject b) →
        a ≠ b ∧ ∀ e log,
          onNext (.subject a) e log = .ok (log ++ [(a, e)]) ∧
          observed b (log ++ [(a, e)]) = observed b log ∧
          onNext (.subject b) e log = .ok (log ++ [(b, e)]) ∧
          observed a (log ++ [(b, e)]) = observed a log := by
  obtain ⟨cc, n, -, hf⟩ := defineView_steps m mi f n0 n1 v h
  obtain ⟨-, -, g3, -, -⟩ := finishView_fields m (cc, n) v n1 hf
  refine ⟨g3, rfl, ?_⟩
  intro name a b ha hnew hb
  have hab : a ≠ b := by
    rcases defineView_subject_origin m mi f n0 n1 v h name a ha with h1 | ⟨h1, h2⟩
    · exact absurd h1 hnew
    · rcases defineView_subject_origin m mi f n1 n2 c hc name b hb with h3 | ⟨h3, h4⟩
      · intro hab
        subst hab
        exact hnew h3
      · omega
  exact ⟨hab, fun e log => ⟨rfl, observed_append_other a b e log (Ne.symm hab), rfl,
    observed_append_other b a e log hab⟩⟩

/-- Witness of C5: the view for `events = ['submit$']` and its clone. -/
theorem clone_channels_distinct_witness :
    defineView sampleMembers emptyInterface (declaring ["submit$"]) 0
      = .ok (submitView, 1) ∧
    callClone sampleMembers emptyInterface (declaring ["submit$"]) 1
      = .ok (submitClone, 2) ∧
    lookup "submit$" submitView.own = some (.subject 0) ∧
    lookup "submit$" submitClone.own = some (.subject 1) ∧
    ((0 : Nat) ≠ 1 ∧ ∀ e log,
      onNext (.subject 0) e log = .ok (log ++ [(0, e)]) ∧
      observed 1 (log ++ [(0, e)]) = observed 1 log ∧
      onNext (.subject 1) e log = .ok (log ++ [(1, e)]) ∧
      observed 0 (log ++ [(1, e)]) = observed 0 log) :=
  ⟨rfl, rfl, rfl, rfl,
    (clone_channels_distinct sampleMembers emptyInterface (declaring ["submit$"]) 0 1 2
      submitView submitClone rfl rfl).2.2 "submit$" 0 1 rfl (by decide) rfl⟩

/-- C11, as stated, fails.  With `events = ['a', 'b']` the two orders give views whose
own keys come in a different order, which `Object.keys` and `for..in` show, and each
name holds a different channel instance.  With `events = ['a', 'events']` the loop of
`defineView` replaces the declaration before it reads `a`, and stores the channel under
`undefined`; in declaration order `a` has its channel. -/
theorem declaration_order_counterexample :
    defineView sampleMembers emptyInterface (declaring ["a", "b"]) 0
      = .ok (reverseOrderView, 2) ∧
    defineViewDeclarationOrder sampleMembers emptyInterface (declaring ["a", "b"]) 0
      = .ok (declarationOrderView, 2) ∧
    reverseOrderView.own.map Prod.fst = ["vtree$", "b", "a", "clone"] ∧
    declarationOrderView.own.map Prod.fst = ["vtree$", "a", "b", "clone"] ∧
    reverseOrderView.get "a" = .subject 1 ∧ declarationOrderView.get "a" = .subject 0 ∧
    defineView sampleMembers emptyInterface (declaring ["a", "events"]) 0
      = .ok (shadowedView, 2) ∧
    defineViewDeclarationOrder sampleMembers emptyInterface (declaring ["a", "events"]) 0
      = .ok (declarationOrderShadowed, 2) ∧
    shadowedView.hasOwn "a" = false ∧ declarationOrderShadowed.hasOwn "a" = true ∧
    shadowedView.hasOwn "undefined" = true ∧
    declarationOrderShadowed.hasOwn "undefined" = false :=
  ⟨rfl, rfl, by decide, by decide, by decide, by decide, rfl, rfl, by decide, by decide,
    by decide, by decide⟩

/-- C11, amended: for every declared sequence of names `E` that does not contain `events`
(any other strings, duplicates allowed), a Subject being an object that inherits the
accessor `__proto__`: when `defineView` returns `v` and the same steps with the loop run
in declaration order return `w`, the two have made the same number of allocations; a key
is an own field of `v` exactly when it is one of `w`; every key that is not declared,
and `clone`, holds the same value in both; each declared name other than `vtree$` and
`clone` reads in each view as one Subject created by the call, which no other declared
name of that view reads; the two views have the same prototype unless `__proto__` is
declared on a result that runs its setter; and `vtree$` is the same derived observable
when it is not declared, and in each view derived from a Subject of the call when it is.
Nothing is said on the order of the own keys, nor on which instance a name receives. -/
theorem declaration_order_same_view (m : Members)
    (hmem : ∀ id, (lookup "__proto__" (m (.subject id))).isSome = true)
    (mi : Obj) (f : Obj → Obj) (n0 : Nat) (E : List String)
    (hev : lookup "events" (f mi).own = some (.names E)) (hne : "events" ∉ E)
    (v w : Obj) (n1 n2 : Nat) (h1 : defineView m mi f n0 = .ok (v, n1))
    (h2 : defineViewDeclarationOrder m mi f n0 = .ok (w, n2)) :
    n1 = n2 ∧
    (∀ k, v.hasOwn k = w.hasOwn k) ∧
    (∀ k, (k ∉ E ∨ k = "clone") → k ≠ "vtree$" → lookup k v.own = lookup k w.own) ∧
    (∀ k ∈ E, k ≠ "vtree$" → k ≠ "clone" →
      ∃ a b, n0 ≤ a ∧ a < n1 ∧ n0 ≤ b ∧ b < n1 ∧
        v.get k = .subject a ∧ w.get k = .subject b ∧
        ∀ k2 ∈ E, k2 ≠ k → v.get k2 ≠ .subject a ∧ w.get k2 ≠ .subject b) ∧
    (("__proto__" ∈ E → (f mi).runsProtoSetter = false) →
      v.proto = w.proto ∧
      ("vtree$" ∉ E → lookup "vtree$" v.own = lookup "vtree$" w.own)) ∧
    ("vtree$" ∈ E →
      ∃ a b, n0 ≤ a ∧ a < n1 ∧ n0 ≤ b ∧ b < n1 ∧
        lookup "vtree$" v.own = some (.mapped (.subject a)) ∧
        lookup "vtree$" w.own = some (.mapped (.subject b))) := by
  have hwr := writtenNames_of_not_mem E hne
  obtain ⟨a1, a2, a3, a4, ⟨d, ad1, ad2⟩, a6, -⟩ := defineView_declared m mi f n0 E hev v n1 h1
  rw [afterLastEvents_of_not_mem E hne] at a2 ad1 a6
  obtain ⟨b1, b2, b3, b4, ⟨d2, bd1, bd2⟩, b6⟩ :=
    defineViewDeclarationOrder_declared m mi f n0 E hev hne w n2 h2
  have hph : ∀ k : String, ¬ (k = "undefined" ∧ E.length + 2 ≤ E.length) :=
    fun k hc => by omega
  have hwget : ∀ k ∈ E, k ≠ "vtree$" → k ≠ "clone" →
      w.get k = .subject (n0 + lastIndex k E) := by
    intro k hk hk1 hk2
    have hke : k ≠ "events" := fun e => hne (e ▸ hk)
    rw [get_congr w _ k (b6 k hke hk1 hk2) b2]
    exact writeKeys_get_of_mem m hmem k E (f mi) n0 hk
  refine ⟨by omega, ?_, ?_, ?_, ?_, ?_⟩
  · intro k
    unfold Obj.hasOwn
    by_cases c1 : k = "events"
    · subst c1; rw [a3, b3]
    · by_cases c2 : k = "vtree$"
      · subst c2; rw [ad2, bd2]; rfl
      · by_cases c3 : k = "clone"
        · subst c3; rw [a4, b4]
        · rw [a6 k c1 c2 c3 (hph k), b6 k c1 c2 c3, writeKeys_isSome m hmem,
            writeKeys_isSome m hmem]
          simp
  · intro k hk hk1
    by_cases c3 : k = "clone"
    · subst c3; rw [a4, b4]
    · have hk2 : k ∉ E := by
        rcases hk with e | e
        · exact e
        · exact absurd e c3
      by_cases c1 : k = "events"
      · subst c1; rw [a3, b3]
      · rw [a6 k c1 hk1 c3 (hph k), b6 k c1 hk1 c3,
          writeKeys_own_frame m k _ _ _ (by simpa using hk2),
          writeKeys_own_frame m k _ _ _ hk2]
  · intro k hk hk1 hk2
    have hkw : k ∈ writtenNames E := by rw [hwr]; exact hk
    have hv := (defineView_channel m hmem mi f n0 E hev v n1 h1 k hkw hk1 hk2).1
    have hlt := channelNumber_lt E k hkw
    have hlt2 := lastIndex_lt k E hk
    refine ⟨n0 + channelNumber E k, n0 + lastIndex k E, by omega, by omega, by omega,
      by omega, hv, hwget k hk hk1 hk2, ?_⟩
    intro k2 hk3 hne2
    constructor
    · exact defineView_channel_distinct m hmem mi f n0 E hev v n1 h1 k hkw k2
        (by rw [hwr]; exact hk3) hne2
    · by_cases c1 : k2 = "vtree$"
      · subst c1
        rw [get_of_own w _ _ bd2]
        exact rxMap_not_subject _ d2 bd1 _
      · by_cases c2 : k2 = "clone"
        · subst c2
          rw [get_of_own w _ _ b4]
          simp
        · rw [hwget k2 hk3 c1 c2]
          intro e
          have e2 : lastIndex k2 E = lastIndex k E := by
            have := Val.subject.inj e
            omega
          exact hne2 (lastIndex_inj k2 k E hk3 hk e2)
  · intro hproto
    have hp1 : (writeKeys m E.reverse (f mi) n0).1.proto = (f mi).proto := by
      by_cases hm : "__proto__" ∈ E
      · exact writeKeys_proto_of_not_runs m _ _ _ (hproto hm)
      · exact writeKeys_proto_frame m _ _ _ (by simpa using hm)
    have hp2 : (writeKeys m E (f mi) n0).1.proto = (f mi).proto := by
      by_cases hm : "__proto__" ∈ E
      · exact writeKeys_proto_of_not_runs m _ _ _ (hproto hm)
      · exact writeKeys_proto_frame m _ _ _ hm
    refine ⟨by rw [a2, b2, hp1, hp2], ?_⟩
    intro hvt
    have hsame : (writeKeys m E.reverse (f mi) n0).1.get "vtree$"
        = (writeKeys m E (f mi) n0).1.get "vtree$" :=
      get_congr _ _ _
        (by rw [writeKeys_own_frame m _ _ _ _ (by simpa using hvt),
          writeKeys_own_frame m _ _ _ _ hvt])
        (by rw [hp1, hp2])
    rw [hsame, bd1] at ad1
    rw [ad2, bd2, Except.ok.inj ad1]
  · intro hvt
    have o1 := writeKeys_own_of_mem m "vtree$" E.reverse (f mi) n0 (by simpa using hvt)
      (Or.inl (by decide))
    have o2 := writeKeys_own_of_mem m "vtree$" E (f mi) n0 hvt (Or.inl (by decide))
    rw [get_of_own _ _ _ o1] at ad1
    rw [get_of_own _ _ _ o2] at bd1
    have l1 := lastIndex_lt "vtree$" E.reverse (by simpa using hvt)
    have l2 := lastIndex_lt "vtree$" E hvt
    simp only [List.length_reverse] at l1
    simp only [rxMap, Except.ok.injEq] at ad1 bd1
    exact ⟨n0 + lastIndex "vtree$" E.reverse, n0 + lastIndex "vtree$" E, by omega, by omega,
      by omega, by omega, by rw [ad2, ← ad1], by rw [bd2, ← bd1]⟩

/-- Witness of C11: `events = ['a', 'b']` on the model interface `{}`. -/
theorem declaration_order_same_view_witness :
    (2 : Nat) = 2 ∧
    (∀ k, reverseOrderView.hasOwn k = declarationOrderView.hasOwn k) ∧
    (∀ k, (k ∉ ["a", "b"] ∨ k = "clone") → k ≠ "vtree$" →
      lookup k reverseOrderView.own = lookup k declarationOrderView.own) ∧
    (∀ k ∈ ["a", "b"], k ≠ "vtree$" → k ≠ "clone" →
      ∃ a b, 0 ≤ a ∧ a < 2 ∧ 0 ≤ b ∧ b < 2 ∧
        reverseOrderView.get k = .subject a ∧ declarationOrderView.get k = .subject b ∧
        ∀ k2 ∈ ["a", "b"], k2 ≠ k →
          reverseOrderView.get k2 ≠ .subject a ∧ declarationOrderView.get k2 ≠ .subject b) ∧
    (("__proto__" ∈ ["a", "b"] →
        (declaring ["a", "b"] emptyInterface).runsProtoSetter = false) →
      reverseOrderView.proto = declarationOrderView.proto ∧
      ("vtree$" ∉ ["a", "b"] →
        lookup "vtree$" reverseOrderView.own = lookup "vtree$" declarationOrderView.own)) ∧
    ("vtree$" ∈ ["a", "b"] →
      ∃ a b, 0 ≤ a ∧ a < 2 ∧ 0 ≤ b ∧ b < 2 ∧
        lookup "vtree$" reverseOrderView.own = some (.mapped (.subject a)) ∧
        lookup "vtree$" declarationOrderView.own = some (.mapped (.subject b))) :=
  declaration_order_same_view sampleMembers (fun _ => rfl) emptyInterface
    (declaring ["a", "b"]) 0 ["a", "b"] rfl (by decide) reverseOrderView
    declarationOrderView 2 2 rfl rfl

/-- C8, as stated, fails: the view is the one for `events = ['submit$']`, and the source
hands the same snapshot object to each of two subscribers.  After the first subscription
the hook of the object forwards into the channel; the second subscription runs the
rewriter on the same object again, and its hook is the no-op. -/
theorem rewritten_once_counterexample :
    defineView sampleMembers emptyInterface (declaring ["submit$"]) 0
      = .ok (submitView, 1) ∧
    (subscribeTimes singleSource submitView 1 freshHeap).map (fun h => hookValues (h 0))
      = .ok [.forwardIntoStream (.subject 0)] ∧
    (subscribeTimes singleSource submitView 2 freshHeap).map (fun h => hookValues (h 0))
      = .ok [.noop] ∧
    (subscribeTimes singleSource submitView 2 freshHeap).map (fun h => h 0)
      = .ok (replaceStreamNameWithForwardFunction
          (replaceStreamNameWithForwardFunction (freshHeap 0) submitView).1 submitView).1 ∧
    (replaceStreamNameWithForwardFunction
        (replaceStreamNameWithForwardFunction (freshHeap 0) submitView).1 submitView).1
      ≠ (replaceStreamNameWithForwardFunction (freshHeap 0) submitView).1 :=
  ⟨rfl, rfl, rfl, rfl, by
    intro h
    have := congrArg hookValues h
    revert this
    decide⟩

/-- C8, amended: let `defineView` return the view `v` on a definition whose own `vtree$`
is an observable `src` and whose `events` is falsy or declares names among which the
loop does not write `vtree$`, and let the rewriter return on each snapshot object `src`
emits.  Then `k` successive subscriptions to `v.vtree$`, `src` handing the same objects
to every subscriber, all return, and leave each snapshot object as `k` times the number
of its emissions successive runs of the rewriter with `v` leave it: an object that is
not emitted is untouched, and an object is rewritten exactly once only when it is
emitted once to a single subscription. -/
theorem rewrites_per_subscription (m : Members) (mi : Obj) (f : Obj → Obj) (n0 n1 : Nat)
    (v : Obj) (h : defineView m mi f n0 = .ok (v, n1))
    (src : Val) (hvt : lookup "vtree$" (f mi).own = some src)
    (hobs : isObservable src = true)
    (hdecl : truthy ((f mi).get "events") = false ∨
      ∃ E, lookup "events" (f mi).own = some (.names E) ∧ "vtree$" ∉ writtenNames E)
    (emits : Val → List Nat) (hp : Heap)
    (hsafe : ∀ a ∈ emits src, (replaceStreamNameWithForwardFunction (hp a) v).2 = none)
    (k : Nat) :
    ∃ hk, subscribeTimes emits v k hp = .ok hk ∧
      (∀ a, hk a = Nat.iterate (fun t => (replaceStreamNameWithForwardFunction t v).1)
        (k * (emits src).count a) (hp a)) ∧
      (∀ a, a ∉ emits src → hk a = hp a) ∧
      (∀ a, k * (emits src).count a = 1 →
        hk a = (replaceStreamNameWithForwardFunction (hp a) v).1) := by
  have hv := defineView_keeps_vtree m mi f n0 n1 v h src hvt hobs hdecl
  obtain ⟨hk, e1, e2⟩ := subscribeTimes_run emits v src hv k hp
    (fun a ha => shadows_of_returns v (hp a) (hsafe a ha))
  refine ⟨hk, e1, e2, ?_, ?_⟩
  · intro a ha
    rw [e2 a, List.count_eq_zero_of_not_mem ha]
    simp
  · intro a ha
    rw [e2 a, ha]
    rfl

/-- Witness of C8: the view for `events = ['submit$']`, a source that hands the objects
at addresses 0 and 1 to each subscriber, and three subscriptions. -/
theorem rewrites_per_subscription_witness :
    ∃ hk, subscribeTimes doubleSource submitView 3 freshHeap = .ok hk ∧
      (∀ a, hk a =
        Nat.iterate (fun t => (replaceStreamNameWithForwardFunction t submitView).1)
          (3 * (doubleSource (.observable 0)).count a) (freshHeap a)) ∧
      (∀ a, a ∉ doubleSource (.observable 0) → hk a = freshHeap a) ∧
      (∀ a, 3 * (doubleSource (.observable 0)).count a = 1 →
        hk a = (replaceStreamNameWithForwardFunction (freshHeap a) submitView).1) :=
  rewrites_per_subscription sampleMembers emptyInterface (declaring ["submit$"]) 0 1
    submitView rfl (.observable 0) rfl rfl (Or.inr ⟨["submit$"], rfl, by decide⟩)
    doubleSource freshHeap (fun _ _ => rfl) 3

/-- C9, as stated, fails: with `events = ['vtree$']` line 41 replaces the original
`vtree$` by a fresh Subject before line 45 derives from it, so a subscriber of the
returned `vtree$` receives nothing of what the original observable emits. -/
theorem derived_vtree_counterexample :
    defineView sampleMembers emptyInterface (declaring ["vtree$"]) 0
      = .ok (vtreeNamedView, 1) ∧
    vtreeNamedView.get "vtree$" = .mapped (.subject 0) ∧
    singleSource (.observable 0) = [0] ∧
    (subscribeVtree singleSource vtreeNamedView freshHeap).map
      (fun d => d.received.map Prod.fst) = .ok [] :=
  ⟨rfl, by decide, by decide, rfl⟩

/-- C9, amended: let `defineView` return the view `v` on a definition whose own `vtree$`
is an observable `src` and whose `events` is falsy or declares names among which the
loop does not write `vtree$`, and let the rewriter return on each snapshot object `src`
emits.  Then `v.vtree$` is derived from `src`, and a subscription to it returns; no
error is delivered; the objects handed to the subscriber are the objects `src` emits,
as many and in the same order; and each is handed over with the content the rewriter
with `v` gives it, on the content the emissions before it have left. -/
theorem derived_vtree_emits (m : Members) (mi : Obj) (f : Obj → Obj) (n0 n1 : Nat)
    (v : Obj) (h : defineView m mi f n0 = .ok (v, n1))
    (src : Val) (hvt : lookup "vtree$" (f mi).own = some src)
    (hobs : isObservable src = true)
    (hdecl : truthy ((f mi).get "events") = false ∨
      ∃ E, lookup "events" (f mi).own = some (.names E) ∧ "vtree$" ∉ writtenNames E)
    (emits : Val → List Nat) (hp : Heap)
    (hsafe : ∀ a ∈ emits src, (replaceStreamNameWithForwardFunction (hp a) v).2 = none) :
    v.get "vtree$" = .mapped src ∧
    subscribeVtree emits v hp = .ok (subscribeMapped v (emits src) hp) ∧
    (subscribeMapped v (emits src) hp).failed = none ∧
    (subscribeMapped v (emits src) hp).received.map Prod.fst = emits src ∧
    ∀ (i : Nat) (a : Nat), (emits src)[i]? = some a →
      (subscribeMapped v (emits src) hp).received[i]? =
        some (a, (replaceStreamNameWithForwardFunction
          ((subscribeMapped v ((emits src).take i) hp).heap a) v).1) := by
  have hv := defineView_keeps_vtree m mi f n0 n1 v h src hvt hobs hdecl
  have hs : ∀ a ∈ emits src, shadowsHasOwnProperty (hp a) = false :=
    fun a ha => shadows_of_returns v (hp a) (hsafe a ha)
  obtain ⟨i1, i2, -, -⟩ := subscribeMapped_run v (emits src) hp hs
  refine ⟨hv, ?_, i1, i2, subscribeMapped_received v (emits src) hp hs⟩
  simp only [subscribeVtree, hv]

/-- Witness of C9: the view for `events = ['submit$']` and a source that emits the
objects at addresses 0 and 1. -/
theorem derived_vtree_emits_witness :
    submitView.get "vtree$" = .mapped (.observable 0) ∧
    subscribeVtree doubleSource submitView freshHeap
      = .ok (subscribeMapped submitView (doubleSource (.observable 0)) freshHeap) ∧
    (subscribeMapped submitView (doubleSource (.observable 0)) freshHeap).failed = none ∧
    (subscribeMapped submitView (doubleSource (.observable 0)) freshHeap).received.map
      Prod.fst = doubleSource (.observable 0) ∧
    ∀ (i : Nat) (a : Nat), (doubleSource (.observable 0))[i]? = some a →
      (subscribeMapped submitView (doubleSource (.observable 0)) freshHeap).received[i]? =
        some (a, (replaceStreamNameWithForwardFunction
          ((subscribeMapped submitView ((doubleSource (.observable 0)).take i)
            freshHeap).heap a) submitView).1) :=
  derived_vtree_emits sampleMembers emptyInterface (declaring ["submit$"]) 0 1
    submitView rfl (.observable 0) rfl rfl (Or.inr ⟨["submit$"], rfl, by decide⟩)
    doubleSource freshHeap (fun _ _ => rfl)

/-- C13, as stated, fails.  The hook descriptors and the view are objects: when a hook
holds the view itself as its descriptor, line 20 assigns to the view's field `value`,
which names the channel `submit$` before the run and holds a forwarding function after
it.  And when two hooks hold the same descriptor object, the second assignment reads
what the first has written: the hook `ev-click` is left the no-op, where it forwards
into the channel when no other hook holds its descriptor. -/
theorem rewriter_reads_view_counterexample :
    (replaceInStore (oneDescriptorTree 0) 0 aliasStore).2 = none ∧
    (aliasStore 0).get "value" = .str "submit$" ∧
    ((replaceInStore (oneDescriptorTree 0) 0 aliasStore).1 0).get "value"
      = .forwardIntoStream (.subject 0) ∧
    (replaceInStore sharedDescriptorTree 0 sampleStore).2 = none ∧
    ((replaceInStore sharedDescriptorTree 0 sampleStore).1 1).get "value" = .noop ∧
    (replaceInStore (oneDescriptorTree 1) 0 sampleStore).2 = none ∧
    ((replaceInStore (oneDescriptorTree 1) 0 sampleStore).1 1).get "value"
      = .forwardIntoStream (.subject 0) :=
  ⟨rfl, by decide, by decide, rfl, by decide, rfl, by decide⟩

/-- C13, amended: for every tree, view and store of objects in which the view is none of
the hook descriptors the rewriter reaches: whether the rewriter returns or throws, the
view is the same object after the run as before, with the same fields and values, and
so is every object that is not such a descriptor.  When, moreover, no descriptor object
is held by two of those hooks, each descriptor is as it was, or differs only by its
`value`, which is what lines 18-23 give for that descriptor's own former `value` and
the view alone; and when the rewriter returns, every such descriptor has been so
written.  When no descriptor object occurs twice in the whole tree and the view is none
of them, the tree of values the store holds after the run is the tree
`replaceStreamNameWithForwardFunction` leaves of the one it held before, with the same
exception. -/
theorem rewriter_reads_view_only (t : RefTree) (va : Nat) (st : Store)
    (hva : va ∉ descriptorsOf t) :
    (replaceInStore t va st).1 va = st va ∧
    (∀ a, a ∉ descriptorsOf t → (replaceInStore t va st).1 a = st a) ∧
    ((descriptorsOf t).Nodup →
      (∀ d ∈ descriptorsOf t,
        (replaceInStore t va st).1 d = st d ∨
        (replaceInStore t va st).1 d
          = (st d).put "value" (rewriteValue (st va) ((st d).get "value"))) ∧
      ((replaceInStore t va st).2 = none →
        (replaceInStore t va st).1 = rewriteAt (st va) (descriptorsOf t) st)) ∧
    ((allDescriptorsOf t).Nodup → va ∉ allDescriptorsOf t →
      replaceStreamNameWithForwardFunction (materialise st t) (st va) =
        (materialise (replaceInStore t va st).1 t, (replaceInStore t va st).2)) := by
  obtain ⟨f1, g1⟩ := replaceInStore_effect va t st
  refine ⟨f1 va hva, f1, ?_, replaceInStore_materialise va t st⟩
  intro hnd
  obtain ⟨g2, g3⟩ := g1 hnd hva
  refine ⟨g2, ?_⟩
  intro hn
  funext a
  by_cases ha : a ∈ descriptorsOf t
  · rw [g3 hn a ha]
    simp [rewriteAt, ha, writtenDescriptor]
  · rw [f1 a ha]
    simp [rewriteAt, ha]

/-- Witness of C13: the view at address 0 and a two-level tree with the descriptors at
addresses 1 and 2. -/
theorem rewriter_reads_view_only_witness :
    (replaceInStore twoDescriptorTree 0 sampleStore).1 0 = sampleStore 0 ∧
    (∀ a, a ∉ descriptorsOf twoDescriptorTree →
      (replaceInStore twoDescriptorTree 0 sampleStore).1 a = sampleStore a) ∧
    ((descriptorsOf twoDescriptorTree).Nodup →
      (∀ d ∈ descriptorsOf twoDescriptorTree,
        (replaceInStore twoDescriptorTree 0 sampleStore).1 d = sampleStore d ∨
        (replaceInStore twoDescriptorTree 0 sampleStore).1 d
          = (sampleStore d).put "value"
              (rewriteValue (sampleStore 0) ((sampleStore d).get "value"))) ∧
      ((replaceInStore twoDescriptorTree 0 sampleStore).2 = none →
        (replaceInStore twoDescriptorTree 0 sampleStore).1
          = rewriteAt (sampleStore 0) (descriptorsOf twoDescriptorTree) sampleStore)) ∧
    ((allDescriptorsOf twoDescriptorTree).Nodup → 0 ∉ allDescriptorsOf twoDescriptorTree →
      replaceStreamNameWithForwardFunction (materialise sampleStore twoDescriptorTree)
          (sampleStore 0) =
        (materialise (replaceInStore twoDescriptorTree 0 sampleStore).1 twoDescriptorTree,
          (replaceInStore twoDescriptorTree 0 sampleStore).2)) :=
  rewriter_reads_view_only twoDescriptorTree 0 sampleStore (by decide)

end DefineView
